import Mathlib

/-!
# LRU cache of `ngrok/cache` (lru_generic.go)

A shallow embedding of `LRUCacheGeneric`: the recency list of `container/list`
is a Lean list of elements (front first), each element carrying the address of
its node; the index `table` maps a key to the address of a node.  The counters
`size` and `capacity` are Go `uint64` values, kept as natural numbers with
explicit reduction modulo `2^64`; the recorded entry size is a Go `int`.
-/

namespace Cache

/-- Values stored in the cache: Go interface `Value` with `Size() int`,
the result being a 64-bit signed integer. -/
class Value (V : Type) where
  Size : V → Int
  Size_ge : ∀ v, -9223372036854775808 ≤ Size v
  Size_lt : ∀ v, Size v < 9223372036854775808

/-- Conversion `uint64(x)` of a Go `int`. -/
def uint64 (x : Int) : Nat := (x % 18446744073709551616).toNat

/-- Result of 64-bit signed (`int`) arithmetic: wrap into `[-2^63, 2^63)`. -/
def wrapInt (x : Int) : Int :=
  (x + 9223372036854775808) % 18446744073709551616 - 9223372036854775808

/-- Record `entryGeneric`. -/
structure entryGeneric (K V : Type) where
  key : K
  value : V
  size : Int
  time_accessed : Nat
deriving DecidableEq

/-- A `*list.Element`: the address of the node and the entry its `Value` points to. -/
structure Element (K V : Type) where
  addr : Nat
  Value : entryGeneric K V
deriving DecidableEq

/-- Record `LRUCacheGeneric` (the mutex is left out: every operation holds it
for its whole duration).  `list` is front (most recently used) first; `fresh`
is the address the next allocated list node receives.  The entry of a node is
stored with the node in `list`; an operation that reads the entry of a node
which `table` names but `list` does not hold has no result in this model
(`none`), as has one that dereferences the nil result of `list.Back()`. -/
structure LRUCacheGeneric (K V : Type) where
  list : List (Element K V)
  table : List (K × Nat)
  size : Nat
  capacity : Nat
  fresh : Nat
deriving DecidableEq

section Defs

variable {K V : Type} [DecidableEq K]

/-- Map read `table[key]` (`none` is the nil element). -/
def tableGet : List (K × Nat) → K → Option Nat
  | [], _ => none
  | (k, a) :: t, key => if k = key then some a else tableGet t key

/-- Map removal `delete(table, key)`. -/
def tableDel (t : List (K × Nat)) (key : K) : List (K × Nat) :=
  t.filter (fun p => p.1 ≠ key)

/-- Map write `table[key] = element`. -/
def tableSet (t : List (K × Nat)) (key : K) (a : Nat) : List (K × Nat) :=
  (key, a) :: tableDel t key

/-- Constructor `NewLRUCacheGeneric`. -/
def NewLRUCacheGeneric (capacity : Nat) : LRUCacheGeneric K V :=
  { list := [], table := [], size := 0, capacity := capacity, fresh := 0 }

/-- The list node with address `a`, when it is an element of the list. -/
def elementAt (l : List (Element K V)) (a : Nat) : Option (Element K V) :=
  l.find? (fun e => e.addr = a)

/-- Method `list.Remove(e)` for the node with address `a`. -/
def listRemove (l : List (Element K V)) (a : Nat) : List (Element K V) :=
  l.filter (fun e => e.addr ≠ a)

/-- Method `list.MoveToFront(e)` for the node with address `a`
(nothing happens when the node is not an element of the list). -/
def listMoveToFront (l : List (Element K V)) (a : Nat) : List (Element K V) :=
  match elementAt l a with
  | none => l
  | some e => e :: listRemove l a

/-- Assignment through the pointer: rewrite the entry of the node with address `a`. -/
def updateEntry (l : List (Element K V)) (a : Nat)
    (f : entryGeneric K V → entryGeneric K V) : List (Element K V) :=
  l.map (fun e => if e.addr = a then { e with Value := f e.Value } else e)

/-- Method `moveToFront`: move the node to the front and stamp it with `time.Now()`. -/
def moveToFront (lru : LRUCacheGeneric K V) (a : Nat) (now : Nat) : LRUCacheGeneric K V :=
  { lru with
    list := updateEntry (listMoveToFront lru.list a) a
      (fun en => { en with time_accessed := now }) }

/-- One iteration of the loop body of `checkCapacity` for the back node `delElem`. -/
def evictBack (lru : LRUCacheGeneric K V) (delElem : Element K V) : LRUCacheGeneric K V :=
  { lru with
    list := lru.list.dropLast
    table := tableDel lru.table delElem.Value.key
    size := (lru.size + 18446744073709551616 - uint64 delElem.Value.size)
      % 18446744073709551616 }

/-- The loop `for lru.size > lru.capacity` of `checkCapacity`.  The first
argument is the number of nodes left in the list (`checkCapacity` passes the
length and every iteration removes one node), so it is 0 exactly when the list
is empty; `none` is the nil dereference of `list.Back()` on an empty list. -/
def checkCapacityLoop : Nat → LRUCacheGeneric K V → Option (LRUCacheGeneric K V)
  | 0, lru => if lru.size > lru.capacity then none else some lru
  | n + 1, lru =>
    if lru.size > lru.capacity then
      match lru.list.getLast? with
      | none => none
      | some delElem => checkCapacityLoop n (evictBack lru delElem)
    else some lru

/-- Method `checkCapacity`. -/
def checkCapacity (lru : LRUCacheGeneric K V) : Option (LRUCacheGeneric K V) :=
  checkCapacityLoop lru.list.length lru

/-- Method `updateInplace` for the node with address `a`. -/
def updateInplace [Value V] (lru : LRUCacheGeneric K V) (a : Nat) (value : V) (now : Nat) :
    Option (LRUCacheGeneric K V) :=
  match elementAt lru.list a with
  | none => none
  | some element =>
    let valueSize := Value.Size value
    let sizeDiff := wrapInt (valueSize - element.Value.size)
    let lru1 : LRUCacheGeneric K V :=
      { lru with
        list := updateEntry lru.list a (fun en => { en with value := value, size := valueSize })
        size := (lru.size + uint64 sizeDiff) % 18446744073709551616 }
    checkCapacity (moveToFront lru1 a now)

/-- Method `addNew`. -/
def addNew [Value V] (lru : LRUCacheGeneric K V) (key : K) (value : V) (now : Nat) :
    Option (LRUCacheGeneric K V) :=
  let newEntry : entryGeneric K V :=
    { key := key, value := value, size := Value.Size value, time_accessed := now }
  let element : Element K V := { addr := lru.fresh, Value := newEntry }
  checkCapacity
    { list := element :: lru.list
      table := tableSet lru.table key element.addr
      size := (lru.size + uint64 newEntry.size) % 18446744073709551616
      capacity := lru.capacity
      fresh := lru.fresh + 1 }

/-- Method `Get`: the new state and `some v` for `(v, true)`, `none` for `(zero, false)`. -/
def Get (lru : LRUCacheGeneric K V) (key : K) (now : Nat) :
    Option (LRUCacheGeneric K V × Option V) :=
  match tableGet lru.table key with
  | none => some (lru, none)
  | some a =>
    match elementAt lru.list a with
    | none => none
    | some element => some (moveToFront lru a now, some element.Value.value)

/-- Method `Set`. -/
def Set [Value V] (lru : LRUCacheGeneric K V) (key : K) (value : V) (now : Nat) :
    Option (LRUCacheGeneric K V) :=
  match tableGet lru.table key with
  | some a => updateInplace lru a value now
  | none => addNew lru key value now

/-- Method `SetIfAbsent`. -/
def SetIfAbsent [Value V] (lru : LRUCacheGeneric K V) (key : K) (value : V) (now : Nat) :
    Option (LRUCacheGeneric K V) :=
  match tableGet lru.table key with
  | some a => some (moveToFront lru a now)
  | none => addNew lru key value now

/-- Method `Delete`: the new state and the returned boolean. -/
def Delete (lru : LRUCacheGeneric K V) (key : K) : Option (LRUCacheGeneric K V × Bool) :=
  match tableGet lru.table key with
  | none => some (lru, false)
  | some a =>
    match elementAt lru.list a with
    | none => none
    | some element =>
      some ({ lru with
              list := listRemove lru.list a
              table := tableDel lru.table key
              size := (lru.size + 18446744073709551616 - uint64 element.Value.size)
                % 18446744073709551616 }, true)

/-- Method `Clear`. -/
def Clear (lru : LRUCacheGeneric K V) : LRUCacheGeneric K V :=
  { lru with list := [], table := [], size := 0 }

/-- Method `SetCapacity`. -/
def SetCapacity (lru : LRUCacheGeneric K V) (capacity : Nat) : Option (LRUCacheGeneric K V) :=
  checkCapacity { lru with capacity := capacity }

/-- Method `Stats`: length, size, capacity and the access time of the back
node (the zero time `0` for an empty list). -/
def Stats (lru : LRUCacheGeneric K V) : Nat × Nat × Nat × Nat :=
  (lru.list.length, lru.size, lru.capacity,
    match lru.list.getLast? with
    | some lastElem => lastElem.Value.time_accessed
    | none => 0)

/-- Method `Keys`. -/
def Keys (lru : LRUCacheGeneric K V) : List K :=
  lru.list.map (fun e => e.Value.key)

/-- Method `Items`. -/
def Items (lru : LRUCacheGeneric K V) : List (K × V) :=
  lru.list.map (fun e => (e.Value.key, e.Value.value))

/-- The public operations that change or touch the cache. -/
inductive Op (K V : Type) where
  | get (key : K) (now : Nat)
  | set (key : K) (value : V) (now : Nat)
  | setIfAbsent (key : K) (value : V) (now : Nat)
  | delete (key : K)
  | clear
  | setCapacity (capacity : Nat)

/-- One public call; `none` when the call does not return (a run-time fault). -/
def step [Value V] (lru : LRUCacheGeneric K V) : Op K V → Option (LRUCacheGeneric K V)
  | .get key now => (Get lru key now).map Prod.fst
  | .set key value now => Set lru key value now
  | .setIfAbsent key value now => SetIfAbsent lru key value now
  | .delete key => (Delete lru key).map Prod.fst
  | .clear => some (Clear lru)
  | .setCapacity capacity => SetCapacity lru capacity

/-- A sequence of public calls, in order. -/
def run [Value V] (lru : LRUCacheGeneric K V) : List (Op K V) → Option (LRUCacheGeneric K V)
  | [] => some lru
  | op :: ops => (step lru op).bind (fun lru1 => run lru1 ops)

/-- Arguments of type `uint64` are below `2^64`. -/
def Op.valid : Op K V → Prop
  | .setCapacity capacity => capacity < 18446744073709551616
  | _ => True

/-- The values handed to the cache report a non-negative size. -/
def Op.nonneg [Value V] : Op K V → Prop
  | .set _ value _ => 0 ≤ Value.Size value
  | .setIfAbsent _ value _ => 0 ≤ Value.Size value
  | _ => True

/-- States reached from a new cache by a sequence of public calls. -/
def Reachable [Value V] (lru : LRUCacheGeneric K V) : Prop :=
  ∃ (capacity : Nat) (ops : List (Op K V)),
    capacity < 18446744073709551616 ∧ (∀ op ∈ ops, op.valid) ∧
    run (NewLRUCacheGeneric capacity) ops = some lru

/-- Sum of the recorded weights of the entries held. -/
def weightSum (l : List (Element K V)) : Int :=
  (l.map (fun e => e.Value.size)).sum

/-- The entries held, front first, without node addresses and time stamps. -/
def entries (lru : LRUCacheGeneric K V) : List (K × V × Int) :=
  lru.list.map (fun e => (e.Value.key, e.Value.value, e.Value.size))

end Defs

/-- Representation invariant: node addresses and keys are unique in the list,
the index holds exactly the keys of the list and maps each to the address of
its node, every address in use was allocated, and `size` is the sum of the
recorded weights as a `uint64`. -/
structure WF {K V : Type} [DecidableEq K] (lru : LRUCacheGeneric K V) : Prop where
  addr_nodup : (lru.list.map (fun e => e.addr)).Nodup
  key_nodup : (Keys lru).Nodup
  table_iff : ∀ k a, tableGet lru.table k = some a ↔
    ∃ e ∈ lru.list, e.addr = a ∧ e.Value.key = k
  addr_lt : ∀ e ∈ lru.list, e.addr < lru.fresh
  acct : (lru.size : Int) = weightSum lru.list % 18446744073709551616

/-- A payload that reports its length in bytes (capped at the largest `int`). -/
structure Blob where
  len : Nat
deriving DecidableEq

instance : Value Blob where
  Size b := ((min b.len 9223372036854775807 : Nat) : Int)
  Size_ge := by
    intro v
    show (-9223372036854775808 : Int) ≤ ((min v.len 9223372036854775807 : Nat) : Int)
    omega
  Size_lt := by
    intro v
    show ((min v.len 9223372036854775807 : Nat) : Int) < 9223372036854775808
    omega

instance {K V : Type} (op : Op K V) : Decidable op.valid := by
  cases op <;> unfold Op.valid <;> infer_instance

instance {K V : Type} [Value V] (op : Op K V) : Decidable op.nonneg := by
  cases op <;> unfold Op.nonneg <;> infer_instance

/-- The scenario of the specification: capacity 10, keys of size 6. -/
def opsAB : List (Op String Blob) := [.set "a" ⟨6⟩ 1, .set "b" ⟨6⟩ 2]

/-- Three values whose sizes add up to more than `2^64 - 1`, for a cache of
capacity `2^63 + 10`. -/
def opsWrap : List (Op String Blob) :=
  [.set "a" ⟨9223372036854775807⟩ 1, .set "b" ⟨11⟩ 2, .set "c" ⟨9223372036854775807⟩ 3]

/-- The capacity argument of `SetCapacity` is at most `2^63`. -/
def Op.capBound {K V : Type} : Op K V → Prop
  | .setCapacity capacity => capacity ≤ 9223372036854775808
  | _ => True

instance {K V : Type} (op : Op K V) : Decidable op.capBound := by
  cases op <;> unfold Op.capBound <;> infer_instance

/-- The sequence `opsWrap` followed by `Delete("b")`. -/
def opsWrapDelete : List (Op String Blob) := opsWrap ++ [.delete "b"]

/-- A mixed sequence of calls on a cache of capacity 10. -/
def opsMixed : List (Op String Blob) :=
  [.set "a" ⟨6⟩ 1, .set "b" ⟨3⟩ 2, .get "a" 3, .setIfAbsent "c" ⟨4⟩ 4, .delete "b",
   .setCapacity 5, .set "c" ⟨5⟩ 6, .clear]

/-- The cache of capacity 10 after `Set("a", size 6)`. -/
def stateA : LRUCacheGeneric String Blob :=
  { list := [⟨0, ⟨"a", ⟨6⟩, 6, 1⟩⟩], table := [("a", 0)], size := 6, capacity := 10, fresh := 1 }

/-- The cache of capacity 10 after `Set("a", size 6)` and `Set("b", size 6)`. -/
def stateAB : LRUCacheGeneric String Blob :=
  { list := [⟨1, ⟨"b", ⟨6⟩, 6, 2⟩⟩], table := [("b", 1)], size := 6, capacity := 10, fresh := 2 }

/-- Three keys of size 3 set in the order A, B, C. -/
def opsABC : List (Op String Blob) := [.set "A" ⟨3⟩ 1, .set "B" ⟨3⟩ 2, .set "C" ⟨3⟩ 3]

/-- The cache of capacity 10 after `opsABC`. -/
def stateABC : LRUCacheGeneric String Blob :=
  { list := [⟨2, ⟨"C", ⟨3⟩, 3, 3⟩⟩, ⟨1, ⟨"B", ⟨3⟩, 3, 2⟩⟩, ⟨0, ⟨"A", ⟨3⟩, 3, 1⟩⟩]
    table := [("C", 2), ("B", 1), ("A", 0)]
    size := 9, capacity := 10, fresh := 3 }

/-- The cache of capacity `2^64 - 1` after two values of size `2^63 - 1` were set. -/
def stateBig : LRUCacheGeneric String Blob :=
  { list := [⟨1, ⟨"b", ⟨9223372036854775807⟩, 9223372036854775807, 2⟩⟩,
             ⟨0, ⟨"a", ⟨9223372036854775807⟩, 9223372036854775807, 1⟩⟩]
    table := [("b", 1), ("a", 0)]
    size := 18446744073709551614, capacity := 18446744073709551615, fresh := 2 }

/-- The cache of capacity `2^63 + 10` after `opsWrap`: the total weight wrapped to 9. -/
def stateWrap : LRUCacheGeneric String Blob :=
  { list := [⟨2, ⟨"c", ⟨9223372036854775807⟩, 9223372036854775807, 3⟩⟩,
             ⟨1, ⟨"b", ⟨11⟩, 11, 2⟩⟩,
             ⟨0, ⟨"a", ⟨9223372036854775807⟩, 9223372036854775807, 1⟩⟩]
    table := [("c", 2), ("b", 1), ("a", 0)]
    size := 9, capacity := 9223372036854775818, fresh := 3 }

/-- The reading of `time.Now()` a call is given, for the calls that take one. -/
def Op.time {K V : Type} : Op K V → Option Nat
  | .get _ now => some now
  | .set _ _ now => some now
  | .setIfAbsent _ _ now => some now
  | _ => none

/-- A non-decreasing clock: every reading in the sequence is at least `t` and
at least the reading before it. -/
def clockFrom {K V : Type} : Nat → List (Op K V) → Prop
  | _, [] => True
  | t, op :: ops =>
    match op.time with
    | some now => t ≤ now ∧ clockFrom now ops
    | none => clockFrom t ops

/-- The access time stamps of the held entries, front first. -/
def accessTimes {K V : Type} (lru : LRUCacheGeneric K V) : List Nat :=
  lru.list.map (fun e => e.Value.time_accessed)

/-- The list is ordered by access time, latest first, and no stamp is later than `t`. -/
def TimeSorted {K V : Type} (l : List (Element K V)) (t : Nat) : Prop :=
  (l.map (fun e => e.Value.time_accessed)).Pairwise (fun a b => b ≤ a) ∧
  ∀ e ∈ l, e.Value.time_accessed ≤ t

/-- Calls on a cache of capacity 10 with a rising clock: the key "a" is read
after "b" and "c" were set. -/
def opsClock : List (Op String Blob) :=
  [.set "a" ⟨2⟩ 1, .set "b" ⟨2⟩ 2, .set "c" ⟨2⟩ 2, .get "a" 5, .setIfAbsent "b" ⟨9⟩ 7,
   .delete "c", .set "d" ⟨3⟩ 8]

/-- The serialisation `SaveItems` and `LoadItems` hand their items to (package
`encoding/gob`, outside the repository): an encoder and a decoder between item
sequences and byte streams, each of which may fail with an error. -/
structure Codec (V E : Type) where
  encode : List (String × V) → Except E (List Nat)
  decode : List Nat → Except E (List (String × V))

deriving instance DecidableEq for Except

/-- Method `LRUCache.Items` of lru.go: the generic items as `Item` records. -/
def LRUCache.Items {V : Type} (lru : LRUCacheGeneric String V) : List (String × V) :=
  (Cache.Items lru).map (fun item => (item.1, item.2))

/-- Method `SaveItems`: the bytes written, or the error of the encoder. -/
def SaveItems {V E : Type} (codec : Codec V E) (lru : LRUCacheGeneric String V) :
    Except E (List Nat) :=
  let items := LRUCache.Items lru
  let legacyItems := items.map (fun item => (item.1, item.2))
  codec.encode legacyItems

/-- The loop `for _, item := range items { lru.Set(item.Key, item.Value) }` of
`LoadItems`; the `i`-th call of `Set` reads the clock as `clock i`. -/
def setItems {V : Type} [Value V] (clock : Nat → Nat) :
    LRUCacheGeneric String V → List (String × V) → Nat → Option (LRUCacheGeneric String V)
  | lru, [], _ => some lru
  | lru, item :: items, i =>
    (Set lru item.1 item.2 (clock i)).bind (fun lru1 => setItems clock lru1 items (i + 1))

/-- Method `LoadItems`: the new state and the returned error (`none` for nil). -/
def LoadItems {V E : Type} [Value V] (codec : Codec V E) (lru : LRUCacheGeneric String V)
    (r : List Nat) (clock : Nat → Nat) : Option (LRUCacheGeneric String V × Option E) :=
  match codec.decode r with
  | .error err => some (lru, some err)
  | .ok items => (setItems clock lru items 0).map (fun lru1 => (lru1, none))

/-- Decoder of `blobCodec` for `n` remaining items. -/
def decodeBlobs : Nat → List Nat → Except String (List (String × Blob))
  | 0, [] => .ok []
  | 0, _ :: _ => .error "trailing bytes"
  | _ + 1, [] => .error "truncated"
  | n + 1, klen :: rest =>
    match rest.drop klen with
    | [] => .error "truncated"
    | len :: rest1 =>
      match decodeBlobs n rest1 with
      | .error err => .error err
      | .ok items => .ok ((String.mk ((rest.take klen).map Char.ofNat), ⟨len⟩) :: items)

/-- A small codec for `Blob` items: the number of items, then for every item the
length of the key, the characters of the key and the length of the blob. -/
def blobCodec : Codec Blob String where
  encode items :=
    .ok (items.length ::
      items.flatMap (fun p => p.1.length :: (p.1.toList.map Char.toNat ++ [p.2.len])))
  decode r :=
    match r with
    | [] => .error "empty stream"
    | n :: rest => decodeBlobs n rest

/-- The cache of capacity `2^63 + 10` after `opsWrapDelete`. -/
def stateWrapDel : LRUCacheGeneric String Blob :=
  { list := [⟨2, ⟨"c", ⟨9223372036854775807⟩, 9223372036854775807, 3⟩⟩,
             ⟨0, ⟨"a", ⟨9223372036854775807⟩, 9223372036854775807, 1⟩⟩]
    table := [("c", 2), ("a", 0)]
    size := 18446744073709551614, capacity := 9223372036854775818, fresh := 3 }

/-- The sum of the sizes the values of an item sequence report. -/
def itemsWeight {V : Type} [Value V] (items : List (String × V)) : Int :=
  (items.map (fun p => Value.Size p.2)).sum

/-- The guarded loop `while size > capacity and the cache is non-empty` that the
loop of `checkCapacity` is compared with: it stops on an empty list instead of
dereferencing the nil result of `list.Back()`.  The first argument is the
number of nodes left in the list, as in `checkCapacityLoop`. -/
def guardedLoop {K V : Type} [DecidableEq K] : Nat → LRUCacheGeneric K V → LRUCacheGeneric K V
  | 0, lru => lru
  | n + 1, lru =>
    if lru.size > lru.capacity then
      match lru.list.getLast? with
      | none => lru
      | some delElem => guardedLoop n (evictBack lru delElem)
    else lru

/-- The capacity check with the guarded loop. -/
def checkCapacityGuarded {K V : Type} [DecidableEq K] (lru : LRUCacheGeneric K V) :
    LRUCacheGeneric K V :=
  guardedLoop lru.list.length lru

/-- A state no sequence of public calls produces: an empty list with a total
weight of 5 above the capacity 1. -/
def stateCorrupt : LRUCacheGeneric String Blob :=
  { list := [], table := [], size := 5, capacity := 1, fresh := 0 }

/-- Calls on a cache of capacity `2^64 - 1`: two values of size `2^63 - 1`, one
of size 5 (the total wraps to 3), then the capacity is lowered to 10. -/
def opsWrapCap : List (Op String Blob) :=
  [.set "a" ⟨9223372036854775807⟩ 1, .set "b" ⟨9223372036854775807⟩ 2, .set "c" ⟨5⟩ 3,
   .setCapacity 10]

/-- The cache of capacity 10 after `opsWrapCap`: three entries, total weight 3. -/
def stateWrapCap : LRUCacheGeneric String Blob :=
  { list := [⟨2, ⟨"c", ⟨5⟩, 5, 3⟩⟩,
             ⟨1, ⟨"b", ⟨9223372036854775807⟩, 9223372036854775807, 2⟩⟩,
             ⟨0, ⟨"a", ⟨9223372036854775807⟩, 9223372036854775807, 1⟩⟩]
    table := [("c", 2), ("b", 1), ("a", 0)]
    size := 3, capacity := 10, fresh := 3 }

/-- The touch a call makes in the state it is called on: the key and the clock
reading of a `Get` that hits (the index holds the key), of a `Set` and of a
`SetIfAbsent`; no other call touches an entry. -/
def Op.touch {K V : Type} [DecidableEq K] (lru : LRUCacheGeneric K V) :
    Op K V → Option (K × Nat)
  | .get key now => if (tableGet lru.table key).isSome then some (key, now) else none
  | .set key _ now => some (key, now)
  | .setIfAbsent key _ now => some (key, now)
  | _ => none

/-- One more touch in a log of touches: the touched key moves to the front of
the log, with the clock reading of the touch. -/
def logTouch {K : Type} [DecidableEq K] (log : List (K × Nat)) :
    Option (K × Nat) → List (K × Nat)
  | none => log
  | some (k, now) => (k, now) :: log.filter (fun p => p.1 ≠ k)

/-- The touch log of a sequence of calls started in `lru`: every key touched so
far, the most recently touched first, each with the clock reading of its last
touch. -/
def touchLog {K V : Type} [DecidableEq K] [Value V] :
    LRUCacheGeneric K V → List (Op K V) → List (K × Nat) → List (K × Nat)
  | _, [], log => log
  | lru, op :: ops, log =>
    match step lru op with
    | some lru1 => touchLog lru1 ops (logTouch log (op.touch lru))
    | none => logTouch log (op.touch lru)

/-- The keys of the held entries with their access time stamps, front first. -/
def keyTimes {K V : Type} (lru : LRUCacheGeneric K V) : List (K × Nat) :=
  lru.list.map (fun e => (e.Value.key, e.Value.time_accessed))

/-- On a cache of capacity 10: "a" and "b" are set, then "a" is read. -/
def opsTouch : List (Op String Blob) := [.set "a" ⟨2⟩ 1, .set "b" ⟨2⟩ 2, .get "a" 3]

/-- The key a call names and the clock reading it is given, for `Get`, `Set`
and `SetIfAbsent`, whether or not the key is held. -/
def Op.mention {K V : Type} : Op K V → Option (K × Nat)
  | .get key now => some (key, now)
  | .set key _ now => some (key, now)
  | .setIfAbsent key _ now => some (key, now)
  | _ => none

/-- The log of a sequence of calls read off the calls alone: every key named by
a `Get`, `Set` or `SetIfAbsent` so far, the most recently named first, each with
the clock reading of the last call that named it. -/
def mentionLog {K V : Type} [DecidableEq K] :
    List (Op K V) → List (K × Nat) → List (K × Nat)
  | [], log => log
  | op :: ops, log => mentionLog ops (logTouch log op.mention)

end Cache

namespace Ratelimit

/-!
# Rate limiter of `ngrok/ratelimit` (ratelimit.go)

The token buckets are `*rate.Limiter` values of `golang.org/x/time/rate`, a
package outside the repository: its operations are a parameter (`RateLib`).
Maps are association lists; a stored limiter carries the address of its object,
so that replacing a limiter differs from changing the state of the stored one.
Calls are sequential; the locks of the code delimit the atomic steps.
-/

/-- Map read `m[key]` with the `exists` flag: `none` when the key is absent. -/
def mapGet {α : Type} : List (String × α) → String → Option α
  | [], _ => none
  | (k, a) :: m, key => if k = key then some a else mapGet m key

/-- Map removal `delete(m, key)`. -/
def mapDel {α : Type} (m : List (String × α)) (key : String) : List (String × α) :=
  m.filter (fun p => p.1 ≠ key)

/-- Map write `m[key] = a`: the value of a stored key is overwritten in place,
a new key is added. -/
def mapSet {α : Type} (m : List (String × α)) (key : String) (a : α) : List (String × α) :=
  match mapGet m key with
  | some _ => m.map (fun p => if p.1 = key then (p.1, a) else p)
  | none => (key, a) :: m

/-- The operations of `rate.Limiter` the code calls, on limiter states `L`:
`NewLimiter(limit, burst)`, and `Allow`, `Wait(ctx)` and `Reserve` at a reading
`now` of the clock, each giving the new state of the limiter and its result
(for `Wait`, `true` stands for the nil error). -/
structure RateLib (L C R : Type) where
  NewLimiter : Rat → Int → L
  Allow : L → Nat → L × Bool
  Wait : L → C → Nat → L × Bool
  Reserve : L → Nat → L × R

/-- A `*rate.Limiter`: the address of the object and its state. -/
structure LimiterRef (L : Type) where
  addr : Nat
  state : L
deriving DecidableEq

/-- Record `RateLimiter` (the lock is left out); `fresh` is the address the
next allocated limiter receives. -/
structure RateLimiter (L : Type) where
  limiters : List (String × LimiterRef L)
  limit : Rat
  burst : Int
  cleanup : Nat
  fresh : Nat
deriving DecidableEq

section Defs

variable {L C R : Type}

/-- Constructor `NewRateLimiter` (the cleanup goroutine it starts only calls
`performCleanup`). -/
def NewRateLimiter (rps : Rat) (burst : Int) (cleanup : Nat) : RateLimiter L :=
  { limiters := [], limit := rps, burst := burst, cleanup := cleanup, fresh := 0 }

/-- Method `getLimiter`: the look-up under the read lock, then under the write
lock the second look-up and the creation of the limiter. -/
def getLimiter (lib : RateLib L C R) (rl : RateLimiter L) (key : String) :
    RateLimiter L × LimiterRef L :=
  match mapGet rl.limiters key with
  | some limiter => (rl, limiter)
  | none =>
    match mapGet rl.limiters key with
    | some limiter => (rl, limiter)
    | none =>
      let limiter : LimiterRef L :=
        { addr := rl.fresh, state := lib.NewLimiter rl.limit rl.burst }
      ({ rl with limiters := mapSet rl.limiters key limiter, fresh := rl.fresh + 1 }, limiter)

/-- The change of state of the limiter object at address `a` through its pointer. -/
def writeLimiter (rl : RateLimiter L) (a : Nat) (st : L) : RateLimiter L :=
  { rl with
    limiters := rl.limiters.map
      (fun p => if p.2.addr = a then (p.1, { p.2 with state := st }) else p) }

/-- Method `Allow`. -/
def Allow (lib : RateLib L C R) (rl : RateLimiter L) (key : String) (now : Nat) :
    RateLimiter L × Bool :=
  let (rl1, limiter) := getLimiter lib rl key
  let (st, ok) := lib.Allow limiter.state now
  (writeLimiter rl1 limiter.addr st, ok)

/-- Method `Wait` (`true` for the nil error). -/
def Wait (lib : RateLib L C R) (rl : RateLimiter L) (ctx : C) (key : String) (now : Nat) :
    RateLimiter L × Bool :=
  let (rl1, limiter) := getLimiter lib rl key
  let (st, ok) := lib.Wait limiter.state ctx now
  (writeLimiter rl1 limiter.addr st, ok)

/-- Method `Reserve`. -/
def Reserve (lib : RateLib L C R) (rl : RateLimiter L) (key : String) (now : Nat) :
    RateLimiter L × R :=
  let (rl1, limiter) := getLimiter lib rl key
  let (st, r) := lib.Reserve limiter.state now
  (writeLimiter rl1 limiter.addr st, r)

/-- Method `performCleanup`: the body between `Lock` and `Unlock` is empty. -/
def performCleanup (rl : RateLimiter L) : RateLimiter L := rl

/-- Record `ConnectionRateLimiter` (the lock `connMu` is left out). -/
structure ConnectionRateLimiter (L : Type) where
  RateLimiter : RateLimiter L
  maxConnections : Int
  connections : List (String × Int)
deriving DecidableEq

/-- Constructor `NewConnectionRateLimiter` (cleanup period of 10 minutes, in
nanoseconds). -/
def NewConnectionRateLimiter (rps : Rat) (burst : Int) (maxConn : Int) :
    ConnectionRateLimiter L :=
  { RateLimiter := NewRateLimiter rps burst 600000000000
    maxConnections := maxConn
    connections := [] }

/-- Map read `rl.connections[key]` (0 for an absent key). -/
def readCount (rl : ConnectionRateLimiter L) (key : String) : Int :=
  (mapGet rl.connections key).getD 0

/-- Statement `rl.connections[key]++` (64-bit `int` arithmetic). -/
def incrCount (rl : ConnectionRateLimiter L) (key : String) : ConnectionRateLimiter L :=
  { rl with connections := mapSet rl.connections key (Cache.wrapInt (readCount rl key + 1)) }

/-- Method `AllowConnection`. -/
def AllowConnection (lib : RateLib L C R) (rl : ConnectionRateLimiter L) (key : String)
    (now : Nat) : ConnectionRateLimiter L × Bool :=
  let (r1, ok) := Allow lib rl.RateLimiter key now
  let rl1 : ConnectionRateLimiter L := { rl with RateLimiter := r1 }
  if !ok then (rl1, false)
  else
    let count := readCount rl1 key
    if count ≥ rl1.maxConnections then (rl1, false)
    else (incrCount rl1 key, true)

/-- Method `ReleaseConnection`. -/
def ReleaseConnection (rl : ConnectionRateLimiter L) (key : String) :
    ConnectionRateLimiter L :=
  match mapGet rl.connections key with
  | some count =>
    if count > 0 then
      let rl1 : ConnectionRateLimiter L :=
        { rl with connections := mapSet rl.connections key (Cache.wrapInt (count - 1)) }
      if readCount rl1 key = 0 then { rl1 with connections := mapDel rl1.connections key }
      else rl1
    else rl
  | none => rl

end Defs

/-- Modelled from the spec: the token bucket behind `rate.Limiter`, which is
outside the repository ("Per key, tokens accumulate continuously at the
configured rate up to the burst ceiling; each admission attempt consumes one
token if available").  `limit` is in tokens per second and `last` is the
reading of the clock, in nanoseconds, at which `tokens` was computed.  To keep
the arithmetic exact, `tokens` counts parts of a token: one token is
`Bucket.unit` parts, so that one nanosecond adds `limit.num` parts. -/
structure Bucket where
  limit : Rat
  burst : Int
  tokens : Int
  last : Nat
deriving DecidableEq

/-- Modelled from the spec: the number of parts of one token, `limit.den * 10^9`. -/
def Bucket.unit (b : Bucket) : Int := (b.limit.den : Int) * 1000000000

/-- Modelled from the spec: a new bucket holds `burst` tokens (with rate 1 and
burst 1 the first of two immediate `Allow` calls succeeds). -/
def Bucket.new (limit : Rat) (burst : Int) : Bucket :=
  { limit := limit, burst := burst, tokens := burst * ((limit.den : Int) * 1000000000),
    last := 0 }

/-- Modelled from the spec: the parts held at the reading `now`, accumulated at
`limit` tokens per second since `last` and capped at `burst` tokens. -/
def Bucket.refill (b : Bucket) (now : Nat) : Int :=
  min (b.burst * b.unit) (b.tokens + b.limit.num * ((now - b.last : Nat) : Int))

/-- Modelled from the spec: `Allow` consumes one token if one is available. -/
def Bucket.allow (b : Bucket) (now : Nat) : Bucket × Bool :=
  if b.unit ≤ b.refill now then ({ b with tokens := b.refill now - b.unit, last := now }, true)
  else ({ b with tokens := b.refill now, last := now }, false)

/-- Modelled from the spec: `Reserve` takes a token, possibly one not yet
accumulated, and reports the delay in nanoseconds after which it is available
(`none` when it never is, the rate being zero). -/
def Bucket.reserve (b : Bucket) (now : Nat) : Bucket × Option Nat :=
  if b.unit ≤ b.refill now then
    ({ b with tokens := b.refill now - b.unit, last := now }, some 0)
  else if 0 < b.limit.num then
    ({ b with tokens := b.refill now - b.unit, last := now },
      some ((b.unit - b.refill now + b.limit.num - 1) / b.limit.num).toNat)
  else (b, none)

/-- Modelled from the spec: `Wait` with a context that is cancelled at the
reading `deadline` (`none`: never) takes a token when one is available before
the deadline, and fails without taking one otherwise. -/
def Bucket.wait (b : Bucket) (deadline : Option Nat) (now : Nat) : Bucket × Bool :=
  match (b.reserve now).2, deadline with
  | none, _ => (b, false)
  | some _, none => ((b.reserve now).1, true)
  | some delay, some d => if now + delay ≤ d then ((b.reserve now).1, true) else (b, false)

/-- Modelled from the spec: the token bucket as the limiter library. -/
def bucketLib : RateLib Bucket (Option Nat) (Option Nat) where
  NewLimiter := Bucket.new
  Allow := Bucket.allow
  Wait := Bucket.wait
  Reserve := Bucket.reserve

/-- Where a goroutine stands in `AllowConnection`: before `rl.Allow`, admitted
by it and before the read of the count, holding the count it read, or returned. -/
inductive Pc where
  | start
  | admitted
  | counted (count : Int)
  | done (result : Bool)
deriving DecidableEq

/-- One atomic step of a goroutine running `AllowConnection(key)`: the call of
`rl.Allow`; the read `count := rl.connections[key]` between `RLock` and
`RUnlock`; the comparison with the ceiling and the increment between `Lock` and
`Unlock`. -/
def allowStep {L C R : Type} (lib : RateLib L C R) (rl : ConnectionRateLimiter L)
    (key : String) (now : Nat) : Pc → ConnectionRateLimiter L × Pc
  | .start =>
    let (r1, ok) := Allow lib rl.RateLimiter key now
    ({ rl with RateLimiter := r1 }, if ok then .admitted else .done false)
  | .admitted => (rl, .counted (readCount rl key))
  | .counted count =>
    if count ≥ rl.maxConnections then (rl, .done false) else (incrCount rl key, .done true)
  | .done result => (rl, .done result)

/-- A goroutine: the key and clock reading of its `AllowConnection` call and
where it stands. -/
structure Goroutine where
  key : String
  now : Nat
  pc : Pc
deriving DecidableEq

/-- The goroutine with index `i` takes its next atomic step. -/
def schedStep {L C R : Type} (lib : RateLib L C R)
    (st : ConnectionRateLimiter L × List Goroutine) (i : Nat) :
    ConnectionRateLimiter L × List Goroutine :=
  match st.2[i]? with
  | none => st
  | some g =>
    let (rl1, pc1) := allowStep lib st.1 g.key g.now g.pc
    (rl1, st.2.set i { g with pc := pc1 })

/-- An interleaving: the goroutines step in the order the schedule names them. -/
def runSchedule {L C R : Type} (lib : RateLib L C R)
    (st : ConnectionRateLimiter L × List Goroutine) (schedule : List Nat) :
    ConnectionRateLimiter L × List Goroutine :=
  schedule.foldl (schedStep lib) st

/-- Sequential calls on a connection gate. -/
inductive GateOp where
  | allow (key : String) (now : Nat)
  | release (key : String)
deriving DecidableEq

/-- One sequential call on the gate: the new state and the result of
`AllowConnection` (`none` for `ReleaseConnection`, which returns nothing). -/
def gateStep {L C R : Type} (lib : RateLib L C R) (rl : ConnectionRateLimiter L) :
    GateOp → ConnectionRateLimiter L × Option Bool
  | .allow key now => ((AllowConnection lib rl key now).1, some (AllowConnection lib rl key now).2)
  | .release key => (ReleaseConnection rl key, none)

/-- A sequence of sequential calls on the gate: the final state and the
results, in order. -/
def gateRun {L C R : Type} (lib : RateLib L C R) :
    ConnectionRateLimiter L → List GateOp → ConnectionRateLimiter L × List (Option Bool)
  | rl, [] => (rl, [])
  | rl, op :: ops =>
    ((gateRun lib (gateStep lib rl op).1 ops).1,
      (gateStep lib rl op).2 :: (gateRun lib (gateStep lib rl op).1 ops).2)

/-- Every stored counter is positive and at most the ceiling. -/
def CountsOK {L : Type} (rl : ConnectionRateLimiter L) : Prop :=
  ∀ p ∈ rl.connections, 0 < p.2 ∧ p.2 ≤ rl.maxConnections

/-- The scenario of the specification on a gate with ceiling 2: three
admissions, a release, one more admission. -/
def gateOps : List GateOp :=
  [.allow "k" 1, .allow "k" 2, .allow "k" 3, .release "k", .allow "k" 4]

/-- A gate with ceiling 2 (rate 100 per second, burst 10) after two admissions of "k". -/
def gateFull : ConnectionRateLimiter Bucket :=
  (gateRun bucketLib (NewConnectionRateLimiter 100 10 2) [.allow "k" 1, .allow "k" 2]).1

/-- One admission of "k" followed by three releases. -/
def gateOverRelease : List GateOp :=
  [.allow "k" 1, .release "k", .release "k", .release "k", .release "other"]

/-- A gate with ceiling 5 whose bucket for "k" (rate 1 per second, burst 1) was
emptied by an admission at the clock reading 1. -/
def gateDrained : ConnectionRateLimiter Bucket :=
  (gateRun bucketLib (NewConnectionRateLimiter 1 1 5) [.allow "k" 1]).1

/-- Two goroutines that each call `AllowConnection("k")` on a new gate with
ceiling 1 (rate 100 per second, burst 10). -/
def raceStart : ConnectionRateLimiter Bucket × List Goroutine :=
  (NewConnectionRateLimiter 100 10 1, [⟨"k", 1, .start⟩, ⟨"k", 1, .start⟩])

/-- The interleaving in which both goroutines read the count before either
increments it. -/
def raceSchedule : List Nat := [0, 1, 0, 1, 0, 1]

/-- The interleaving in which the first goroutine returns before the second starts. -/
def serialSchedule : List Nat := [0, 0, 0, 1, 1, 1]

/-- The bucket `getLimiter(key)` returns: the stored one, or a new one with the
configured rate and burst. -/
def bucketOf (rl : RateLimiter Bucket) (key : String) : Bucket :=
  match mapGet rl.limiters key with
  | some limiter => limiter.state
  | none => Bucket.new rl.limit rl.burst

/-- Sequential calls on a rate limiter: the public methods `Allow`, `Wait` and
`Reserve`, and the call of `performCleanup` the cleanup goroutine makes. -/
inductive RlOp (C : Type) where
  | allow (key : String) (now : Nat)
  | wait (ctx : C) (key : String) (now : Nat)
  | reserve (key : String) (now : Nat)
  | cleanup

/-- The key a call passes to `getLimiter` (`performCleanup` passes none). -/
def RlOp.key {C : Type} : RlOp C → Option String
  | .allow key _ => some key
  | .wait _ key _ => some key
  | .reserve key _ => some key
  | .cleanup => none

/-- One sequential call on the rate limiter: the state it leaves. -/
def rlStep {L C R : Type} (lib : RateLib L C R) (rl : RateLimiter L) : RlOp C → RateLimiter L
  | .allow key now => (Allow lib rl key now).1
  | .wait ctx key now => (Wait lib rl ctx key now).1
  | .reserve key now => (Reserve lib rl key now).1
  | .cleanup => performCleanup rl

/-- A sequence of sequential calls on the rate limiter. -/
def rlRun {L C R : Type} (lib : RateLib L C R) (rl : RateLimiter L) (ops : List (RlOp C)) :
    RateLimiter L :=
  ops.foldl (rlStep lib) rl

/-- The keys the calls of a sequence pass to `getLimiter`, in order. -/
def seenKeys {C : Type} (ops : List (RlOp C)) : List String :=
  ops.filterMap RlOp.key

/-- The keys of the key-to-bucket map. -/
def limiterKeys {L : Type} (rl : RateLimiter L) : List String :=
  rl.limiters.map Prod.fst

/-- Representation invariant of the key-to-bucket map: no key twice, no limiter
object under two keys, every limiter object allocated before `fresh`. -/
def RLInv {L : Type} (rl : RateLimiter L) : Prop :=
  (limiterKeys rl).Nodup ∧ (rl.limiters.map (fun p => p.2.addr)).Nodup ∧
    ∀ p ∈ rl.limiters, p.2.addr < rl.fresh

/-- Calls on the keys "a", "b", "a", "c", "b" with a cleanup in between. -/
def rlOps : List (RlOp (Option Nat)) :=
  [.allow "a" 1, .reserve "b" 2, .cleanup, .wait none "a" 3, .allow "c" 4, .reserve "b" 5]

end Ratelimit

namespace Cache

variable {K V : Type}

theorem uint64_cast (x : Int) : ((uint64 x : Nat) : Int) = x % 18446744073709551616 := by
  unfold uint64; omega

theorem uint64_wrapInt (x : Int) :
    ((uint64 (wrapInt x) : Nat) : Int) = x % 18446744073709551616 := by
  unfold uint64 wrapInt; omega

theorem tableGet_tableDel [DecidableEq K] (t : List (K × Nat)) (k key : K) :
    tableGet (tableDel t k) key = if k = key then none else tableGet t key := by
  induction t with
  | nil => simp [tableDel, tableGet]
  | cons p t ih =>
    obtain ⟨k1, a⟩ := p
    unfold tableDel at ih ⊢
    by_cases h1 : k1 = k
    · subst h1
      simp only [List.filter_cons, ne_eq, not_true_eq_false, decide_False, Bool.false_eq_true,
        if_false, ih, tableGet]
      by_cases h2 : k1 = key <;> simp [h2]
    · simp only [List.filter_cons, ne_eq, h1, not_false_eq_true, decide_True, if_true, tableGet, ih]
      by_cases h2 : k = key
      · subst h2; simp [h1]
      · simp [h2]

theorem elementAt_some {l : List (Element K V)} {a : Nat} {e : Element K V}
    (h : elementAt l a = some e) : e ∈ l ∧ e.addr = a := by
  unfold elementAt at h
  exact ⟨List.mem_of_find?_eq_some h, by simpa using List.find?_some h⟩

theorem elementAt_mem {l : List (Element K V)} (hnd : (l.map (fun e => e.addr)).Nodup)
    {e : Element K V} (he : e ∈ l) : elementAt l e.addr = some e := by
  induction l with
  | nil => cases he
  | cons x l ih =>
    simp only [List.map_cons, List.nodup_cons, List.mem_map, not_exists, not_and] at hnd
    unfold elementAt
    rcases List.mem_cons.1 he with rfl | he
    · simp
    · have hne : x.addr ≠ e.addr := fun h => hnd.1 e he h.symm
      simp only [List.find?_cons, hne, decide_False]
      exact ih hnd.2 he

theorem key_inj {l : List (Element K V)} (hnd : (l.map (fun e => e.Value.key)).Nodup)
    {x y : Element K V} (hx : x ∈ l) (hy : y ∈ l) (h : x.Value.key = y.Value.key) : x = y :=
  List.inj_on_of_nodup_map hnd hx hy h

theorem addr_inj {l : List (Element K V)} (hnd : (l.map (fun e => e.addr)).Nodup)
    {x y : Element K V} (hx : x ∈ l) (hy : y ∈ l) (h : x.addr = y.addr) : x = y :=
  List.inj_on_of_nodup_map hnd hx hy h

theorem WF.table_mem [DecidableEq K] {lru : LRUCacheGeneric K V} (h : WF lru)
    {e : Element K V} (he : e ∈ lru.list) : tableGet lru.table e.Value.key = some e.addr :=
  (h.table_iff _ _).2 ⟨e, he, rfl, rfl⟩

theorem WF.table_some [DecidableEq K] {lru : LRUCacheGeneric K V} (h : WF lru)
    {k : K} {a : Nat} (ht : tableGet lru.table k = some a) :
    ∃ e, elementAt lru.list a = some e ∧ e ∈ lru.list ∧ e.addr = a ∧ e.Value.key = k := by
  obtain ⟨e, he, ha, hk⟩ := (h.table_iff _ _).1 ht
  exact ⟨e, ha ▸ elementAt_mem h.addr_nodup he, he, ha, hk⟩

theorem WF.table_none [DecidableEq K] {lru : LRUCacheGeneric K V} (h : WF lru)
    {k : K} (hk : k ∉ Keys lru) : tableGet lru.table k = none := by
  cases ht : tableGet lru.table k with
  | none => rfl
  | some a =>
    obtain ⟨e, he, _, hek⟩ := (h.table_iff _ _).1 ht
    exact absurd (List.mem_map.2 ⟨e, he, hek⟩) hk

theorem weightSum_append (l1 l2 : List (Element K V)) :
    weightSum (l1 ++ l2) = weightSum l1 + weightSum l2 := by
  simp [weightSum]

theorem weightSum_cons (e : Element K V) (l : List (Element K V)) :
    weightSum (e :: l) = e.Value.size + weightSum l := by
  simp [weightSum]

theorem weightSum_remove {l : List (Element K V)} (hnd : (l.map (fun e => e.addr)).Nodup)
    {e : Element K V} (he : e ∈ l) :
    weightSum (listRemove l e.addr) = weightSum l - e.Value.size := by
  induction l with
  | nil => cases he
  | cons x l ih =>
    simp only [List.map_cons, List.nodup_cons, List.mem_map, not_exists, not_and] at hnd
    unfold listRemove at ih ⊢
    rcases List.mem_cons.1 he with rfl | he
    · have hfil : l.filter (fun y => decide (y.addr ≠ e.addr)) = l := by
        apply List.filter_eq_self.2
        intro y hy
        simpa using hnd.1 y hy
      rw [List.filter_cons]
      simp only [ne_eq, not_true_eq_false, decide_False, Bool.false_eq_true, if_false]
      have hfil2 : l.filter (fun y => decide (¬ y.addr = e.addr)) = l := hfil
      rw [hfil2, weightSum_cons]
      ring
    · have hne : x.addr ≠ e.addr := fun h => hnd.1 e he h.symm
      simp only [List.filter_cons, ne_eq, hne, not_false_eq_true, decide_True, if_true,
        weightSum_cons, ih hnd.2 he]
      ring

theorem evictBack_length [DecidableEq K] {lru : LRUCacheGeneric K V} {e : Element K V}
    (h : lru.list.getLast? = some e) :
    (evictBack lru e).list.length + 1 = lru.list.length := by
  obtain ⟨l, hl⟩ := List.getLast?_eq_some_iff.1 h
  show lru.list.dropLast.length + 1 = lru.list.length
  rw [hl]
  simp

theorem WF_evictBack [DecidableEq K] {lru : LRUCacheGeneric K V} (h : WF lru)
    {l : List (Element K V)} {e : Element K V} (hl : lru.list = l ++ [e]) :
    WF (evictBack lru e) := by
  have hknd := h.key_nodup
  have hand := h.addr_nodup
  unfold Keys at hknd
  rw [hl] at hknd hand
  simp only [List.map_append, List.map_cons, List.map_nil] at hknd hand
  have hdl : lru.list.dropLast = l := by rw [hl]; simp
  constructor
  · show ((lru.list.dropLast).map _).Nodup
    rw [hdl]; exact (List.nodup_append.1 hand).1
  · show ((lru.list.dropLast).map _).Nodup
    rw [hdl]; exact (List.nodup_append.1 hknd).1
  · intro k a
    show tableGet (tableDel lru.table e.Value.key) k = some a ↔ ∃ x ∈ lru.list.dropLast, _
    rw [hdl, tableGet_tableDel]
    have hdisj := (List.nodup_append.1 hknd).2.2
    constructor
    · intro ht
      by_cases hk : e.Value.key = k
      · simp [hk] at ht
      · simp only [hk, if_false] at ht
        obtain ⟨x, hx, hxa, hxk⟩ := (h.table_iff _ _).1 ht
        rw [hl] at hx
        rcases List.mem_append.1 hx with hx | hx
        · exact ⟨x, hx, hxa, hxk⟩
        · simp only [List.mem_singleton] at hx
          subst hx
          exact absurd hxk hk
    · rintro ⟨x, hx, hxa, hxk⟩
      have hk : e.Value.key ≠ k := by
        intro hek
        exact hdisj (List.mem_map.2 ⟨x, hx, hxk⟩) (by simp [hek])
      simp only [hk, if_false]
      exact (h.table_iff _ _).2 ⟨x, by rw [hl]; exact List.mem_append_left _ hx, hxa, hxk⟩
  · intro x hx
    have hx : x ∈ lru.list.dropLast := hx
    rw [hdl] at hx
    exact h.addr_lt x (by rw [hl]; exact List.mem_append_left _ hx)
  · show (((lru.size + 18446744073709551616 - uint64 e.Value.size) % 18446744073709551616 : Nat)
      : Int) = weightSum lru.list.dropLast % 18446744073709551616
    have hacct := h.acct
    rw [hl, weightSum_append] at hacct
    have hw : weightSum [e] = e.Value.size := by simp [weightSum]
    rw [hw] at hacct
    rw [hdl]
    have hu := uint64_cast e.Value.size
    omega

theorem checkCapacityLoop_spec [DecidableEq K] (n : Nat) :
    ∀ (lru : LRUCacheGeneric K V), lru.list.length = n → WF lru →
    ∃ (lru1 : LRUCacheGeneric K V) (j : Nat),
      checkCapacityLoop n lru = some lru1 ∧ WF lru1 ∧ j ≤ lru.list.length ∧
      lru1.list = lru.list.take j ∧ lru1.capacity = lru.capacity ∧ lru1.fresh = lru.fresh ∧
      lru1.size ≤ lru1.capacity ∧
      ∀ i, j < i → i ≤ lru.list.length →
        (lru.capacity : Int) < weightSum (lru.list.take i) % 18446744073709551616 := by
  induction n with
  | zero =>
    intro lru hn h
    have hnil : lru.list = [] := List.length_eq_zero.1 hn
    have hsz : lru.size = 0 := by
      have := h.acct
      rw [hnil] at this
      simp [weightSum] at this
      exact this
    refine ⟨lru, 0, ?_, h, Nat.zero_le _, ?_, rfl, rfl, ?_, ?_⟩
    · simp [checkCapacityLoop, hsz]
    · simp [hnil]
    · omega
    · intro i h1 h2; omega
  | succ n ih =>
    intro lru hn h
    by_cases hgt : lru.size > lru.capacity
    · have hne : lru.list ≠ [] := by
        intro hnil; rw [hnil] at hn; simp at hn
      obtain ⟨l, e, hl⟩ : ∃ l e, lru.list = l ++ [e] :=
        ⟨lru.list.dropLast, lru.list.getLast hne, (List.dropLast_append_getLast hne).symm⟩
      have hlast : lru.list.getLast? = some e := by rw [hl]; simp
      have hlen : l.length = n := by rw [hl] at hn; simpa using hn
      have hev : (evictBack lru e).list = l := by
        show lru.list.dropLast = l
        rw [hl]; simp
      obtain ⟨lru1, j, hrun, hwf1, hj, hlist, hcap, hfresh, hle, hmax⟩ :=
        ih (evictBack lru e) (by rw [hev]; exact hlen) (WF_evictBack h hl)
      rw [hev] at hj hlist hmax
      refine ⟨lru1, j, ?_, hwf1, ?_, ?_, hcap, hfresh, hle, ?_⟩
      · simp only [checkCapacityLoop, hgt, if_true, hlast]
        exact hrun
      · rw [hl]; simp; omega
      · rw [hlist, hl, List.take_append_of_le_length hj]
      · intro i h1 h2
        by_cases hi : i ≤ l.length
        · have := hmax i h1 hi
          rw [hl, List.take_append_of_le_length hi]
          exact this
        · have hall : lru.list.take i = lru.list := List.take_of_length_le (by omega)
          rw [hall, ← h.acct]
          exact_mod_cast hgt
    · refine ⟨lru, lru.list.length, ?_, h, le_refl _, ?_, rfl, rfl, ?_, ?_⟩
      · simp [checkCapacityLoop, hgt]
      · simp
      · omega
      · intro i h1 h2; omega

theorem checkCapacity_spec [DecidableEq K] {lru : LRUCacheGeneric K V} (h : WF lru) :
    ∃ (lru1 : LRUCacheGeneric K V) (j : Nat),
      checkCapacity lru = some lru1 ∧ WF lru1 ∧ j ≤ lru.list.length ∧
      lru1.list = lru.list.take j ∧ lru1.capacity = lru.capacity ∧ lru1.fresh = lru.fresh ∧
      lru1.size ≤ lru1.capacity ∧
      ∀ i, j < i → i ≤ lru.list.length →
        (lru.capacity : Int) < weightSum (lru.list.take i) % 18446744073709551616 :=
  checkCapacityLoop_spec lru.list.length lru rfl h

theorem elementAt_updateEntry (l : List (Element K V)) (a : Nat)
    (g : entryGeneric K V → entryGeneric K V) :
    elementAt (updateEntry l a g) a
      = (elementAt l a).map (fun e => { e with Value := g e.Value }) := by
  induction l with
  | nil => rfl
  | cons x l ih =>
    unfold elementAt updateEntry at ih ⊢
    by_cases hx : x.addr = a
    · simp [List.find?_cons, hx]
    · simp only [List.map_cons, hx, if_false, List.find?_cons, decide_False]
      exact ih

theorem listRemove_updateEntry (l : List (Element K V)) (a : Nat)
    (g : entryGeneric K V → entryGeneric K V) :
    listRemove (updateEntry l a g) a = listRemove l a := by
  induction l with
  | nil => rfl
  | cons x l ih =>
    unfold listRemove updateEntry at ih ⊢
    by_cases hx : x.addr = a
    · simp only [List.map_cons, hx, if_true, List.filter_cons, ne_eq, not_true_eq_false,
        decide_False, Bool.false_eq_true, if_false]
      exact ih
    · simp only [List.map_cons, hx, if_false, List.filter_cons, ne_eq, not_false_eq_true,
        decide_True, if_true]
      rw [ih]

theorem updateEntry_listRemove (l : List (Element K V)) (a : Nat)
    (g : entryGeneric K V → entryGeneric K V) :
    updateEntry (listRemove l a) a g = listRemove l a := by
  induction l with
  | nil => rfl
  | cons x l ih =>
    unfold listRemove updateEntry at ih ⊢
    by_cases hx : x.addr = a
    · simp only [List.filter_cons, ne_eq, hx, not_true_eq_false, decide_False,
        Bool.false_eq_true, if_false]
      exact ih
    · simp only [List.filter_cons, ne_eq, hx, not_false_eq_true, decide_True, if_true,
        List.map_cons, if_false]
      rw [ih]

theorem moveToFront_list {lru : LRUCacheGeneric K V} {a : Nat} {e : Element K V}
    (he : elementAt lru.list a = some e) (now : Nat) :
    (moveToFront lru a now).list
      = { addr := a, Value := { e.Value with time_accessed := now } } :: listRemove lru.list a := by
  have ha := (elementAt_some he).2
  have hrem := updateEntry_listRemove lru.list a
    (fun en : entryGeneric K V => { en with time_accessed := now })
  simp only [moveToFront, listMoveToFront, he]
  unfold updateEntry at hrem ⊢
  simp only [List.map_cons, ha, if_true, hrem]

theorem mem_listRemove {l : List (Element K V)} {a : Nat} {x : Element K V} :
    x ∈ listRemove l a ↔ x ∈ l ∧ x.addr ≠ a := by
  simp [listRemove]

theorem WF_promote [DecidableEq K] {lru : LRUCacheGeneric K V} (h : WF lru)
    {e : Element K V} (he : e ∈ lru.list) (en : entryGeneric K V) (hk : en.key = e.Value.key)
    (sz : Nat)
    (hsz : (sz : Int) = (lru.size + en.size - e.Value.size) % 18446744073709551616) :
    WF { lru with list := { addr := e.addr, Value := en } :: listRemove lru.list e.addr
                  size := sz } := by
  have hsub : (listRemove lru.list e.addr).Sublist lru.list := List.filter_sublist _
  constructor
  · show (List.map _ (_ :: _)).Nodup
    simp only [List.map_cons, List.nodup_cons, List.mem_map, not_exists, not_and]
    refine ⟨fun x hx => (mem_listRemove.1 hx).2, (hsub.map _).nodup h.addr_nodup⟩
  · show (List.map _ (_ :: _)).Nodup
    simp only [List.map_cons, List.nodup_cons, List.mem_map, not_exists, not_and]
    refine ⟨fun x hx hxk => ?_, (hsub.map _).nodup h.key_nodup⟩
    have hx2 := mem_listRemove.1 hx
    have : x = e := key_inj h.key_nodup hx2.1 he (hxk.trans hk)
    exact hx2.2 (by rw [this])
  · intro k a
    show tableGet lru.table k = some a ↔ ∃ x ∈ _ :: listRemove lru.list e.addr, _
    rw [h.table_iff]
    constructor
    · rintro ⟨x, hx, hxa, hxk⟩
      by_cases hxe : x.addr = e.addr
      · have : x = e := addr_inj h.addr_nodup hx he hxe
        subst this
        exact ⟨_, List.mem_cons_self _ _, hxa, hk.trans hxk⟩
      · exact ⟨x, List.mem_cons_of_mem _ (mem_listRemove.2 ⟨hx, hxe⟩), hxa, hxk⟩
    · rintro ⟨x, hx, hxa, hxk⟩
      rcases List.mem_cons.1 hx with rfl | hx
      · exact ⟨e, he, hxa, hk.symm.trans hxk⟩
      · exact ⟨x, (mem_listRemove.1 hx).1, hxa, hxk⟩
  · intro x hx
    rcases List.mem_cons.1 hx with rfl | hx
    · exact h.addr_lt e he
    · exact h.addr_lt x (mem_listRemove.1 hx).1
  · show (sz : Int) = weightSum (_ :: listRemove lru.list e.addr) % 18446744073709551616
    rw [weightSum_cons, weightSum_remove h.addr_nodup he, hsz]
    have := h.acct
    show (lru.size + en.size - e.Value.size) % 18446744073709551616
      = (en.size + (weightSum lru.list - e.Value.size)) % 18446744073709551616
    omega

theorem WF_new [DecidableEq K] (capacity : Nat) :
    WF (NewLRUCacheGeneric capacity : LRUCacheGeneric K V) := by
  constructor
  · exact List.nodup_nil
  · exact List.nodup_nil
  · intro k a
    simp [NewLRUCacheGeneric, tableGet]
  · intro e he; cases he
  · simp [NewLRUCacheGeneric, weightSum]

theorem WF_clear [DecidableEq K] (lru : LRUCacheGeneric K V) : WF (Clear lru) := by
  constructor
  · exact List.nodup_nil
  · exact List.nodup_nil
  · intro k a
    simp [Clear, tableGet]
  · intro e he; cases he
  · simp [Clear, weightSum]

theorem WF_push [DecidableEq K] {lru : LRUCacheGeneric K V} (h : WF lru)
    (en : entryGeneric K V) (hk : en.key ∉ Keys lru) :
    WF { list := { addr := lru.fresh, Value := en } :: lru.list
         table := tableSet lru.table en.key lru.fresh
         size := (lru.size + uint64 en.size) % 18446744073709551616
         capacity := lru.capacity
         fresh := lru.fresh + 1 } := by
  constructor
  · show (List.map _ (_ :: _)).Nodup
    simp only [List.map_cons, List.nodup_cons, List.mem_map, not_exists, not_and]
    refine ⟨fun x hx hxa => ?_, h.addr_nodup⟩
    have := h.addr_lt x hx
    omega
  · show (List.map _ (_ :: _)).Nodup
    simp only [List.map_cons, List.nodup_cons]
    exact ⟨hk, h.key_nodup⟩
  · intro k a
    show tableGet (tableSet lru.table en.key lru.fresh) k = some a ↔ ∃ x ∈ _ :: lru.list, _
    unfold tableSet
    by_cases hkk : en.key = k
    · simp only [tableGet, hkk, if_true, Option.some.injEq]
      constructor
      · intro ha
        exact ⟨_, List.mem_cons_self _ _, ha, hkk⟩
      · rintro ⟨x, hx, hxa, hxk⟩
        rcases List.mem_cons.1 hx with rfl | hx
        · exact hxa
        · exact absurd (List.mem_map.2 ⟨x, hx, hxk.trans hkk.symm⟩) hk
    · simp only [tableGet, hkk, if_false, tableGet_tableDel, h.table_iff]
      constructor
      · rintro ⟨x, hx, hxa, hxk⟩
        exact ⟨x, List.mem_cons_of_mem _ hx, hxa, hxk⟩
      · rintro ⟨x, hx, hxa, hxk⟩
        rcases List.mem_cons.1 hx with rfl | hx
        · exact absurd hxk hkk
        · exact ⟨x, hx, hxa, hxk⟩
  · intro x hx
    show x.addr < lru.fresh + 1
    rcases List.mem_cons.1 hx with rfl | hx
    · exact Nat.lt_succ_self _
    · exact Nat.lt_succ_of_lt (h.addr_lt x hx)
  · show (((lru.size + uint64 en.size) % 18446744073709551616 : Nat) : Int)
      = weightSum (_ :: lru.list) % 18446744073709551616
    rw [weightSum_cons]
    have := h.acct
    have hu := uint64_cast en.size
    show (((lru.size + uint64 en.size) % 18446744073709551616 : Nat) : Int)
      = (en.size + weightSum lru.list) % 18446744073709551616
    omega

theorem WF_remove [DecidableEq K] {lru : LRUCacheGeneric K V} (h : WF lru)
    {e : Element K V} (he : e ∈ lru.list) :
    WF { lru with
         list := listRemove lru.list e.addr
         table := tableDel lru.table e.Value.key
         size := (lru.size + 18446744073709551616 - uint64 e.Value.size)
           % 18446744073709551616 } := by
  have hsub : (listRemove lru.list e.addr).Sublist lru.list := List.filter_sublist _
  constructor
  · exact (hsub.map _).nodup h.addr_nodup
  · exact (hsub.map _).nodup h.key_nodup
  · intro k a
    show tableGet (tableDel lru.table e.Value.key) k = some a ↔ ∃ x ∈ listRemove lru.list e.addr, _
    rw [tableGet_tableDel]
    by_cases hk : e.Value.key = k
    · simp only [hk, if_true]
      refine ⟨fun hc => (by cases hc), ?_⟩
      rintro ⟨x, hx, hxa, hxk⟩
      exfalso
      have hx2 := mem_listRemove.1 hx
      have : x = e := key_inj h.key_nodup hx2.1 he (hxk.trans hk.symm)
      exact hx2.2 (by rw [this])
    · simp only [hk, if_false, h.table_iff]
      constructor
      · rintro ⟨x, hx, hxa, hxk⟩
        refine ⟨x, mem_listRemove.2 ⟨hx, fun hxe => ?_⟩, hxa, hxk⟩
        have : x = e := addr_inj h.addr_nodup hx he hxe
        exact hk (by rw [← this]; exact hxk)
      · rintro ⟨x, hx, hxa, hxk⟩
        exact ⟨x, (mem_listRemove.1 hx).1, hxa, hxk⟩
  · intro x hx
    exact h.addr_lt x (mem_listRemove.1 hx).1
  · show (((lru.size + 18446744073709551616 - uint64 e.Value.size) % 18446744073709551616 : Nat)
      : Int) = weightSum (listRemove lru.list e.addr) % 18446744073709551616
    rw [weightSum_remove h.addr_nodup he]
    have := h.acct
    have hu := uint64_cast e.Value.size
    omega

theorem state_ext {s t : LRUCacheGeneric K V} (h1 : s.list = t.list) (h2 : s.table = t.table)
    (h3 : s.size = t.size) (h4 : s.capacity = t.capacity) (h5 : s.fresh = t.fresh) : s = t := by
  cases s; cases t; simp_all

theorem moveToFront_eq {lru : LRUCacheGeneric K V} {a : Nat} {e : Element K V}
    (he : elementAt lru.list a = some e) (now : Nat) :
    moveToFront lru a now =
      { lru with
        list := { addr := a, Value := { e.Value with time_accessed := now } }
          :: listRemove lru.list a } :=
  state_ext (moveToFront_list he now) rfl rfl rfl rfl

theorem WF_moveToFront [DecidableEq K] {lru : LRUCacheGeneric K V} (h : WF lru)
    {e : Element K V} (he : e ∈ lru.list) (now : Nat) : WF (moveToFront lru e.addr now) := by
  rw [moveToFront_eq (elementAt_mem h.addr_nodup he) now]
  have hsz : (lru.size : Int)
      = (lru.size + ({ e.Value with time_accessed := now } : entryGeneric K V).size
          - e.Value.size) % 18446744073709551616 := by
    have := h.acct
    show (lru.size : Int) = (lru.size + e.Value.size - e.Value.size) % 18446744073709551616
    omega
  exact WF_promote h he { e.Value with time_accessed := now } rfl lru.size hsz

theorem Get_hit [DecidableEq K] {lru : LRUCacheGeneric K V} (h : WF lru)
    {e : Element K V} (he : e ∈ lru.list) (now : Nat) :
    Get lru e.Value.key now = some (moveToFront lru e.addr now, some e.Value.value) := by
  unfold Get
  rw [h.table_mem he]
  simp only [elementAt_mem h.addr_nodup he]

theorem Get_miss [DecidableEq K] {lru : LRUCacheGeneric K V} (h : WF lru)
    {k : K} (hk : k ∉ Keys lru) (now : Nat) : Get lru k now = some (lru, none) := by
  unfold Get
  rw [h.table_none hk]

theorem SetIfAbsent_hit [DecidableEq K] [Value V] {lru : LRUCacheGeneric K V} (h : WF lru)
    {e : Element K V} (he : e ∈ lru.list) (v : V) (now : Nat) :
    SetIfAbsent lru e.Value.key v now = some (moveToFront lru e.addr now) := by
  unfold SetIfAbsent
  rw [h.table_mem he]

theorem Delete_hit [DecidableEq K] {lru : LRUCacheGeneric K V} (h : WF lru)
    {e : Element K V} (he : e ∈ lru.list) :
    Delete lru e.Value.key = some ({ lru with
         list := listRemove lru.list e.addr
         table := tableDel lru.table e.Value.key
         size := (lru.size + 18446744073709551616 - uint64 e.Value.size)
           % 18446744073709551616 }, true) := by
  unfold Delete
  rw [h.table_mem he]
  simp only [elementAt_mem h.addr_nodup he]

theorem Delete_miss [DecidableEq K] {lru : LRUCacheGeneric K V} (h : WF lru)
    {k : K} (hk : k ∉ Keys lru) : Delete lru k = some (lru, false) := by
  unfold Delete
  rw [h.table_none hk]

/-- The state `updateInplace` hands to `checkCapacity`. -/
theorem updateInplace_eq [DecidableEq K] [Value V] {lru : LRUCacheGeneric K V} (h : WF lru)
    {e : Element K V} (he : e ∈ lru.list) (v : V) (now : Nat) :
    updateInplace lru e.addr v now = checkCapacity
      { lru with
        list := { addr := e.addr
                  Value := { key := e.Value.key, value := v, size := Value.Size v,
                             time_accessed := now } } :: listRemove lru.list e.addr
        size := (lru.size + uint64 (wrapInt (Value.Size v - e.Value.size)))
          % 18446744073709551616 } := by
  unfold updateInplace
  simp only [elementAt_mem h.addr_nodup he]
  congr 1
  have hat := elementAt_updateEntry lru.list e.addr
    (fun en : entryGeneric K V => { en with value := v, size := Value.Size v })
  rw [elementAt_mem h.addr_nodup he] at hat
  refine state_ext ?_ rfl rfl rfl rfl
  rw [@moveToFront_list K V { lru with
        list := updateEntry lru.list e.addr
          (fun en : entryGeneric K V => { en with value := v, size := Value.Size v })
        size := (lru.size + uint64 (wrapInt (Value.Size v - e.Value.size)))
          % 18446744073709551616 } e.addr _ hat now]
  simp only [listRemove_updateEntry]

theorem WF_updated [DecidableEq K] [Value V] {lru : LRUCacheGeneric K V} (h : WF lru)
    {e : Element K V} (he : e ∈ lru.list) (v : V) (now : Nat) :
    WF { lru with
        list := { addr := e.addr
                  Value := { key := e.Value.key, value := v, size := Value.Size v,
                             time_accessed := now } } :: listRemove lru.list e.addr
        size := (lru.size + uint64 (wrapInt (Value.Size v - e.Value.size)))
          % 18446744073709551616 } := by
  refine WF_promote h he
    { key := e.Value.key, value := v, size := Value.Size v, time_accessed := now } rfl _ ?_
  have := h.acct
  have hu := uint64_wrapInt (Value.Size v - e.Value.size)
  show (((lru.size + uint64 (wrapInt (Value.Size v - e.Value.size))) % 18446744073709551616 : Nat)
    : Int) = (lru.size + Value.Size v - e.Value.size) % 18446744073709551616
  omega

theorem Set_hit [DecidableEq K] [Value V] {lru : LRUCacheGeneric K V} (h : WF lru)
    {e : Element K V} (he : e ∈ lru.list) (v : V) (now : Nat) :
    Set lru e.Value.key v now = checkCapacity
      { lru with
        list := { addr := e.addr
                  Value := { key := e.Value.key, value := v, size := Value.Size v,
                             time_accessed := now } } :: listRemove lru.list e.addr
        size := (lru.size + uint64 (wrapInt (Value.Size v - e.Value.size)))
          % 18446744073709551616 } := by
  unfold Set
  rw [h.table_mem he]
  exact updateInplace_eq h he v now

theorem Set_miss [DecidableEq K] [Value V] {lru : LRUCacheGeneric K V} (h : WF lru)
    {k : K} (hk : k ∉ Keys lru) (v : V) (now : Nat) :
    Set lru k v now = checkCapacity
      { list := { addr := lru.fresh
                  Value := { key := k, value := v, size := Value.Size v,
                             time_accessed := now } } :: lru.list
        table := tableSet lru.table k lru.fresh
        size := (lru.size + uint64 (Value.Size v)) % 18446744073709551616
        capacity := lru.capacity
        fresh := lru.fresh + 1 } := by
  unfold Set
  rw [h.table_none hk]
  rfl

theorem SetIfAbsent_miss [DecidableEq K] [Value V] {lru : LRUCacheGeneric K V} (h : WF lru)
    {k : K} (hk : k ∉ Keys lru) (v : V) (now : Nat) :
    SetIfAbsent lru k v now = Set lru k v now := by
  unfold SetIfAbsent Set
  rw [h.table_none hk]

theorem mem_Keys {lru : LRUCacheGeneric K V} {k : K} :
    k ∈ Keys lru ↔ ∃ e ∈ lru.list, e.Value.key = k := by
  simp [Keys]

theorem Set_WF [DecidableEq K] [Value V] {lru : LRUCacheGeneric K V} (h : WF lru)
    (k : K) (v : V) (now : Nat) :
    ∃ lru1, Set lru k v now = some lru1 ∧ WF lru1 ∧ lru1.size ≤ lru1.capacity ∧
      lru1.capacity = lru.capacity := by
  by_cases hk : k ∈ Keys lru
  · obtain ⟨e, he, rfl⟩ := mem_Keys.1 hk
    obtain ⟨lru1, j, hrun, hwf, _, _, hcap, _, hle, _⟩ :=
      checkCapacity_spec (WF_updated h he v now)
    exact ⟨lru1, (Set_hit h he v now).trans hrun, hwf, hle, hcap⟩
  · obtain ⟨lru1, j, hrun, hwf, _, _, hcap, _, hle, _⟩ :=
      checkCapacity_spec (WF_push h
        { key := k, value := v, size := Value.Size v, time_accessed := now } hk)
    exact ⟨lru1, (Set_miss h hk v now).trans hrun, hwf, hle, hcap⟩

theorem step_WF [DecidableEq K] [Value V] {lru : LRUCacheGeneric K V} (h : WF lru)
    (op : Op K V) : ∃ lru1, step lru op = some lru1 ∧ WF lru1 := by
  cases op with
  | get key now =>
    by_cases hk : key ∈ Keys lru
    · obtain ⟨e, he, rfl⟩ := mem_Keys.1 hk
      exact ⟨_, by simp [step, Get_hit h he now], WF_moveToFront h he now⟩
    · exact ⟨_, by simp [step, Get_miss h hk now], h⟩
  | set key value now =>
    obtain ⟨lru1, h1, h2, _⟩ := Set_WF h key value now
    exact ⟨lru1, h1, h2⟩
  | setIfAbsent key value now =>
    by_cases hk : key ∈ Keys lru
    · obtain ⟨e, he, rfl⟩ := mem_Keys.1 hk
      exact ⟨_, by simp [step, SetIfAbsent_hit h he value now], WF_moveToFront h he now⟩
    · obtain ⟨lru1, h1, h2, _⟩ := Set_WF h key value now
      exact ⟨lru1, by simp [step, SetIfAbsent_miss h hk value now, h1], h2⟩
  | delete key =>
    by_cases hk : key ∈ Keys lru
    · obtain ⟨e, he, rfl⟩ := mem_Keys.1 hk
      exact ⟨_, by simp [step, Delete_hit h he], WF_remove h he⟩
    · exact ⟨_, by simp [step, Delete_miss h hk], h⟩
  | clear => exact ⟨_, rfl, WF_clear lru⟩
  | setCapacity capacity =>
    have hwf : WF { lru with capacity := capacity } :=
      ⟨h.addr_nodup, h.key_nodup, h.table_iff, h.addr_lt, h.acct⟩
    obtain ⟨lru1, j, hrun, hwf1, _⟩ := checkCapacity_spec hwf
    exact ⟨lru1, hrun, hwf1⟩

theorem run_WF [DecidableEq K] [Value V] (ops : List (Op K V)) :
    ∀ {lru : LRUCacheGeneric K V}, WF lru → ∃ lru1, run lru ops = some lru1 ∧ WF lru1 := by
  induction ops with
  | nil => intro lru h; exact ⟨lru, rfl, h⟩
  | cons op ops ih =>
    intro lru h
    obtain ⟨lru1, h1, hwf1⟩ := step_WF h op
    obtain ⟨lru2, h2, hwf2⟩ := ih hwf1
    exact ⟨lru2, by simp [run, h1, h2], hwf2⟩

theorem Reachable.wf [DecidableEq K] [Value V] {lru : LRUCacheGeneric K V}
    (h : Reachable lru) : WF lru := by
  obtain ⟨capacity, ops, _, _, hrun⟩ := h
  obtain ⟨lru1, h1, hwf⟩ := run_WF ops (WF_new (K := K) (V := V) capacity)
  rw [hrun] at h1
  cases h1
  exact hwf

theorem checkCapacity_mem [DecidableEq K] {lru lru1 : LRUCacheGeneric K V} (h : WF lru)
    (hrun : checkCapacity lru = some lru1) {x : Element K V} (hx : x ∈ lru1.list) :
    x ∈ lru.list := by
  obtain ⟨lru2, j, hrun2, _, _, hlist, _⟩ := checkCapacity_spec h
  rw [hrun] at hrun2
  cases hrun2
  rw [hlist] at hx
  exact List.mem_of_mem_take hx

theorem step_nonneg [DecidableEq K] [Value V] {lru lru1 : LRUCacheGeneric K V} (h : WF lru)
    (hnn : ∀ e ∈ lru.list, 0 ≤ e.Value.size) {op : Op K V} (hop : op.nonneg)
    (hstep : step lru op = some lru1) : ∀ e ∈ lru1.list, 0 ≤ e.Value.size := by
  have hmove : ∀ (e : Element K V) (now : Nat), e ∈ lru.list →
      ∀ x ∈ (moveToFront lru e.addr now).list, 0 ≤ x.Value.size := by
    intro e now he x hx
    rw [moveToFront_list (elementAt_mem h.addr_nodup he) now] at hx
    rcases List.mem_cons.1 hx with rfl | hx
    · exact hnn e he
    · exact hnn x (mem_listRemove.1 hx).1
  have hset : ∀ (key : K) (value : V) (now : Nat), 0 ≤ Value.Size value →
      Set lru key value now = some lru1 → ∀ x ∈ lru1.list, 0 ≤ x.Value.size := by
    intro key value now hv hs x hx
    by_cases hk : key ∈ Keys lru
    · obtain ⟨e, he, rfl⟩ := mem_Keys.1 hk
      rw [Set_hit h he value now] at hs
      have hx1 := checkCapacity_mem (WF_updated h he value now) hs hx
      rcases List.mem_cons.1 hx1 with rfl | hx1
      · exact hv
      · exact hnn x (mem_listRemove.1 hx1).1
    · rw [Set_miss h hk value now] at hs
      have hx1 := checkCapacity_mem (WF_push h
        { key := key, value := value, size := Value.Size value, time_accessed := now } hk) hs hx
      rcases List.mem_cons.1 hx1 with rfl | hx1
      · exact hv
      · exact hnn x hx1
  cases op with
  | get key now =>
    by_cases hk : key ∈ Keys lru
    · obtain ⟨e, he, rfl⟩ := mem_Keys.1 hk
      simp only [step, Get_hit h he now, Option.map_some', Option.some.injEq] at hstep
      subst hstep
      exact hmove e now he
    · simp only [step, Get_miss h hk now, Option.map_some', Option.some.injEq] at hstep
      subst hstep
      exact hnn
  | set key value now => exact hset key value now hop hstep
  | setIfAbsent key value now =>
    by_cases hk : key ∈ Keys lru
    · obtain ⟨e, he, rfl⟩ := mem_Keys.1 hk
      simp only [step, SetIfAbsent_hit h he value now, Option.some.injEq] at hstep
      subst hstep
      exact hmove e now he
    · simp only [step, SetIfAbsent_miss h hk value now] at hstep
      exact hset key value now hop hstep
  | delete key =>
    by_cases hk : key ∈ Keys lru
    · obtain ⟨e, he, rfl⟩ := mem_Keys.1 hk
      simp only [step, Delete_hit h he, Option.map_some', Option.some.injEq] at hstep
      subst hstep
      intro x hx
      exact hnn x (mem_listRemove.1 hx).1
    · simp only [step, Delete_miss h hk, Option.map_some', Option.some.injEq] at hstep
      subst hstep
      exact hnn
  | clear =>
    simp only [step, Option.some.injEq] at hstep
    subst hstep
    intro x hx
    cases hx
  | setCapacity capacity =>
    have hwf : WF { lru with capacity := capacity } :=
      ⟨h.addr_nodup, h.key_nodup, h.table_iff, h.addr_lt, h.acct⟩
    intro x hx
    exact hnn x (checkCapacity_mem hwf hstep hx)

theorem run_nonneg [DecidableEq K] [Value V] (ops : List (Op K V)) :
    ∀ {lru lru1 : LRUCacheGeneric K V}, WF lru → (∀ e ∈ lru.list, 0 ≤ e.Value.size) →
      (∀ op ∈ ops, op.nonneg) → run lru ops = some lru1 →
      ∀ e ∈ lru1.list, 0 ≤ e.Value.size := by
  induction ops with
  | nil =>
    intro lru lru1 _ hnn _ hrun
    simp only [run, Option.some.injEq] at hrun
    subst hrun
    exact hnn
  | cons op ops ih =>
    intro lru lru1 h hnn hops hrun
    obtain ⟨lru2, h2, hwf2⟩ := step_WF h op
    simp only [run, h2, Option.some_bind] at hrun
    exact ih hwf2 (step_nonneg h hnn (hops op (List.mem_cons_self _ _)) h2)
      (fun o ho => hops o (List.mem_cons_of_mem _ ho)) hrun

theorem weightSum_nonneg {l : List (Element K V)} (hnn : ∀ e ∈ l, 0 ≤ e.Value.size) :
    0 ≤ weightSum l := by
  induction l with
  | nil => simp [weightSum]
  | cons x l ih =>
    rw [weightSum_cons]
    have h1 := hnn x (List.mem_cons_self _ _)
    have h2 := ih (fun e he => hnn e (List.mem_cons_of_mem _ he))
    omega

/-- C1 (amended): for every sequence of public operations on a new cache with
values of non-negative size, every operation returns and afterwards the total
weight `size` equals the sum of the recorded weights of the held entries reduced
modulo `2^64`; the two are equal whenever that sum is below `2^64`. -/
theorem C1_size_eq_weightSum_mod [DecidableEq K] [Value V] (capacity : Nat)
    (ops : List (Op K V)) (hnn : ∀ op ∈ ops, op.nonneg) :
    ∃ lru : LRUCacheGeneric K V, run (NewLRUCacheGeneric capacity) ops = some lru ∧
      (Stats lru).2.1 = lru.size ∧
      (lru.size : Int) = weightSum lru.list % 18446744073709551616 ∧
      (weightSum lru.list < 18446744073709551616 → (lru.size : Int) = weightSum lru.list) := by
  obtain ⟨lru, hrun, hwf⟩ := run_WF ops (WF_new (K := K) (V := V) capacity)
  refine ⟨lru, hrun, rfl, hwf.acct, fun hlt => ?_⟩
  have h0 : 0 ≤ weightSum lru.list :=
    weightSum_nonneg (run_nonneg ops (WF_new capacity) (fun e he => by cases he) hnn hrun)
  have := hwf.acct
  omega

/-- C1 witness: the amended statement at the scenario of capacity 10. -/
theorem C1_size_eq_weightSum_mod_witness :
    (∀ op ∈ opsAB, op.nonneg) ∧
    ∃ lru : LRUCacheGeneric String Blob, run (NewLRUCacheGeneric 10) opsAB = some lru ∧
      (Stats lru).2.1 = lru.size ∧
      (lru.size : Int) = weightSum lru.list % 18446744073709551616 ∧
      (weightSum lru.list < 18446744073709551616 → (lru.size : Int) = weightSum lru.list) :=
  ⟨by decide, C1_size_eq_weightSum_mod 10 opsAB (by decide)⟩

/-- C1 counterexample: with capacity `2^63 + 10` and three values of
non-negative sizes `2^63 - 1`, `11`, `2^63 - 1`, all three entries are held, the
total weight is 9 and the sum of the recorded weights is `2^64 + 9`. -/
theorem C1_counterexample :
    (∀ op ∈ opsWrap, op.nonneg) ∧
    ∃ lru : LRUCacheGeneric String Blob,
      run (NewLRUCacheGeneric 9223372036854775818) opsWrap = some lru ∧
      Keys lru = ["c", "b", "a"] ∧ (Stats lru).2.1 = 9 ∧
      weightSum lru.list = 18446744073709551625 ∧
      ((Stats lru).2.1 : Int) ≠ weightSum lru.list :=
  ⟨by decide, _, rfl, by decide, by decide, by decide, by decide⟩

theorem nonneg_cons {x : Element K V} {l : List (Element K V)} (hx : 0 ≤ x.Value.size)
    (hl : ∀ e ∈ l, 0 ≤ e.Value.size) : ∀ e ∈ x :: l, 0 ≤ e.Value.size := by
  intro e he
  rcases List.mem_cons.1 he with rfl | he
  · exact hx
  · exact hl e he

theorem weightSum_take_le {l : List (Element K V)} (hnn : ∀ e ∈ l, 0 ≤ e.Value.size)
    (j : Nat) : weightSum (l.take j) ≤ weightSum l := by
  have h1 : weightSum l = weightSum (l.take j) + weightSum (l.drop j) := by
    rw [← weightSum_append, List.take_append_drop]
  have h2 : 0 ≤ weightSum (l.drop j) :=
    weightSum_nonneg (fun e he => hnn e (List.mem_of_mem_drop he))
  omega

theorem checkCapacity_tight [DecidableEq K] {lru lru1 : LRUCacheGeneric K V} (h : WF lru)
    (hnn : ∀ e ∈ lru.list, 0 ≤ e.Value.size)
    (hlt : weightSum lru.list < 18446744073709551616)
    (hrun : checkCapacity lru = some lru1) :
    weightSum lru1.list ≤ lru1.capacity ∧ lru1.capacity = lru.capacity := by
  obtain ⟨lru2, j, hrun2, hwf, _, hlist, hcap, _, hle, _⟩ := checkCapacity_spec h
  rw [hrun] at hrun2
  cases hrun2
  refine ⟨?_, hcap⟩
  have h1 := weightSum_take_le hnn j
  have h2 : 0 ≤ weightSum (lru.list.take j) :=
    weightSum_nonneg (fun e he => hnn e (List.mem_of_mem_take he))
  have h3 := hwf.acct
  rw [hlist] at h3 ⊢
  omega

theorem step_tight [DecidableEq K] [Value V] {lru lru1 : LRUCacheGeneric K V} (h : WF lru)
    (hnn : ∀ e ∈ lru.list, 0 ≤ e.Value.size)
    (hle : weightSum lru.list ≤ lru.capacity) (hcap : lru.capacity ≤ 9223372036854775808)
    {op : Op K V} (hop : op.nonneg) (hcb : op.capBound)
    (hstep : step lru op = some lru1) :
    weightSum lru1.list ≤ lru1.capacity ∧ lru1.capacity ≤ 9223372036854775808 := by
  have hmove : ∀ (e : Element K V) (now : Nat), e ∈ lru.list →
      weightSum (moveToFront lru e.addr now).list = weightSum lru.list := by
    intro e now he
    rw [moveToFront_list (elementAt_mem h.addr_nodup he) now, weightSum_cons,
      weightSum_remove h.addr_nodup he]
    show e.Value.size + (weightSum lru.list - e.Value.size) = weightSum lru.list
    omega
  have hset : ∀ (key : K) (value : V) (now : Nat), 0 ≤ Value.Size value →
      Set lru key value now = some lru1 →
      weightSum lru1.list ≤ lru1.capacity ∧ lru1.capacity ≤ 9223372036854775808 := by
    intro key value now hv hs
    have hvlt := Value.Size_lt value
    by_cases hk : key ∈ Keys lru
    · obtain ⟨e, he, rfl⟩ := mem_Keys.1 hk
      rw [Set_hit h he value now] at hs
      have hpre := WF_updated h he value now
      have hnn1 := nonneg_cons
        (x := (⟨e.addr, ⟨e.Value.key, value, Value.Size value, now⟩⟩ : Element K V))
        (l := listRemove lru.list e.addr) hv (fun x hx => hnn x (mem_listRemove.1 hx).1)
      have hsum := weightSum_cons
        (⟨e.addr, ⟨e.Value.key, value, Value.Size value, now⟩⟩ : Element K V)
        (listRemove lru.list e.addr)
      rw [weightSum_remove h.addr_nodup he] at hsum
      have he0 := hnn e he
      obtain ⟨h1, h2⟩ := checkCapacity_tight hpre hnn1 (by
        rw [hsum]
        show Value.Size value + (weightSum lru.list - e.Value.size) < 18446744073709551616
        omega) hs
      exact ⟨h1, by rw [h2]; exact hcap⟩
    · rw [Set_miss h hk value now] at hs
      have hpre := WF_push h
        { key := key, value := value, size := Value.Size value, time_accessed := now } hk
      have hnn1 := nonneg_cons
        (x := (⟨lru.fresh, ⟨key, value, Value.Size value, now⟩⟩ : Element K V)) hv hnn
      have hsum := weightSum_cons
        (⟨lru.fresh, ⟨key, value, Value.Size value, now⟩⟩ : Element K V) lru.list
      obtain ⟨h1, h2⟩ := checkCapacity_tight hpre hnn1 (by
        rw [hsum]
        show Value.Size value + weightSum lru.list < 18446744073709551616
        omega) hs
      exact ⟨h1, by rw [h2]; exact hcap⟩
  cases op with
  | get key now =>
    by_cases hk : key ∈ Keys lru
    · obtain ⟨e, he, rfl⟩ := mem_Keys.1 hk
      simp only [step, Get_hit h he now, Option.map_some', Option.some.injEq] at hstep
      subst hstep
      exact ⟨by rw [hmove e now he]; exact hle, hcap⟩
    · simp only [step, Get_miss h hk now, Option.map_some', Option.some.injEq] at hstep
      subst hstep
      exact ⟨hle, hcap⟩
  | set key value now => exact hset key value now hop hstep
  | setIfAbsent key value now =>
    by_cases hk : key ∈ Keys lru
    · obtain ⟨e, he, rfl⟩ := mem_Keys.1 hk
      simp only [step, SetIfAbsent_hit h he value now, Option.some.injEq] at hstep
      subst hstep
      exact ⟨by rw [hmove e now he]; exact hle, hcap⟩
    · simp only [step, SetIfAbsent_miss h hk value now] at hstep
      exact hset key value now hop hstep
  | delete key =>
    by_cases hk : key ∈ Keys lru
    · obtain ⟨e, he, rfl⟩ := mem_Keys.1 hk
      simp only [step, Delete_hit h he, Option.map_some', Option.some.injEq] at hstep
      subst hstep
      refine ⟨?_, hcap⟩
      show weightSum (listRemove lru.list e.addr) ≤ (lru.capacity : Int)
      rw [weightSum_remove h.addr_nodup he]
      have := hnn e he
      omega
    · simp only [step, Delete_miss h hk, Option.map_some', Option.some.injEq] at hstep
      subst hstep
      exact ⟨hle, hcap⟩
  | clear =>
    simp only [step, Option.some.injEq] at hstep
    subst hstep
    refine ⟨?_, hcap⟩
    show weightSum ([] : List (Element K V)) ≤ (lru.capacity : Int)
    simp [weightSum]
  | setCapacity capacity =>
    have hwf : WF { lru with capacity := capacity } :=
      ⟨h.addr_nodup, h.key_nodup, h.table_iff, h.addr_lt, h.acct⟩
    have hlt : weightSum lru.list < 18446744073709551616 := by omega
    obtain ⟨h1, h2⟩ := checkCapacity_tight hwf hnn hlt hstep
    exact ⟨h1, by rw [h2]; exact hcb⟩

theorem run_tight [DecidableEq K] [Value V] (ops : List (Op K V)) :
    ∀ {lru lru1 : LRUCacheGeneric K V}, WF lru → (∀ e ∈ lru.list, 0 ≤ e.Value.size) →
      weightSum lru.list ≤ lru.capacity → lru.capacity ≤ 9223372036854775808 →
      (∀ op ∈ ops, op.nonneg) → (∀ op ∈ ops, op.capBound) → run lru ops = some lru1 →
      weightSum lru1.list ≤ lru1.capacity ∧ lru1.capacity ≤ 9223372036854775808 := by
  induction ops with
  | nil =>
    intro lru lru1 _ _ hle hcap _ _ hrun
    simp only [run, Option.some.injEq] at hrun
    subst hrun
    exact ⟨hle, hcap⟩
  | cons op ops ih =>
    intro lru lru1 h hnn hle hcap hops hcbs hrun
    obtain ⟨lru2, h2, hwf2⟩ := step_WF h op
    simp only [run, h2, Option.some_bind] at hrun
    have hop := hops op (List.mem_cons_self _ _)
    obtain ⟨t1, t2⟩ := step_tight h hnn hle hcap hop (hcbs op (List.mem_cons_self _ _)) h2
    exact ih hwf2 (step_nonneg h hnn hop h2) t1 t2
      (fun o ho => hops o (List.mem_cons_of_mem _ ho))
      (fun o ho => hcbs o (List.mem_cons_of_mem _ ho)) hrun

/-- C2 (amended): for every sequence of public operations on a new cache with
values of non-negative size, when the capacity (the initial one and every
argument of SetCapacity) is at most `2^63`, every operation returns and
afterwards the total weight is at most the capacity. -/
theorem C2_size_le_capacity [DecidableEq K] [Value V] (capacity : Nat)
    (ops : List (Op K V)) (hcap : capacity ≤ 9223372036854775808)
    (hnn : ∀ op ∈ ops, op.nonneg) (hcb : ∀ op ∈ ops, op.capBound) :
    ∃ lru : LRUCacheGeneric K V, run (NewLRUCacheGeneric capacity) ops = some lru ∧
      (Stats lru).2.1 ≤ (Stats lru).2.2.1 ∧ lru.size ≤ lru.capacity ∧
      (lru.size : Int) = weightSum lru.list := by
  obtain ⟨lru, hrun, hwf⟩ := run_WF ops (WF_new (K := K) (V := V) capacity)
  have hnil : ∀ e ∈ (NewLRUCacheGeneric capacity : LRUCacheGeneric K V).list,
      0 ≤ e.Value.size := fun e he => by cases he
  have h0 : 0 ≤ weightSum lru.list :=
    weightSum_nonneg (run_nonneg ops (WF_new capacity) hnil hnn hrun)
  obtain ⟨h1, h2⟩ := run_tight ops (WF_new capacity) hnil
    (by simp [NewLRUCacheGeneric, weightSum]) hcap hnn hcb hrun
  have h3 := hwf.acct
  have h4 : lru.size ≤ lru.capacity := by omega
  exact ⟨lru, hrun, h4, h4, by omega⟩

/-- C2 witness: the amended statement for a mixed sequence of calls at capacity 10. -/
theorem C2_size_le_capacity_witness :
    (10 ≤ 9223372036854775808) ∧ (∀ op ∈ opsMixed, op.nonneg) ∧
    (∀ op ∈ opsMixed, op.capBound) ∧
    ∃ lru : LRUCacheGeneric String Blob, run (NewLRUCacheGeneric 10) opsMixed = some lru ∧
      (Stats lru).2.1 ≤ (Stats lru).2.2.1 ∧ lru.size ≤ lru.capacity ∧
      (lru.size : Int) = weightSum lru.list :=
  ⟨by decide, by decide, by decide,
    C2_size_le_capacity 10 opsMixed (by decide) (by decide) (by decide)⟩

/-- C2 counterexample: capacity `2^63 + 10`, values of non-negative sizes
`2^63 - 1`, `11`, `2^63 - 1` are set (the total wraps to 9), then `Delete("b")`
returns and leaves the total weight `2^64 - 2`, above the capacity. -/
theorem C2_counterexample :
    (∀ op ∈ opsWrapDelete, op.nonneg) ∧
    ∃ lru : LRUCacheGeneric String Blob,
      run (NewLRUCacheGeneric 9223372036854775818) opsWrapDelete = some lru ∧
      (Stats lru).2.1 = 18446744073709551614 ∧ (Stats lru).2.2.1 = 9223372036854775818 ∧
      ¬ ((Stats lru).2.1 ≤ (Stats lru).2.2.1) :=
  ⟨by decide, _, rfl, by decide, by decide, by decide⟩

theorem checkCapacity_head [DecidableEq K] {lru : LRUCacheGeneric K V} (h : WF lru)
    {x : Element K V} {rest : List (Element K V)} (hl : lru.list = x :: rest)
    (h0 : 0 ≤ x.Value.size) (hle : x.Value.size ≤ lru.capacity)
    (hlt : x.Value.size < 18446744073709551616) :
    ∃ (lru1 : LRUCacheGeneric K V) (j : Nat),
      checkCapacity lru = some lru1 ∧ WF lru1 ∧ lru1.list = x :: rest.take j ∧
      lru1.capacity = lru.capacity ∧ lru1.fresh = lru.fresh ∧ lru1.size ≤ lru1.capacity := by
  obtain ⟨lru1, j, hrun, hwf, hj, hlist, hcap, hfresh, hsz, hmax⟩ := checkCapacity_spec h
  cases j with
  | zero =>
    exfalso
    have := hmax 1 (by omega) (by rw [hl]; simp)
    rw [hl] at this
    simp only [List.take_succ_cons, List.take_zero, weightSum_cons] at this
    have hnil : weightSum ([] : List (Element K V)) = 0 := by simp [weightSum]
    rw [hnil] at this
    omega
  | succ j =>
    refine ⟨lru1, j, hrun, hwf, ?_, hcap, hfresh, hsz⟩
    rw [hlist, hl, List.take_succ_cons]

/-- C3: in every reachable state, for every key and every value whose size is
between 0 and the capacity, `Set` returns and the `Get` of the same key that
follows returns the value with found = true (the key being absent or present
before). -/
theorem C3_set_then_get [DecidableEq K] [Value V] {lru : LRUCacheGeneric K V}
    (hr : Reachable lru) (k : K) (v : V) (now now1 : Nat)
    (h0 : 0 ≤ Value.Size v) (hle : Value.Size v ≤ lru.capacity) :
    ∃ lru1 lru2 : LRUCacheGeneric K V,
      Set lru k v now = some lru1 ∧ Get lru1 k now1 = some (lru2, some v) := by
  have h := hr.wf
  have hlt : Value.Size v < 18446744073709551616 := by
    have := Value.Size_lt v
    omega
  by_cases hk : k ∈ Keys lru
  · obtain ⟨e, he, rfl⟩ := mem_Keys.1 hk
    obtain ⟨lru1, j, hrun, hwf, hlist, _⟩ :=
      checkCapacity_head (WF_updated h he v now) rfl h0 hle hlt
    have hmem : (⟨e.addr, ⟨e.Value.key, v, Value.Size v, now⟩⟩ : Element K V) ∈ lru1.list := by
      rw [hlist]; exact List.mem_cons_self _ _
    exact ⟨lru1, _, (Set_hit h he v now).trans hrun, Get_hit hwf hmem now1⟩
  · obtain ⟨lru1, j, hrun, hwf, hlist, _⟩ :=
      checkCapacity_head (WF_push h ⟨k, v, Value.Size v, now⟩ hk) rfl h0 hle hlt
    have hmem : (⟨lru.fresh, ⟨k, v, Value.Size v, now⟩⟩ : Element K V) ∈ lru1.list := by
      rw [hlist]; exact List.mem_cons_self _ _
    exact ⟨lru1, _, (Set_miss h hk v now).trans hrun, Get_hit hwf hmem now1⟩

theorem stateA_reachable : Reachable stateA :=
  ⟨10, [.set "a" ⟨6⟩ 1], by decide, by decide, by decide⟩

theorem stateAB_reachable : Reachable stateAB :=
  ⟨10, opsAB, by decide, by decide, by decide⟩

theorem stateABC_reachable : Reachable stateABC :=
  ⟨10, opsABC, by decide, by decide, by decide⟩

theorem checkCapacityLoop_done [DecidableEq K] (n : Nat) {lru : LRUCacheGeneric K V}
    (h : lru.size ≤ lru.capacity) : checkCapacityLoop n lru = some lru := by
  cases n <;> simp [checkCapacityLoop, Nat.not_lt.2 h]

/-- C4 (amended): in every reachable non-empty state, for a `Set` of a new key
with non-negative weight `w ≤ capacity` such that `capacity < total + w < 2^64`
and `0 ≤ total + w - weight(victim) ≤ capacity`, where `victim` is the
least-recently-used entry, the cache afterwards holds the previous entries
without the victim, in their order, behind the new entry at the front. -/
theorem C4_single_eviction [DecidableEq K] [Value V] {lru : LRUCacheGeneric K V}
    (hr : Reachable lru) (k : K) (v : V) (now : Nat) (victim : Element K V)
    (hlast : lru.list.getLast? = some victim) (hk : k ∉ Keys lru)
    (h0 : 0 ≤ Value.Size v) (_hw : Value.Size v ≤ lru.capacity)
    (hgt : (lru.capacity : Int) < lru.size + Value.Size v)
    (hnw : lru.size + Value.Size v < 18446744073709551616)
    (hv0 : victim.Value.size ≤ lru.size + Value.Size v)
    (hfit : lru.size + Value.Size v - victim.Value.size ≤ lru.capacity) :
    ∃ lru1 : LRUCacheGeneric K V, Set lru k v now = some lru1 ∧
      entries lru1 = (k, v, Value.Size v) :: (entries lru).dropLast ∧
      Keys lru1 = k :: (Keys lru).dropLast ∧
      (lru1.size : Int) = lru.size + Value.Size v - victim.Value.size ∧
      lru1.capacity = lru.capacity := by
  have h := hr.wf
  obtain ⟨l0, hl⟩ := List.getLast?_eq_some_iff.1 hlast
  have hu := uint64_cast (Value.Size v)
  have hu2 := uint64_cast victim.Value.size
  have hpre : (lru.size + uint64 (Value.Size v)) % 18446744073709551616
      = lru.size + uint64 (Value.Size v) := by omega
  have hlastp : ((⟨lru.fresh, ⟨k, v, Value.Size v, now⟩⟩ : Element K V) :: lru.list).getLast?
      = some victim := by
    rw [hl, ← List.cons_append, List.getLast?_concat]
  have hdrop : ((⟨lru.fresh, ⟨k, v, Value.Size v, now⟩⟩ : Element K V) :: lru.list).dropLast
      = ⟨lru.fresh, ⟨k, v, Value.Size v, now⟩⟩ :: lru.list.dropLast := by
    rw [hl, ← List.cons_append, List.dropLast_concat, List.dropLast_concat]
  have hset : Set lru k v now = some (evictBack
      { list := ⟨lru.fresh, ⟨k, v, Value.Size v, now⟩⟩ :: lru.list
        table := tableSet lru.table k lru.fresh
        size := (lru.size + uint64 (Value.Size v)) % 18446744073709551616
        capacity := lru.capacity
        fresh := lru.fresh + 1 } victim) := by
    rw [Set_miss h hk v now]
    show checkCapacityLoop (lru.list.length + 1) _ = some _
    have hgt1 : (lru.size + uint64 (Value.Size v)) % 18446744073709551616 > lru.capacity := by
      omega
    simp only [checkCapacityLoop, hgt1, if_true, hlastp]
    apply checkCapacityLoop_done
    show (((lru.size + uint64 (Value.Size v)) % 18446744073709551616
      + 18446744073709551616 - uint64 victim.Value.size) % 18446744073709551616 : Nat)
      ≤ lru.capacity
    omega
  refine ⟨_, hset, ?_, ?_, ?_, rfl⟩
  · show List.map _ (List.dropLast (_ :: lru.list)) = _
    rw [hdrop]
    simp [entries, List.map_dropLast]
  · show List.map _ (List.dropLast (_ :: lru.list)) = _
    rw [hdrop]
    simp [Keys, List.map_dropLast]
  · show ((((lru.size + uint64 (Value.Size v)) % 18446744073709551616
      + 18446744073709551616 - uint64 victim.Value.size) % 18446744073709551616 : Nat) : Int)
      = lru.size + Value.Size v - victim.Value.size
    omega

theorem stateBig_reachable : Reachable stateBig :=
  ⟨18446744073709551615,
    [.set "a" ⟨9223372036854775807⟩ 1, .set "b" ⟨9223372036854775807⟩ 2],
    by decide, by decide, by decide⟩

/-- C3 witness: in the cache holding "b" (size 6, capacity 10), `Set("b", size 4)`
followed by `Get("b")` returns the new value. -/
theorem C3_set_then_get_witness :
    Reachable stateAB ∧ 0 ≤ Value.Size (⟨4⟩ : Blob) ∧
    Value.Size (⟨4⟩ : Blob) ≤ (stateAB.capacity : Int) ∧
    ∃ lru1 lru2 : LRUCacheGeneric String Blob,
      Set stateAB "b" ⟨4⟩ 5 = some lru1 ∧ Get lru1 "b" 6 = some (lru2, some ⟨4⟩) :=
  ⟨stateAB_reachable, by decide, by decide,
    C3_set_then_get stateAB_reachable "b" ⟨4⟩ 5 6 (by decide) (by decide)⟩

/-- C4 witness: capacity 10; after `Set("a", size 6)`, `Set("b", size 6)` leaves
only "b" with total weight 6; and with A, B, C set in that order (sizes 3), a
further `Set("D", size 3)` evicts A. -/
theorem C4_single_eviction_witness :
    (Reachable stateA ∧ stateA.list.getLast? = some ⟨0, ⟨"a", ⟨6⟩, 6, 1⟩⟩ ∧
      "b" ∉ Keys stateA ∧ (10 : Int) < 6 + 6 ∧ (6 : Int) + 6 - 6 ≤ 10) ∧
    (∃ lru1 : LRUCacheGeneric String Blob, Set stateA "b" ⟨6⟩ 2 = some lru1 ∧
      entries lru1 = [("b", ⟨6⟩, 6)] ∧ Keys lru1 = ["b"] ∧ (lru1.size : Int) = 6 ∧
      lru1.capacity = 10) ∧
    (∃ lru1 : LRUCacheGeneric String Blob, Set stateABC "D" ⟨3⟩ 4 = some lru1 ∧
      entries lru1 = [("D", ⟨3⟩, 3), ("C", ⟨3⟩, 3), ("B", ⟨3⟩, 3)] ∧
      Keys lru1 = ["D", "C", "B"] ∧ (lru1.size : Int) = 9 ∧ lru1.capacity = 10) :=
  ⟨⟨stateA_reachable, by decide, by decide, by decide, by decide⟩,
    C4_single_eviction stateA_reachable "b" ⟨6⟩ 2 ⟨0, ⟨"a", ⟨6⟩, 6, 1⟩⟩
      (by decide) (by decide) (by decide) (by decide) (by decide) (by decide) (by decide)
      (by decide),
    C4_single_eviction stateABC_reachable "D" ⟨3⟩ 4 ⟨0, ⟨"A", ⟨3⟩, 3, 1⟩⟩
      (by decide) (by decide) (by decide) (by decide) (by decide) (by decide) (by decide)
      (by decide)⟩

/-- C4 counterexample: capacity `2^64 - 1`, two entries of weight `2^63 - 1`
(total `2^64 - 2`); for the new key "c" of weight 5, `total + w` exceeds the
capacity and `total + w - weight(LRU)` does not, yet `Set` evicts nothing: the
`uint64` total wraps to 3 and all three keys are held. -/
theorem C4_counterexample :
    Reachable stateBig ∧
    stateBig.list.getLast? = some ⟨0, ⟨"a", ⟨9223372036854775807⟩, 9223372036854775807, 1⟩⟩ ∧
    "c" ∉ Keys stateBig ∧ 0 ≤ Value.Size (⟨5⟩ : Blob) ∧
    Value.Size (⟨5⟩ : Blob) ≤ (stateBig.capacity : Int) ∧
    (stateBig.capacity : Int) < stateBig.size + Value.Size (⟨5⟩ : Blob) ∧
    (stateBig.size : Int) + Value.Size (⟨5⟩ : Blob) - 9223372036854775807
      ≤ stateBig.capacity ∧
    ∃ lru1 : LRUCacheGeneric String Blob, Set stateBig "c" ⟨5⟩ 3 = some lru1 ∧
      Keys lru1 = ["c", "b", "a"] ∧ Keys lru1 ≠ "c" :: (Keys stateBig).dropLast ∧
      lru1.size = 3 :=
  ⟨stateBig_reachable, by decide, by decide, by decide, by decide, by decide, by decide,
    _, rfl, by decide, by decide, by decide⟩

theorem listRemove_eq_filter_key [DecidableEq K] {lru : LRUCacheGeneric K V} (h : WF lru)
    {e : Element K V} (he : e ∈ lru.list) :
    listRemove lru.list e.addr = lru.list.filter (fun x => x.Value.key ≠ e.Value.key) := by
  unfold listRemove
  apply List.filter_congr
  intro x hx
  by_cases hxa : x.addr = e.addr
  · have : x = e := addr_inj h.addr_nodup hx he hxa
    subst this
    simp
  · have hxk : x.Value.key ≠ e.Value.key := fun hk => hxa (by rw [key_inj h.key_nodup hx he hk])
    simp [hxa, hxk]

theorem entries_filter [DecidableEq K] (l : List (Element K V)) (k : K) :
    (l.filter (fun x => x.Value.key ≠ k)).map
        (fun e => (e.Value.key, e.Value.value, e.Value.size))
      = (l.map (fun e => (e.Value.key, e.Value.value, e.Value.size))).filter
          (fun p => p.1 ≠ k) := by
  rw [List.filter_map]
  rfl

theorem keys_filter [DecidableEq K] (l : List (Element K V)) (k : K) :
    (l.filter (fun x => x.Value.key ≠ k)).map (fun e => e.Value.key)
      = (l.map (fun e => e.Value.key)).filter (fun x => x ≠ k) := by
  rw [List.filter_map]
  rfl

theorem mem_entries {lru : LRUCacheGeneric K V} {k : K} {v : V} {w : Int}
    (h : (k, v, w) ∈ entries lru) :
    ∃ e ∈ lru.list, e.Value.key = k ∧ e.Value.value = v ∧ e.Value.size = w := by
  obtain ⟨e, he, heq⟩ := List.mem_map.1 h
  simp only [Prod.mk.injEq] at heq
  exact ⟨e, he, heq.1, heq.2.1, heq.2.2⟩

theorem moveToFront_entries [DecidableEq K] {lru : LRUCacheGeneric K V} (h : WF lru)
    {e : Element K V} (he : e ∈ lru.list) (now : Nat) :
    entries (moveToFront lru e.addr now)
        = (e.Value.key, e.Value.value, e.Value.size)
          :: (entries lru).filter (fun p => p.1 ≠ e.Value.key) ∧
      Keys (moveToFront lru e.addr now)
        = e.Value.key :: (Keys lru).filter (fun x => x ≠ e.Value.key) := by
  unfold entries Keys
  rw [moveToFront_list (elementAt_mem h.addr_nodup he) now, listRemove_eq_filter_key h he]
  simp only [List.map_cons, entries_filter, keys_filter, and_self]

/-- C5: in every reachable state holding key `k` with value `v` and weight `w`,
`Get(k)` returns `(v, true)`; afterwards the keys are `k` followed by the
previous keys without `k` in their previous order, the entries keep their
values and weights, and total weight and capacity are unchanged. -/
theorem C5_get_hit [DecidableEq K] [Value V] {lru : LRUCacheGeneric K V}
    (hr : Reachable lru) (k : K) (v : V) (w : Int) (now : Nat)
    (hmem : (k, v, w) ∈ entries lru) :
    ∃ lru1 : LRUCacheGeneric K V, Get lru k now = some (lru1, some v) ∧
      Keys lru1 = k :: (Keys lru).filter (fun x => x ≠ k) ∧
      entries lru1 = (k, v, w) :: (entries lru).filter (fun p => p.1 ≠ k) ∧
      lru1.size = lru.size ∧ lru1.capacity = lru.capacity ∧
      (Stats lru1).2.1 = (Stats lru).2.1 ∧ (Stats lru1).2.2.1 = (Stats lru).2.2.1 := by
  have h := hr.wf
  obtain ⟨e, he, rfl, rfl, rfl⟩ := mem_entries hmem
  obtain ⟨h1, h2⟩ := moveToFront_entries h he now
  exact ⟨_, Get_hit h he now, h2, h1, rfl, rfl, rfl, rfl⟩

/-- C5 witness: `Get("B")` in the cache holding C, B, A. -/
theorem C5_get_hit_witness :
    Reachable stateABC ∧ ("B", (⟨3⟩ : Blob), (3 : Int)) ∈ entries stateABC ∧
    ∃ lru1 : LRUCacheGeneric String Blob, Get stateABC "B" 7 = some (lru1, some ⟨3⟩) ∧
      Keys lru1 = ["B", "C", "A"] ∧
      entries lru1 = [("B", ⟨3⟩, 3), ("C", ⟨3⟩, 3), ("A", ⟨3⟩, 3)] ∧
      lru1.size = 9 ∧ lru1.capacity = 10 ∧
      (Stats lru1).2.1 = 9 ∧ (Stats lru1).2.2.1 = 10 :=
  ⟨stateABC_reachable, by decide,
    C5_get_hit stateABC_reachable "B" ⟨3⟩ 3 7 (by decide)⟩

theorem entries_keys (lru : LRUCacheGeneric K V) :
    (entries lru).map Prod.fst = Keys lru := by
  simp [entries, Keys]

theorem perm_filter_key [DecidableEq K] {A : Type} (l : List (K × A)) :
    (l.map Prod.fst).Nodup → ∀ {x : K × A}, x ∈ l →
      (x :: l.filter (fun p => p.1 ≠ x.1)).Perm l := by
  induction l with
  | nil => intro _ x hx; cases hx
  | cons y t ih =>
    intro hnd x hx
    simp only [List.map_cons, List.nodup_cons, List.mem_map, not_exists, not_and] at hnd
    rcases List.mem_cons.1 hx with rfl | hx
    · have hfil : t.filter (fun p => decide (p.1 ≠ x.1)) = t := by
        apply List.filter_eq_self.2
        intro p hp
        simpa using hnd.1 p hp
      rw [List.filter_cons]
      simp only [ne_eq, not_true_eq_false, decide_False, Bool.false_eq_true, if_false]
      have hfil2 : t.filter (fun p => decide (¬ p.1 = x.1)) = t := hfil
      rw [hfil2]
    · have hne : y.1 ≠ x.1 := fun hyx => hnd.1 x hx hyx.symm
      rw [List.filter_cons]
      simp only [ne_eq, hne, not_false_eq_true, decide_True, if_true]
      exact (List.Perm.swap y x _).trans ((ih hnd.2 hx).cons y)

/-- C6: in every reachable state holding key `k` with value `v` and weight `w`,
`SetIfAbsent(k, v2)` for any value `v2` returns, keeps `v` and `w` under `k`,
keeps the total weight and the capacity, evicts nothing and only moves `k` to
the front. -/
theorem C6_setIfAbsent_hit [DecidableEq K] [Value V] {lru : LRUCacheGeneric K V}
    (hr : Reachable lru) (k : K) (v v2 : V) (w : Int) (now : Nat)
    (hmem : (k, v, w) ∈ entries lru) :
    ∃ lru1 : LRUCacheGeneric K V, SetIfAbsent lru k v2 now = some lru1 ∧
      Keys lru1 = k :: (Keys lru).filter (fun x => x ≠ k) ∧
      entries lru1 = (k, v, w) :: (entries lru).filter (fun p => p.1 ≠ k) ∧
      (entries lru1).Perm (entries lru) ∧
      lru1.size = lru.size ∧ lru1.capacity = lru.capacity := by
  have h := hr.wf
  obtain ⟨e, he, rfl, rfl, rfl⟩ := mem_entries hmem
  obtain ⟨h1, h2⟩ := moveToFront_entries h he now
  refine ⟨_, SetIfAbsent_hit h he v2 now, h2, h1, ?_, rfl, rfl⟩
  rw [h1]
  exact perm_filter_key (entries lru) (by rw [entries_keys]; exact h.key_nodup) hmem

/-- C6 witness: `SetIfAbsent("A", size 9)` in the cache holding C, B, A of size 3. -/
theorem C6_setIfAbsent_hit_witness :
    Reachable stateABC ∧ ("A", (⟨3⟩ : Blob), (3 : Int)) ∈ entries stateABC ∧
    ∃ lru1 : LRUCacheGeneric String Blob, SetIfAbsent stateABC "A" ⟨9⟩ 7 = some lru1 ∧
      Keys lru1 = ["A", "C", "B"] ∧
      entries lru1 = [("A", ⟨3⟩, 3), ("C", ⟨3⟩, 3), ("B", ⟨3⟩, 3)] ∧
      (entries lru1).Perm (entries stateABC) ∧
      lru1.size = 9 ∧ lru1.capacity = 10 :=
  ⟨stateABC_reachable, by decide,
    C6_setIfAbsent_hit stateABC_reachable "A" ⟨3⟩ ⟨9⟩ 3 7 (by decide)⟩

theorem Set_result [DecidableEq K] [Value V] {lru : LRUCacheGeneric K V} (h : WF lru)
    (k : K) (v : V) (now : Nat) :
    ∃ lru1 : LRUCacheGeneric K V, Set lru k v now = some lru1 ∧ WF lru1 ∧
      lru1.size ≤ lru1.capacity ∧ lru1.capacity = lru.capacity ∧
      ((lru1.list = [] ∧ (lru.capacity : Int) < Value.Size v % 18446744073709551616) ∨
        ∃ x t, lru1.list = x :: t ∧ x.Value.key = k ∧ x.Value.value = v ∧
          x.Value.size = Value.Size v) := by
  have key : ∀ (pre : LRUCacheGeneric K V) (x : Element K V) (rest : List (Element K V)),
      WF pre → pre.list = x :: rest → pre.capacity = lru.capacity → x.Value.key = k →
      x.Value.value = v → x.Value.size = Value.Size v → Set lru k v now = checkCapacity pre →
      ∃ lru1 : LRUCacheGeneric K V, Set lru k v now = some lru1 ∧ WF lru1 ∧
        lru1.size ≤ lru1.capacity ∧ lru1.capacity = lru.capacity ∧
        ((lru1.list = [] ∧ (lru.capacity : Int) < Value.Size v % 18446744073709551616) ∨
          ∃ x t, lru1.list = x :: t ∧ x.Value.key = k ∧ x.Value.value = v ∧
            x.Value.size = Value.Size v) := by
    intro pre x rest hpre hl hc hxk hxv hxs hset
    obtain ⟨lru1, j, hrun, hwf, hj, hlist, hcap, _, hsz, hmax⟩ := checkCapacity_spec hpre
    refine ⟨lru1, hset.trans hrun, hwf, hsz, hcap.trans hc, ?_⟩
    cases j with
    | zero =>
      left
      refine ⟨by rw [hlist]; simp, ?_⟩
      have := hmax 1 (by omega) (by rw [hl]; simp)
      rw [hl] at this
      simp only [List.take_succ_cons, List.take_zero, weightSum_cons] at this
      have hnil : weightSum ([] : List (Element K V)) = 0 := by simp [weightSum]
      rw [hnil, hxs, hc] at this
      simpa using this
    | succ j =>
      right
      exact ⟨x, rest.take j, by rw [hlist, hl, List.take_succ_cons], hxk, hxv, hxs⟩
  by_cases hk : k ∈ Keys lru
  · obtain ⟨e, he, rfl⟩ := mem_Keys.1 hk
    exact key _ _ _ (WF_updated h he v now) rfl rfl rfl rfl rfl (Set_hit h he v now)
  · exact key _ _ _ (WF_push h ⟨k, v, Value.Size v, now⟩ hk) rfl rfl rfl rfl rfl
      (Set_miss h hk v now)

theorem listRemove_head {x : Element K V} {t : List (Element K V)}
    (hnd : ((x :: t).map (fun e => e.addr)).Nodup) : listRemove (x :: t) x.addr = t := by
  simp only [List.map_cons, List.nodup_cons, List.mem_map, not_exists, not_and] at hnd
  unfold listRemove
  rw [List.filter_cons]
  simp only [ne_eq, not_true_eq_false, decide_False, Bool.false_eq_true, if_false]
  apply List.filter_eq_self.2
  intro y hy
  simpa using hnd.1 y hy

/-- C7: in every reachable state, for every key and value, `Set(k, v)` returns,
and a second `Set(k, v)` right after it returns and leaves the same total
weight, the same capacity and the same entries in the same recency order. -/
theorem C7_set_twice [DecidableEq K] [Value V] {lru : LRUCacheGeneric K V}
    (hr : Reachable lru) (k : K) (v : V) (now now1 : Nat) :
    ∃ lru1 lru2 : LRUCacheGeneric K V,
      Set lru k v now = some lru1 ∧ Set lru1 k v now1 = some lru2 ∧
      lru2.size = lru1.size ∧ entries lru2 = entries lru1 ∧ Keys lru2 = Keys lru1 ∧
      lru2.capacity = lru1.capacity := by
  obtain ⟨lru1, hset, hwf, hsz, hcap, hcase⟩ := Set_result hr.wf k v now
  have hacct := hwf.acct
  rcases hcase with ⟨hnil, hbig⟩ | ⟨x, t, hl, hxk, hxv, hxs⟩
  · have hk : k ∉ Keys lru1 := by simp [Keys, hnil]
    have hsz0 : lru1.size = 0 := by
      rw [hnil] at hacct
      simp [weightSum] at hacct
      exact hacct
    have hu := uint64_cast (Value.Size v)
    have hgt : (lru1.size + uint64 (Value.Size v)) % 18446744073709551616 > lru1.capacity := by
      rw [hcap]; omega
    have hset2 : Set lru1 k v now1 = some (evictBack
        { list := ⟨lru1.fresh, ⟨k, v, Value.Size v, now1⟩⟩ :: lru1.list
          table := tableSet lru1.table k lru1.fresh
          size := (lru1.size + uint64 (Value.Size v)) % 18446744073709551616
          capacity := lru1.capacity
          fresh := lru1.fresh + 1 } ⟨lru1.fresh, ⟨k, v, Value.Size v, now1⟩⟩) := by
      rw [Set_miss hwf hk v now1]
      have hlastp : ((⟨lru1.fresh, ⟨k, v, Value.Size v, now1⟩⟩ : Element K V)
          :: lru1.list).getLast? = some ⟨lru1.fresh, ⟨k, v, Value.Size v, now1⟩⟩ := by
        rw [hnil]; rfl
      show checkCapacityLoop (lru1.list.length + 1) _ = some _
      simp only [checkCapacityLoop, hgt, if_true, hlastp]
      apply checkCapacityLoop_done
      show (((lru1.size + uint64 (Value.Size v)) % 18446744073709551616
        + 18446744073709551616 - uint64 (Value.Size v)) % 18446744073709551616 : Nat)
        ≤ lru1.capacity
      omega
    refine ⟨lru1, _, hset, hset2, ?_, ?_, ?_, rfl⟩
    · show (((lru1.size + uint64 (Value.Size v)) % 18446744073709551616
        + 18446744073709551616 - uint64 (Value.Size v)) % 18446744073709551616 : Nat)
        = lru1.size
      omega
    · show List.map _ (List.dropLast (_ :: lru1.list)) = List.map _ lru1.list
      rw [hnil]; rfl
    · show List.map _ (List.dropLast (_ :: lru1.list)) = List.map _ lru1.list
      rw [hnil]; rfl
  · have hx : x ∈ lru1.list := by rw [hl]; exact List.mem_cons_self _ _
    have hu := uint64_wrapInt (Value.Size v - x.Value.size)
    have hsz2 : (lru1.size + uint64 (wrapInt (Value.Size v - x.Value.size)))
        % 18446744073709551616 = lru1.size := by
      rw [hxs] at hu ⊢
      omega
    have hrem : listRemove lru1.list x.addr = t := by
      rw [hl]; exact listRemove_head (hl ▸ hwf.addr_nodup)
    have hset2 : Set lru1 k v now1 = some
        { lru1 with
          list := ⟨x.addr, ⟨x.Value.key, v, Value.Size v, now1⟩⟩ :: listRemove lru1.list x.addr
          size := (lru1.size + uint64 (wrapInt (Value.Size v - x.Value.size)))
            % 18446744073709551616 } := by
      rw [← hxk, Set_hit hwf hx v now1]
      apply checkCapacityLoop_done
      show (lru1.size + uint64 (wrapInt (Value.Size v - x.Value.size)))
        % 18446744073709551616 ≤ lru1.capacity
      rw [hsz2]; exact hsz
    refine ⟨lru1, _, hset, hset2, hsz2, ?_, ?_, rfl⟩
    · show List.map _ (_ :: listRemove lru1.list x.addr) = List.map _ lru1.list
      rw [hrem, hl]
      simp [hxv, hxs]
    · show List.map _ (_ :: listRemove lru1.list x.addr) = List.map _ lru1.list
      rw [hrem, hl]
      simp

/-- C7 witness: `Set("B", size 5)` twice in the cache holding C, B, A at capacity 10. -/
theorem C7_set_twice_witness :
    Reachable stateABC ∧
    ∃ lru1 lru2 : LRUCacheGeneric String Blob,
      Set stateABC "B" ⟨5⟩ 4 = some lru1 ∧ Set lru1 "B" ⟨5⟩ 5 = some lru2 ∧
      lru2.size = lru1.size ∧ entries lru2 = entries lru1 ∧ Keys lru2 = Keys lru1 ∧
      lru2.capacity = lru1.capacity :=
  ⟨stateABC_reachable, C7_set_twice stateABC_reachable "B" ⟨5⟩ 4 5⟩

theorem stateWrap_reachable : Reachable stateWrap :=
  ⟨9223372036854775818, opsWrap, by decide, by decide, by decide⟩

/-- C8 (amended): in every reachable state holding key `k` with weight `w`,
`Delete(k)` returns true; afterwards `k` is absent and `Get(k)` reports not
found, the total weight is the previous one minus `w` modulo `2^64` (exactly
`total - w` when `0 ≤ w ≤ total`), and all other entries are unchanged and keep
their order. -/
theorem C8_delete_hit [DecidableEq K] [Value V] {lru : LRUCacheGeneric K V}
    (hr : Reachable lru) (k : K) (v : V) (w : Int) (now : Nat)
    (hmem : (k, v, w) ∈ entries lru) :
    ∃ lru1 : LRUCacheGeneric K V, Delete lru k = some (lru1, true) ∧
      k ∉ Keys lru1 ∧ Get lru1 k now = some (lru1, none) ∧
      (lru1.size : Int) = (lru.size - w) % 18446744073709551616 ∧
      (0 ≤ w → w ≤ lru.size → (lru1.size : Int) = lru.size - w) ∧
      entries lru1 = (entries lru).filter (fun p => p.1 ≠ k) ∧
      Keys lru1 = (Keys lru).filter (fun x => x ≠ k) ∧
      lru1.capacity = lru.capacity := by
  have h := hr.wf
  obtain ⟨e, he, rfl, rfl, rfl⟩ := mem_entries hmem
  have hwf1 := WF_remove h he
  have hkeys : Keys ({ lru with
         list := listRemove lru.list e.addr
         table := tableDel lru.table e.Value.key
         size := (lru.size + 18446744073709551616 - uint64 e.Value.size)
           % 18446744073709551616 } : LRUCacheGeneric K V)
      = (Keys lru).filter (fun x => x ≠ e.Value.key) := by
    show List.map _ (listRemove lru.list e.addr) = _
    rw [listRemove_eq_filter_key h he, keys_filter]
    rfl
  have hnot : e.Value.key ∉ Keys ({ lru with
         list := listRemove lru.list e.addr
         table := tableDel lru.table e.Value.key
         size := (lru.size + 18446744073709551616 - uint64 e.Value.size)
           % 18446744073709551616 } : LRUCacheGeneric K V) := by
    rw [hkeys]
    simp
  have hu := uint64_cast e.Value.size
  have hsz : (((lru.size + 18446744073709551616 - uint64 e.Value.size)
      % 18446744073709551616 : Nat) : Int)
      = (lru.size - e.Value.size) % 18446744073709551616 := by omega
  refine ⟨_, Delete_hit h he, hnot, Get_miss hwf1 hnot now, hsz, ?_, ?_, hkeys, rfl⟩
  · intro h0 h1
    rw [hsz]
    have := h.acct
    omega
  · show List.map _ (listRemove lru.list e.addr) = _
    rw [listRemove_eq_filter_key h he, entries_filter]
    rfl

/-- C8 witness: `Delete("B")` in the cache holding C, B, A of size 3. -/
theorem C8_delete_hit_witness :
    Reachable stateABC ∧ ("B", (⟨3⟩ : Blob), (3 : Int)) ∈ entries stateABC ∧
    ∃ lru1 : LRUCacheGeneric String Blob, Delete stateABC "B" = some (lru1, true) ∧
      "B" ∉ Keys lru1 ∧ Get lru1 "B" 9 = some (lru1, none) ∧
      (lru1.size : Int) = (9 - 3) % 18446744073709551616 ∧
      ((0 : Int) ≤ 3 → (3 : Int) ≤ 9 → (lru1.size : Int) = 9 - 3) ∧
      entries lru1 = [("C", ⟨3⟩, 3), ("A", ⟨3⟩, 3)] ∧
      Keys lru1 = ["C", "A"] ∧
      lru1.capacity = 10 :=
  ⟨stateABC_reachable, by decide,
    C8_delete_hit stateABC_reachable "B" ⟨3⟩ 3 9 (by decide)⟩

/-- C8 counterexample: in the reachable state of capacity `2^63 + 10` whose
total weight wrapped to 9, `Delete("b")` of the entry of weight 11 returns true
and leaves the total weight `2^64 - 2`, not `9 - 11`. -/
theorem C8_counterexample :
    Reachable stateWrap ∧ ("b", (⟨11⟩ : Blob), (11 : Int)) ∈ entries stateWrap ∧
    ∃ lru1 : LRUCacheGeneric String Blob, Delete stateWrap "b" = some (lru1, true) ∧
      lru1.size = 18446744073709551614 ∧ (lru1.size : Int) ≠ stateWrap.size - 11 :=
  ⟨stateWrap_reachable, by decide, _, rfl, by decide, by decide⟩

/-- C9: in every reachable state, for a key that is not in the cache, `Get`
returns found = false and `Delete` returns false, and each leaves the whole
state (entries, recency order, index, total weight, capacity) unchanged. -/
theorem C9_miss_no_effect [DecidableEq K] [Value V] {lru : LRUCacheGeneric K V}
    (hr : Reachable lru) (k : K) (now : Nat) (hk : k ∉ Keys lru) :
    Get lru k now = some (lru, none) ∧ Delete lru k = some (lru, false) :=
  ⟨Get_miss hr.wf hk now, Delete_miss hr.wf hk⟩

/-- C9 witness: key "Z" in the cache holding C, B, A. -/
theorem C9_miss_no_effect_witness :
    Reachable stateABC ∧ "Z" ∉ Keys stateABC ∧
    Get stateABC "Z" 9 = some (stateABC, none) ∧ Delete stateABC "Z" = some (stateABC, false) :=
  ⟨stateABC_reachable, by decide, C9_miss_no_effect stateABC_reachable "Z" 9 (by decide)⟩

/-- C10 (amended): in every reachable state with non-negative entry weights
whose sum is below `2^64`, `SetCapacity(c)` returns, sets the capacity to `c`
and leaves the longest most-recently-used part of the recency order whose
total weight is at most `c`; when `c` is below the weight of every held entry
the cache ends with no entries. -/
theorem C10_setCapacity [DecidableEq K] [Value V] {lru : LRUCacheGeneric K V}
    (hr : Reachable lru) (c : Nat) (hnn : ∀ e ∈ lru.list, 0 ≤ e.Value.size)
    (hlt : weightSum lru.list < 18446744073709551616) :
    ∃ (lru1 : LRUCacheGeneric K V) (j : Nat), SetCapacity lru c = some lru1 ∧
      lru1.capacity = c ∧ j ≤ lru.list.length ∧
      lru1.list = lru.list.take j ∧ Keys lru1 = (Keys lru).take j ∧
      entries lru1 = (entries lru).take j ∧
      weightSum (lru.list.take j) ≤ c ∧
      (∀ i, i ≤ lru.list.length → weightSum (lru.list.take i) ≤ c → i ≤ j) ∧
      (lru1.size : Int) = weightSum lru1.list ∧
      ((∀ e ∈ lru.list, (c : Int) < e.Value.size) → lru1.list = []) := by
  have h := hr.wf
  have hwf : WF { lru with capacity := c } :=
    ⟨h.addr_nodup, h.key_nodup, h.table_iff, h.addr_lt, h.acct⟩
  obtain ⟨lru1, j, hrun, hwf1, hj, hlist, hcap, _, hsz, hmax⟩ := checkCapacity_spec hwf
  have hbound : ∀ i, 0 ≤ weightSum (lru.list.take i) ∧
      weightSum (lru.list.take i) < 18446744073709551616 := by
    intro i
    have h1 := weightSum_take_le hnn i
    have h2 : 0 ≤ weightSum (lru.list.take i) :=
      weightSum_nonneg (fun e he => hnn e (List.mem_of_mem_take he))
    exact ⟨h2, by omega⟩
  have hacct := hwf1.acct
  have hlist1 : lru1.list = lru.list.take j := hlist
  rw [hlist1] at hacct
  have hcap1 : lru1.capacity = c := hcap
  have hsum : weightSum (lru.list.take j) ≤ c := by
    have := hbound j
    omega
  refine ⟨lru1, j, hrun, hcap1, hj, hlist1, ?_, ?_, hsum, ?_, ?_, ?_⟩
  · simp [Keys, hlist1, List.map_take]
  · simp [entries, hlist1, List.map_take]
  · intro i hi hic
    by_contra hji
    have := hmax i (by omega) hi
    have hcc : ({ lru with capacity := c } : LRUCacheGeneric K V).list = lru.list := rfl
    rw [hcc] at this
    have hci : (({ lru with capacity := c } : LRUCacheGeneric K V).capacity : Int) = c := rfl
    rw [hci] at this
    have := hbound i
    omega
  · rw [hlist1]
    have := hbound j
    omega
  · intro hall
    rw [hlist1]
    cases htk : lru.list.take j with
    | nil => rfl
    | cons x t =>
      exfalso
      have hx : x ∈ lru.list := List.mem_of_mem_take (by rw [htk]; exact List.mem_cons_self _ _)
      have h1 := hall x hx
      have h2 : 0 ≤ weightSum t := weightSum_nonneg (fun e he =>
        hnn e (List.mem_of_mem_take (by rw [htk]; exact List.mem_cons_of_mem _ he)))
      rw [htk, weightSum_cons] at hsum
      omega

/-- C10 witness: `SetCapacity(5)` in the cache holding C, B, A of size 3 keeps C only. -/
theorem C10_setCapacity_witness :
    Reachable stateABC ∧ (∀ e ∈ stateABC.list, 0 ≤ e.Value.size) ∧
    weightSum stateABC.list < 18446744073709551616 ∧
    ∃ (lru1 : LRUCacheGeneric String Blob) (j : Nat), SetCapacity stateABC 5 = some lru1 ∧
      lru1.capacity = 5 ∧ j ≤ stateABC.list.length ∧
      lru1.list = stateABC.list.take j ∧ Keys lru1 = (Keys stateABC).take j ∧
      entries lru1 = (entries stateABC).take j ∧
      weightSum (stateABC.list.take j) ≤ (5 : Nat) ∧
      (∀ i, i ≤ stateABC.list.length → weightSum (stateABC.list.take i) ≤ (5 : Nat) → i ≤ j) ∧
      (lru1.size : Int) = weightSum lru1.list ∧
      ((∀ e ∈ stateABC.list, ((5 : Nat) : Int) < e.Value.size) → lru1.list = []) :=
  ⟨stateABC_reachable, by decide, by decide,
    C10_setCapacity stateABC_reachable 5 (by decide) (by decide)⟩

/-- C10 counterexample: in the reachable state of capacity `2^63 + 10` holding
non-negative weights `2^63 - 1`, `11`, `2^63 - 1` with wrapped total 9,
`SetCapacity(10)` evicts nothing although 10 is below the weight of every held
entry and below the weight of every non-empty front part of the order. -/
theorem C10_counterexample :
    Reachable stateWrap ∧ (∀ e ∈ stateWrap.list, 0 ≤ e.Value.size) ∧
    (∀ e ∈ stateWrap.list, (10 : Int) < e.Value.size) ∧
    ∃ lru1 : LRUCacheGeneric String Blob, SetCapacity stateWrap 10 = some lru1 ∧
      lru1.capacity = 10 ∧ Keys lru1 = ["c", "b", "a"] ∧ lru1.list ≠ [] ∧
      ¬ (weightSum lru1.list ≤ 10) :=
  ⟨stateWrap_reachable, by decide, by decide, _, rfl, by decide, by decide, by decide,
    by decide⟩

/-- C19: in every reachable state the recency list and the index agree: no two
list entries have the same key (and no two nodes the same address), the index
holds a key exactly when the list does, and it maps each key to the address of
the list node holding that key, which `elementAt` finds; hence `Keys` has no
duplicates and its length is the count reported by `Stats`. -/
theorem C19_list_index_consistent [DecidableEq K] [Value V] {lru : LRUCacheGeneric K V}
    (hr : Reachable lru) :
    (Keys lru).Nodup ∧ (lru.list.map (fun e => e.addr)).Nodup ∧
    (∀ k, (tableGet lru.table k).isSome ↔ k ∈ Keys lru) ∧
    (∀ k a, tableGet lru.table k = some a ↔ ∃ e ∈ lru.list, e.addr = a ∧ e.Value.key = k) ∧
    (∀ k a, tableGet lru.table k = some a →
      ∃ e, elementAt lru.list a = some e ∧ e.Value.key = k) ∧
    (Keys lru).length = (Stats lru).1 := by
  have h := hr.wf
  refine ⟨h.key_nodup, h.addr_nodup, ?_, h.table_iff, ?_, ?_⟩
  · intro k
    constructor
    · intro hs
      obtain ⟨a, ha⟩ := Option.isSome_iff_exists.1 hs
      obtain ⟨e, he, _, hk⟩ := (h.table_iff k a).1 ha
      exact mem_Keys.2 ⟨e, he, hk⟩
    · intro hk
      obtain ⟨e, he, rfl⟩ := mem_Keys.1 hk
      rw [h.table_mem he]
      rfl
  · intro k a ha
    obtain ⟨e, h1, _, _, h4⟩ := h.table_some ha
    exact ⟨e, h1, h4⟩
  · simp [Keys, Stats]

/-- C19 witness: the cache holding C, B, A. -/
theorem C19_list_index_consistent_witness :
    Reachable stateABC ∧
    ((Keys stateABC).Nodup ∧ (stateABC.list.map (fun e => e.addr)).Nodup ∧
    (∀ k, (tableGet stateABC.table k).isSome ↔ k ∈ Keys stateABC) ∧
    (∀ k a, tableGet stateABC.table k = some a ↔
      ∃ e ∈ stateABC.list, e.addr = a ∧ e.Value.key = k) ∧
    (∀ k a, tableGet stateABC.table k = some a →
      ∃ e, elementAt stateABC.list a = some e ∧ e.Value.key = k) ∧
    (Keys stateABC).length = (Stats stateABC).1) :=
  ⟨stateABC_reachable, C19_list_index_consistent stateABC_reachable⟩

theorem TimeSorted.mono {l : List (Element K V)} {t t1 : Nat} (h : TimeSorted l t)
    (ht : t ≤ t1) : TimeSorted l t1 :=
  ⟨h.1, fun e he => le_trans (h.2 e he) ht⟩

theorem TimeSorted.sublist {l l1 : List (Element K V)} {t : Nat} (h : TimeSorted l t)
    (hs : l1.Sublist l) : TimeSorted l1 t :=
  ⟨h.1.sublist (hs.map _), fun e he => h.2 e (hs.subset he)⟩

theorem TimeSorted.cons {l : List (Element K V)} {t now : Nat} (h : TimeSorted l t)
    (ht : t ≤ now) (x : Element K V) (hx : x.Value.time_accessed = now) :
    TimeSorted (x :: l) now := by
  refine ⟨?_, ?_⟩
  · simp only [List.map_cons, List.pairwise_cons, List.mem_map]
    refine ⟨?_, h.1⟩
    rintro b ⟨e, he, rfl⟩
    rw [hx]
    exact le_trans (h.2 e he) ht
  · intro e he
    rcases List.mem_cons.1 he with rfl | he
    · exact le_of_eq hx
    · exact le_trans (h.2 e he) ht

theorem checkCapacity_sublist [DecidableEq K] {lru lru1 : LRUCacheGeneric K V} (h : WF lru)
    (hrun : checkCapacity lru = some lru1) : lru1.list.Sublist lru.list := by
  obtain ⟨lru2, j, hrun2, _, _, hlist, _⟩ := checkCapacity_spec h
  rw [hrun] at hrun2
  cases hrun2
  rw [hlist]
  exact List.take_sublist _ _

theorem step_timeSorted [DecidableEq K] [Value V] {lru lru1 : LRUCacheGeneric K V} (h : WF lru)
    {t : Nat} (hs : TimeSorted lru.list t) {op : Op K V}
    (hop : ∀ now, op.time = some now → t ≤ now) (hstep : step lru op = some lru1) :
    TimeSorted lru1.list (op.time.getD t) := by
  have hrm : ∀ a, TimeSorted (listRemove lru.list a) t :=
    fun a => hs.sublist (List.filter_sublist _)
  have hmove : ∀ (e : Element K V) (now : Nat), e ∈ lru.list → t ≤ now →
      TimeSorted (moveToFront lru e.addr now).list now := by
    intro e now he ht
    rw [moveToFront_list (elementAt_mem h.addr_nodup he) now]
    exact (hrm e.addr).cons ht _ rfl
  have hset : ∀ (key : K) (value : V) (now : Nat), t ≤ now →
      Set lru key value now = some lru1 → TimeSorted lru1.list now := by
    intro key value now ht hs1
    by_cases hk : key ∈ Keys lru
    · obtain ⟨e, he, rfl⟩ := mem_Keys.1 hk
      rw [Set_hit h he value now] at hs1
      exact TimeSorted.sublist ((hrm e.addr).cons ht _ rfl)
        (checkCapacity_sublist (WF_updated h he value now) hs1)
    · rw [Set_miss h hk value now] at hs1
      exact TimeSorted.sublist (hs.cons ht _ rfl)
        (checkCapacity_sublist (WF_push h ⟨key, value, Value.Size value, now⟩ hk) hs1)
  cases op with
  | get key now =>
    have ht := hop now rfl
    by_cases hk : key ∈ Keys lru
    · obtain ⟨e, he, rfl⟩ := mem_Keys.1 hk
      simp only [step, Get_hit h he now, Option.map_some', Option.some.injEq] at hstep
      subst hstep
      exact hmove e now he ht
    · simp only [step, Get_miss h hk now, Option.map_some', Option.some.injEq] at hstep
      subst hstep
      exact hs.mono ht
  | set key value now => exact hset key value now (hop now rfl) hstep
  | setIfAbsent key value now =>
    have ht := hop now rfl
    by_cases hk : key ∈ Keys lru
    · obtain ⟨e, he, rfl⟩ := mem_Keys.1 hk
      simp only [step, SetIfAbsent_hit h he value now, Option.some.injEq] at hstep
      subst hstep
      exact hmove e now he ht
    · simp only [step, SetIfAbsent_miss h hk value now] at hstep
      exact hset key value now ht hstep
  | delete key =>
    by_cases hk : key ∈ Keys lru
    · obtain ⟨e, he, rfl⟩ := mem_Keys.1 hk
      simp only [step, Delete_hit h he, Option.map_some', Option.some.injEq] at hstep
      subst hstep
      exact hrm e.addr
    · simp only [step, Delete_miss h hk, Option.map_some', Option.some.injEq] at hstep
      subst hstep
      exact hs
  | clear =>
    simp only [step, Option.some.injEq] at hstep
    subst hstep
    exact ⟨List.Pairwise.nil, fun e he => by cases he⟩
  | setCapacity capacity =>
    have hwf : WF { lru with capacity := capacity } :=
      ⟨h.addr_nodup, h.key_nodup, h.table_iff, h.addr_lt, h.acct⟩
    have hsub := checkCapacity_sublist hwf hstep
    exact hs.sublist hsub

theorem run_timeSorted [DecidableEq K] [Value V] (ops : List (Op K V)) :
    ∀ {lru lru1 : LRUCacheGeneric K V} {t : Nat}, WF lru → TimeSorted lru.list t →
      clockFrom t ops → run lru ops = some lru1 → ∃ t1, TimeSorted lru1.list t1 := by
  induction ops with
  | nil =>
    intro lru lru1 t _ hs _ hrun
    simp only [run, Option.some.injEq] at hrun
    subst hrun
    exact ⟨t, hs⟩
  | cons op ops ih =>
    intro lru lru1 t h hs hc hrun
    obtain ⟨lru2, h2, hwf2⟩ := step_WF h op
    simp only [run, h2, Option.some_bind] at hrun
    unfold clockFrom at hc
    cases hot : op.time with
    | none =>
      rw [hot] at hc
      have := step_timeSorted h hs (fun now hn => by rw [hot] at hn; cases hn) h2
      rw [hot] at this
      exact ih hwf2 this hc hrun
    | some now =>
      rw [hot] at hc
      have := step_timeSorted h hs
        (fun n hn => by rw [hot] at hn; cases hn; exact hc.1) h2
      rw [hot] at this
      exact ih hwf2 this hc.2 hrun

theorem stats_oldest_le {lru : LRUCacheGeneric K V}
    (hs : (accessTimes lru).Pairwise (fun a b => b ≤ a)) :
    ∀ e ∈ lru.list, (Stats lru).2.2.2 ≤ e.Value.time_accessed := by
  intro e he
  rcases List.eq_nil_or_concat lru.list with hnil | ⟨l0, last, hl⟩
  · rw [hnil] at he
    cases he
  · rw [List.concat_eq_append] at hl
    have hlast : lru.list.getLast? = some last := by rw [hl]; simp
    have hst : (Stats lru).2.2.2 = last.Value.time_accessed := by
      simp only [Stats, hlast]
    rw [hst]
    unfold accessTimes at hs
    rw [hl] at hs he
    simp only [List.map_append, List.map_cons, List.map_nil, List.pairwise_append,
      List.mem_map, List.mem_singleton] at hs
    rcases List.mem_append.1 he with he | he
    · exact hs.2.2 _ ⟨e, he, rfl⟩ _ rfl
    · simp only [List.mem_singleton] at he
      rw [he]

theorem logTouch_nodup [DecidableEq K] {log : List (K × Nat)}
    (h : (log.map Prod.fst).Nodup) (t : Option (K × Nat)) :
    ((logTouch log t).map Prod.fst).Nodup := by
  cases t with
  | none => exact h
  | some p =>
    obtain ⟨k, now⟩ := p
    show ((k, now) :: log.filter (fun p => p.1 ≠ k)).map Prod.fst |>.Nodup
    rw [List.map_cons, List.nodup_cons]
    constructor
    · intro hm
      obtain ⟨q, hq, hqk⟩ := List.mem_map.1 hm
      have := (List.mem_filter.1 hq).2
      simp only [ne_eq, decide_not, Bool.not_eq_true', decide_eq_false_iff_not] at this
      exact this hqk
    · exact h.sublist ((List.filter_sublist _).map _)

theorem keyTimes_filter (l : List (Element K V)) (k : K) [DecidableEq K] :
    (l.filter (fun x => x.Value.key ≠ k)).map (fun e => (e.Value.key, e.Value.time_accessed))
      = (l.map (fun e => (e.Value.key, e.Value.time_accessed))).filter (fun p => p.1 ≠ k) := by
  induction l with
  | nil => rfl
  | cons x l ih =>
    by_cases hx : x.Value.key = k
    · simp only [List.filter_cons, hx, ne_eq, not_true_eq_false, decide_False,
        Bool.false_eq_true, if_false, List.map_cons]
      exact ih
    · simp only [List.filter_cons, hx, ne_eq, not_false_eq_true, decide_True, if_true,
        List.map_cons]
      rw [ih]

theorem touch_sublist [DecidableEq K] {lru : LRUCacheGeneric K V} {log : List (K × Nat)}
    (hlog : (keyTimes lru).Sublist log) (k : K) (now : Nat) {x : Element K V}
    (hxk : x.Value.key = k) (hxt : x.Value.time_accessed = now)
    {l1 : List (Element K V)}
    (hl1 : l1.Sublist (x :: lru.list.filter (fun y => y.Value.key ≠ k))) :
    (l1.map (fun e => (e.Value.key, e.Value.time_accessed))).Sublist
      (logTouch log (some (k, now))) := by
  refine (hl1.map _).trans ?_
  show List.Sublist
    ((x.Value.key, x.Value.time_accessed) ::
      (lru.list.filter (fun y => y.Value.key ≠ k)).map
        (fun e => (e.Value.key, e.Value.time_accessed)))
    ((k, now) :: log.filter (fun p => p.1 ≠ k))
  rw [hxk, hxt, keyTimes_filter]
  exact (hlog.filter _).cons₂ _

theorem filter_key_absent [DecidableEq K] {lru : LRUCacheGeneric K V} {k : K}
    (hk : k ∉ Keys lru) : lru.list.filter (fun y => y.Value.key ≠ k) = lru.list := by
  apply List.filter_eq_self.2
  intro y hy
  have : y.Value.key ≠ k := fun e => hk (mem_Keys.2 ⟨y, hy, e⟩)
  simpa using this

theorem step_touchLog [DecidableEq K] [Value V] {lru lru1 : LRUCacheGeneric K V} (h : WF lru)
    {log : List (K × Nat)} (hlog : (keyTimes lru).Sublist log) {op : Op K V}
    (hstep : step lru op = some lru1) :
    (keyTimes lru1).Sublist (logTouch log (op.touch lru)) := by
  have hmove : ∀ (e : Element K V) (now : Nat), e ∈ lru.list →
      (keyTimes (moveToFront lru e.addr now)).Sublist
        (logTouch log (some (e.Value.key, now))) := by
    intro e now he
    refine touch_sublist hlog e.Value.key now
      (x := { addr := e.addr, Value := { e.Value with time_accessed := now } }) rfl rfl ?_
    rw [moveToFront_list (elementAt_mem h.addr_nodup he) now, listRemove_eq_filter_key h he]
  have hset : ∀ (key : K) (value : V) (now : Nat), Set lru key value now = some lru1 →
      (keyTimes lru1).Sublist (logTouch log (some (key, now))) := by
    intro key value now hs1
    by_cases hk : key ∈ Keys lru
    · obtain ⟨e, he, rfl⟩ := mem_Keys.1 hk
      rw [Set_hit h he value now] at hs1
      have hsub := checkCapacity_sublist (WF_updated h he value now) hs1
      refine touch_sublist hlog e.Value.key now
        (x := { addr := e.addr
                Value := { key := e.Value.key, value := value, size := Value.Size value,
                           time_accessed := now } }) rfl rfl ?_
      rw [← listRemove_eq_filter_key h he]
      exact hsub
    · rw [Set_miss h hk value now] at hs1
      have hsub := checkCapacity_sublist
        (WF_push h ⟨key, value, Value.Size value, now⟩ hk) hs1
      refine touch_sublist hlog key now
        (x := { addr := lru.fresh
                Value := { key := key, value := value, size := Value.Size value,
                           time_accessed := now } }) rfl rfl ?_
      rw [filter_key_absent hk]
      exact hsub
  cases op with
  | get key now =>
    by_cases hk : key ∈ Keys lru
    · obtain ⟨e, he, rfl⟩ := mem_Keys.1 hk
      simp only [step, Get_hit h he now, Option.map_some', Option.some.injEq] at hstep
      subst hstep
      have ht : (Op.get e.Value.key now : Op K V).touch lru = some (e.Value.key, now) := by
        simp [Op.touch, h.table_mem he]
      rw [ht]
      exact hmove e now he
    · simp only [step, Get_miss h hk now, Option.map_some', Option.some.injEq] at hstep
      subst hstep
      have ht : (Op.get key now : Op K V).touch lru = none := by
        simp [Op.touch, h.table_none hk]
      rw [ht]
      exact hlog
  | set key value now => exact hset key value now hstep
  | setIfAbsent key value now =>
    by_cases hk : key ∈ Keys lru
    · obtain ⟨e, he, rfl⟩ := mem_Keys.1 hk
      simp only [step, SetIfAbsent_hit h he value now, Option.some.injEq] at hstep
      subst hstep
      exact hmove e now he
    · simp only [step, SetIfAbsent_miss h hk value now] at hstep
      exact hset key value now hstep
  | delete key =>
    by_cases hk : key ∈ Keys lru
    · obtain ⟨e, he, rfl⟩ := mem_Keys.1 hk
      simp only [step, Delete_hit h he, Option.map_some', Option.some.injEq] at hstep
      subst hstep
      exact ((List.filter_sublist _).map _).trans hlog
    · simp only [step, Delete_miss h hk, Option.map_some', Option.some.injEq] at hstep
      subst hstep
      exact hlog
  | clear =>
    simp only [step, Option.some.injEq] at hstep
    subst hstep
    exact List.nil_sublist _
  | setCapacity capacity =>
    have hwf : WF { lru with capacity := capacity } :=
      ⟨h.addr_nodup, h.key_nodup, h.table_iff, h.addr_lt, h.acct⟩
    have hsub := checkCapacity_sublist hwf hstep
    exact (hsub.map _).trans hlog

theorem run_touchLog [DecidableEq K] [Value V] (ops : List (Op K V)) :
    ∀ {lru lru1 : LRUCacheGeneric K V} {log : List (K × Nat)}, WF lru →
      (keyTimes lru).Sublist log → (log.map Prod.fst).Nodup → run lru ops = some lru1 →
      (keyTimes lru1).Sublist (touchLog lru ops log) ∧
        ((touchLog lru ops log).map Prod.fst).Nodup := by
  induction ops with
  | nil =>
    intro lru lru1 log _ hlog hnd hrun
    simp only [run, Option.some.injEq] at hrun
    subst hrun
    exact ⟨hlog, hnd⟩
  | cons op ops ih =>
    intro lru lru1 log h hlog hnd hrun
    obtain ⟨lru2, h2, hwf2⟩ := step_WF h op
    simp only [run, h2, Option.some_bind] at hrun
    have hlog2 := step_touchLog h hlog h2
    have := ih hwf2 hlog2 (logTouch_nodup hnd _) hrun
    simp only [touchLog, h2]
    exact this

theorem keyTimes_absent [DecidableEq K] {lru : LRUCacheGeneric K V} {k : K}
    (hk : k ∉ Keys lru) : (keyTimes lru).filter (fun p => p.1 ≠ k) = keyTimes lru := by
  unfold keyTimes
  rw [← keyTimes_filter, filter_key_absent hk]

theorem step_mentionLog [DecidableEq K] [Value V] {lru lru1 : LRUCacheGeneric K V}
    (h : WF lru) {log : List (K × Nat)} (hlog : (keyTimes lru).Sublist log) {op : Op K V}
    (hstep : step lru op = some lru1) :
    (keyTimes lru1).Sublist (logTouch log op.mention) := by
  by_cases ht : op.touch lru = op.mention
  · rw [← ht]
    exact step_touchLog h hlog hstep
  · cases op with
    | get key now =>
      by_cases hk : key ∈ Keys lru
      · exfalso
        apply ht
        obtain ⟨e, he, rfl⟩ := mem_Keys.1 hk
        simp [Op.touch, Op.mention, h.table_mem he]
      · simp only [step, Get_miss h hk now, Option.map_some', Option.some.injEq] at hstep
        subst hstep
        show (keyTimes lru).Sublist ((key, now) :: log.filter (fun p => p.1 ≠ key))
        rw [← keyTimes_absent hk]
        exact (hlog.filter _).cons _
    | set key value now => exact absurd rfl ht
    | setIfAbsent key value now => exact absurd rfl ht
    | delete key => exact absurd rfl ht
    | clear => exact absurd rfl ht
    | setCapacity capacity => exact absurd rfl ht

theorem run_mentionLog [DecidableEq K] [Value V] (ops : List (Op K V)) :
    ∀ {lru lru1 : LRUCacheGeneric K V} {log : List (K × Nat)}, WF lru →
      (keyTimes lru).Sublist log → (log.map Prod.fst).Nodup → run lru ops = some lru1 →
      (keyTimes lru1).Sublist (mentionLog ops log) ∧
        ((mentionLog ops log).map Prod.fst).Nodup := by
  induction ops with
  | nil =>
    intro lru lru1 log _ hlog hnd hrun
    simp only [run, Option.some.injEq] at hrun
    subst hrun
    exact ⟨hlog, hnd⟩
  | cons op ops ih =>
    intro lru lru1 log h hlog hnd hrun
    obtain ⟨lru2, h2, hwf2⟩ := step_WF h op
    simp only [run, h2, Option.some_bind] at hrun
    exact ih hwf2 (step_mentionLog h hlog h2) (logTouch_nodup hnd _) hrun

theorem sublist_eq_filter [DecidableEq K] {l1 l2 : List (K × Nat)} (h : l1.Sublist l2)
    (hnd : (l2.map Prod.fst).Nodup) :
    l1 = l2.filter (fun p => decide (p.1 ∈ l1.map Prod.fst)) := by
  induction h with
  | slnil => rfl
  | @cons l1 l2 a hsub ih =>
    rw [List.map_cons, List.nodup_cons] at hnd
    have ha : a.1 ∉ l1.map Prod.fst := fun hm => hnd.1 ((hsub.map _).subset hm)
    rw [List.filter_cons]
    simp only [ha, decide_False, Bool.false_eq_true, if_false]
    exact ih hnd.2
  | @cons₂ l1 l2 a hsub ih =>
    rw [List.map_cons, List.nodup_cons] at hnd
    rw [List.filter_cons]
    simp only [List.map_cons, List.mem_cons, true_or, decide_True, if_true]
    congr 1
    have hcongr : l2.filter (fun p => decide (p.1 = a.1 ∨ p.1 ∈ l1.map Prod.fst))
        = l2.filter (fun p => decide (p.1 ∈ l1.map Prod.fst)) := by
      apply List.filter_congr
      intro p hp
      have hpa : p.1 ≠ a.1 := fun e => hnd.1 (e ▸ List.mem_map.2 ⟨p, hp, rfl⟩)
      simp [hpa]
    rw [hcongr]
    exact ih hnd.2

/-- C13: with a non-decreasing clock, after every sequence of public calls on
a new cache the entries are listed from most recently to least recently
touched, a touch being a `Get` that hits, a `Set` or a `SetIfAbsent`: the keys
of the held entries with their time stamps, front to back, are the touch log of
the calls (every key touched, most recently touched first, with the clock
reading of its last touch) restricted to the held keys, and equally the log of
the calls that named a key, read off the calls alone, restricted to the held
keys; the time stamps are non-increasing along the list, `Keys` is the key projection of `Items`, `Stats`
reports the time stamp of the tail entry (the zero time for an empty cache),
and that stamp is the minimum over all held entries. -/
theorem C13_recency_order [DecidableEq K] [Value V] (capacity : Nat) (ops : List (Op K V))
    (hc : clockFrom 0 ops) :
    ∃ lru : LRUCacheGeneric K V, run (NewLRUCacheGeneric capacity) ops = some lru ∧
      keyTimes lru = (touchLog (NewLRUCacheGeneric capacity) ops []).filter
        (fun p => decide (p.1 ∈ Keys lru)) ∧
      (Keys lru = ((touchLog (NewLRUCacheGeneric capacity) ops []).filter
        (fun p => decide (p.1 ∈ Keys lru))).map Prod.fst) ∧
      ((touchLog (NewLRUCacheGeneric capacity) ops []).map Prod.fst).Nodup ∧
      keyTimes lru = (mentionLog ops []).filter (fun p => decide (p.1 ∈ Keys lru)) ∧
      (accessTimes lru).Pairwise (fun a b => b ≤ a) ∧
      Keys lru = (Items lru).map Prod.fst ∧
      (lru.list = [] → (Stats lru).2.2.2 = 0) ∧
      (∀ last, lru.list.getLast? = some last →
        (Stats lru).2.2.2 = last.Value.time_accessed) ∧
      (∀ e ∈ lru.list, (Stats lru).2.2.2 ≤ e.Value.time_accessed) := by
  obtain ⟨lru, hrun, _⟩ := run_WF ops (WF_new (K := K) (V := V) capacity)
  have h0 : TimeSorted (NewLRUCacheGeneric capacity : LRUCacheGeneric K V).list 0 :=
    ⟨List.Pairwise.nil, fun e he => by cases he⟩
  obtain ⟨t1, hs⟩ := run_timeSorted ops (WF_new capacity) h0 hc hrun
  have hnd0 : (([] : List (K × Nat)).map Prod.fst).Nodup := List.nodup_nil
  have hsub0 : (keyTimes (NewLRUCacheGeneric capacity : LRUCacheGeneric K V)).Sublist
      ([] : List (K × Nat)) := List.nil_sublist _
  obtain ⟨hsub, hnd⟩ := run_touchLog ops (WF_new (K := K) (V := V) capacity) hsub0 hnd0 hrun
  have hkeys : (keyTimes lru).map Prod.fst = Keys lru := by
    simp [keyTimes, Keys]
  have hfilter := sublist_eq_filter hsub hnd
  rw [hkeys] at hfilter
  obtain ⟨hsubm, hndm⟩ := run_mentionLog ops (WF_new (K := K) (V := V) capacity) hsub0 hnd0
    hrun
  have hfilterm := sublist_eq_filter hsubm hndm
  rw [hkeys] at hfilterm
  refine ⟨lru, hrun, hfilter, ?_, hnd, hfilterm, hs.1, ?_, ?_, ?_, stats_oldest_le hs.1⟩
  · rw [← hfilter, hkeys]
  · simp [Keys, Items]
  · intro hnil
    simp [Stats, hnil]
  · intro last hlast
    simp only [Stats, hlast]

/-- C13 witness: after `Set("a")` at 1, `Set("b")` at 2 and `Get("a")` at 3 the
touch log is ("a", 3), ("b", 2) and the cache lists "a" before "b" with these
stamps; and the statement for a longer sequence of calls with a rising clock. -/
theorem C13_recency_order_witness :
    touchLog (NewLRUCacheGeneric 10) opsTouch [] = [("a", 3), ("b", 2)] ∧
    (∃ lru : LRUCacheGeneric String Blob, run (NewLRUCacheGeneric 10) opsTouch = some lru ∧
      Keys lru = ["a", "b"] ∧ keyTimes lru = [("a", 3), ("b", 2)]) ∧
    touchLog (NewLRUCacheGeneric 10) opsClock []
      = [("d", 8), ("b", 7), ("a", 5), ("c", 2)] ∧
    clockFrom 0 opsClock ∧
    ∃ lru : LRUCacheGeneric String Blob, run (NewLRUCacheGeneric 10) opsClock = some lru ∧
      keyTimes lru = (touchLog (NewLRUCacheGeneric 10) opsClock []).filter
        (fun p => decide (p.1 ∈ Keys lru)) ∧
      (Keys lru = ((touchLog (NewLRUCacheGeneric 10) opsClock []).filter
        (fun p => decide (p.1 ∈ Keys lru))).map Prod.fst) ∧
      ((touchLog (NewLRUCacheGeneric 10) opsClock []).map Prod.fst).Nodup ∧
      keyTimes lru = (mentionLog opsClock []).filter (fun p => decide (p.1 ∈ Keys lru)) ∧
      (accessTimes lru).Pairwise (fun a b => b ≤ a) ∧
      Keys lru = (Items lru).map Prod.fst ∧
      (lru.list = [] → (Stats lru).2.2.2 = 0) ∧
      (∀ last, lru.list.getLast? = some last →
        (Stats lru).2.2.2 = last.Value.time_accessed) ∧
      (∀ e ∈ lru.list, (Stats lru).2.2.2 ≤ e.Value.time_accessed) :=
  ⟨by decide, ⟨_, rfl, by decide, by decide⟩, by decide,
    by simp [opsClock, clockFrom, Op.time],
    C13_recency_order 10 opsClock (by simp [opsClock, clockFrom, Op.time])⟩

theorem step_entryInv [DecidableEq K] [Value V] (P : V → Int → Prop)
    (hnew : ∀ v : V, P v (Value.Size v)) {lru lru1 : LRUCacheGeneric K V} (h : WF lru)
    (hP : ∀ e ∈ lru.list, P e.Value.value e.Value.size) {op : Op K V}
    (hstep : step lru op = some lru1) : ∀ e ∈ lru1.list, P e.Value.value e.Value.size := by
  have hmove : ∀ (e : Element K V) (now : Nat), e ∈ lru.list →
      ∀ x ∈ (moveToFront lru e.addr now).list, P x.Value.value x.Value.size := by
    intro e now he x hx
    rw [moveToFront_list (elementAt_mem h.addr_nodup he) now] at hx
    rcases List.mem_cons.1 hx with rfl | hx
    · exact hP e he
    · exact hP x (mem_listRemove.1 hx).1
  have hset : ∀ (key : K) (value : V) (now : Nat),
      Set lru key value now = some lru1 → ∀ x ∈ lru1.list, P x.Value.value x.Value.size := by
    intro key value now hs x hx
    by_cases hk : key ∈ Keys lru
    · obtain ⟨e, he, rfl⟩ := mem_Keys.1 hk
      rw [Set_hit h he value now] at hs
      have hx1 := checkCapacity_mem (WF_updated h he value now) hs hx
      rcases List.mem_cons.1 hx1 with rfl | hx1
      · exact hnew value
      · exact hP x (mem_listRemove.1 hx1).1
    · rw [Set_miss h hk value now] at hs
      have hx1 := checkCapacity_mem (WF_push h
        { key := key, value := value, size := Value.Size value, time_accessed := now } hk) hs hx
      rcases List.mem_cons.1 hx1 with rfl | hx1
      · exact hnew value
      · exact hP x hx1
  cases op with
  | get key now =>
    by_cases hk : key ∈ Keys lru
    · obtain ⟨e, he, rfl⟩ := mem_Keys.1 hk
      simp only [step, Get_hit h he now, Option.map_some', Option.some.injEq] at hstep
      subst hstep
      exact hmove e now he
    · simp only [step, Get_miss h hk now, Option.map_some', Option.some.injEq] at hstep
      subst hstep
      exact hP
  | set key value now => exact hset key value now hstep
  | setIfAbsent key value now =>
    by_cases hk : key ∈ Keys lru
    · obtain ⟨e, he, rfl⟩ := mem_Keys.1 hk
      simp only [step, SetIfAbsent_hit h he value now, Option.some.injEq] at hstep
      subst hstep
      exact hmove e now he
    · simp only [step, SetIfAbsent_miss h hk value now] at hstep
      exact hset key value now hstep
  | delete key =>
    by_cases hk : key ∈ Keys lru
    · obtain ⟨e, he, rfl⟩ := mem_Keys.1 hk
      simp only [step, Delete_hit h he, Option.map_some', Option.some.injEq] at hstep
      subst hstep
      intro x hx
      exact hP x (mem_listRemove.1 hx).1
    · simp only [step, Delete_miss h hk, Option.map_some', Option.some.injEq] at hstep
      subst hstep
      exact hP
  | clear =>
    simp only [step, Option.some.injEq] at hstep
    subst hstep
    intro x hx
    cases hx
  | setCapacity capacity =>
    have hwf : WF { lru with capacity := capacity } :=
      ⟨h.addr_nodup, h.key_nodup, h.table_iff, h.addr_lt, h.acct⟩
    intro x hx
    exact hP x (checkCapacity_mem hwf hstep hx)

theorem step_capacity_lt [DecidableEq K] [Value V] {lru lru1 : LRUCacheGeneric K V}
    (h : WF lru) (hc : lru.capacity < 18446744073709551616) {op : Op K V} (hv : op.valid)
    (hstep : step lru op = some lru1) : lru1.capacity < 18446744073709551616 := by
  have hset : ∀ (key : K) (value : V) (now : Nat),
      Set lru key value now = some lru1 → lru1.capacity < 18446744073709551616 := by
    intro key value now hs
    obtain ⟨lru2, h2, _, _, hcap⟩ := Set_WF h key value now
    rw [hs] at h2
    cases h2
    rw [hcap]
    exact hc
  cases op with
  | get key now =>
    by_cases hk : key ∈ Keys lru
    · obtain ⟨e, he, rfl⟩ := mem_Keys.1 hk
      simp only [step, Get_hit h he now, Option.map_some', Option.some.injEq] at hstep
      subst hstep
      exact hc
    · simp only [step, Get_miss h hk now, Option.map_some', Option.some.injEq] at hstep
      subst hstep
      exact hc
  | set key value now => exact hset key value now hstep
  | setIfAbsent key value now =>
    by_cases hk : key ∈ Keys lru
    · obtain ⟨e, he, rfl⟩ := mem_Keys.1 hk
      simp only [step, SetIfAbsent_hit h he value now, Option.some.injEq] at hstep
      subst hstep
      exact hc
    · simp only [step, SetIfAbsent_miss h hk value now] at hstep
      exact hset key value now hstep
  | delete key =>
    by_cases hk : key ∈ Keys lru
    · obtain ⟨e, he, rfl⟩ := mem_Keys.1 hk
      simp only [step, Delete_hit h he, Option.map_some', Option.some.injEq] at hstep
      subst hstep
      exact hc
    · simp only [step, Delete_miss h hk, Option.map_some', Option.some.injEq] at hstep
      subst hstep
      exact hc
  | clear =>
    simp only [step, Option.some.injEq] at hstep
    subst hstep
    exact hc
  | setCapacity capacity =>
    have hwf : WF { lru with capacity := capacity } :=
      ⟨h.addr_nodup, h.key_nodup, h.table_iff, h.addr_lt, h.acct⟩
    obtain ⟨lru2, j, hrun, _, _, _, hcap, _⟩ := checkCapacity_spec hwf
    have hstep1 : checkCapacity { lru with capacity := capacity } = some lru1 := hstep
    rw [hstep1] at hrun
    cases hrun
    rw [hcap]
    exact hv

theorem run_entryInv [DecidableEq K] [Value V] (P : V → Int → Prop)
    (hnew : ∀ v : V, P v (Value.Size v)) (ops : List (Op K V)) :
    ∀ {lru lru1 : LRUCacheGeneric K V}, WF lru →
      (∀ e ∈ lru.list, P e.Value.value e.Value.size) → run lru ops = some lru1 →
      ∀ e ∈ lru1.list, P e.Value.value e.Value.size := by
  induction ops with
  | nil =>
    intro lru lru1 _ hP hrun
    simp only [run, Option.some.injEq] at hrun
    subst hrun
    exact hP
  | cons op ops ih =>
    intro lru lru1 h hP hrun
    obtain ⟨lru2, h2, hwf2⟩ := step_WF h op
    simp only [run, h2, Option.some_bind] at hrun
    exact ih hwf2 (step_entryInv P hnew h hP h2) hrun

theorem run_capacity_lt [DecidableEq K] [Value V] (ops : List (Op K V)) :
    ∀ {lru lru1 : LRUCacheGeneric K V}, WF lru → lru.capacity < 18446744073709551616 →
      (∀ op ∈ ops, op.valid) → run lru ops = some lru1 →
      lru1.capacity < 18446744073709551616 := by
  induction ops with
  | nil =>
    intro lru lru1 _ hc _ hrun
    simp only [run, Option.some.injEq] at hrun
    subst hrun
    exact hc
  | cons op ops ih =>
    intro lru lru1 h hc hv hrun
    obtain ⟨lru2, h2, hwf2⟩ := step_WF h op
    simp only [run, h2, Option.some_bind] at hrun
    exact ih hwf2 (step_capacity_lt h hc (hv op (List.mem_cons_self _ _)) h2)
      (fun o ho => hv o (List.mem_cons_of_mem _ ho)) hrun

theorem Reachable.size_eq [DecidableEq K] [Value V] {lru : LRUCacheGeneric K V}
    (h : Reachable lru) : ∀ e ∈ lru.list, e.Value.size = Value.Size e.Value.value := by
  obtain ⟨capacity, ops, _, _, hrun⟩ := h
  exact run_entryInv (fun v w => w = Value.Size v) (fun _ => rfl) ops (WF_new capacity)
    (fun e he => by cases he) hrun

theorem Reachable.capacity_lt [DecidableEq K] [Value V] {lru : LRUCacheGeneric K V}
    (h : Reachable lru) : lru.capacity < 18446744073709551616 := by
  obtain ⟨capacity, ops, hc, hv, hrun⟩ := h
  exact run_capacity_lt ops (WF_new capacity) hc hv hrun

theorem itemsWeight_cons {V : Type} [Value V] (p : String × V) (items : List (String × V)) :
    itemsWeight (p :: items) = Value.Size p.2 + itemsWeight items := by
  simp [itemsWeight]

theorem itemsWeight_nonneg {V : Type} [Value V] {items : List (String × V)}
    (hnn : ∀ p ∈ items, 0 ≤ Value.Size p.2) : 0 ≤ itemsWeight items := by
  induction items with
  | nil => simp [itemsWeight]
  | cons p items ih =>
    rw [itemsWeight_cons]
    have h1 := hnn p (List.mem_cons_self _ _)
    have h2 := ih (fun q hq => hnn q (List.mem_cons_of_mem _ hq))
    omega

theorem setItems_spec {V : Type} [Value V] (clock : Nat → Nat) (items : List (String × V)) :
    ∀ (i : Nat) (lru : LRUCacheGeneric String V), WF lru →
      (lru.size : Int) = weightSum lru.list →
      (∀ p ∈ items, 0 ≤ Value.Size p.2) →
      lru.size + itemsWeight items ≤ lru.capacity →
      lru.capacity < 18446744073709551616 →
      (items.map Prod.fst).Nodup → (∀ p ∈ items, p.1 ∉ Keys lru) →
      ∃ lru1 : LRUCacheGeneric String V, setItems clock lru items i = some lru1 ∧ WF lru1 ∧
        entries lru1
          = (items.map (fun p => (p.1, p.2, Value.Size p.2))).reverse ++ entries lru ∧
        (lru1.size : Int) = lru.size + itemsWeight items ∧
        lru1.capacity = lru.capacity := by
  induction items with
  | nil =>
    intro i lru h _ _ _ _ _ _
    exact ⟨lru, rfl, h, by simp, by simp [itemsWeight], rfl⟩
  | cons p items ih =>
    intro i lru h hex hnn hsum hcap hnd hdisj
    simp only [List.map_cons, List.nodup_cons, List.mem_map, not_exists, not_and] at hnd
    have hp := hnn p (List.mem_cons_self _ _)
    have hrest := itemsWeight_nonneg (fun q hq => hnn q (List.mem_cons_of_mem _ hq))
    rw [itemsWeight_cons] at hsum
    have hk : p.1 ∉ Keys lru := hdisj p (List.mem_cons_self _ _)
    have hu := uint64_cast (Value.Size p.2)
    have hsz : (lru.size + uint64 (Value.Size p.2)) % 18446744073709551616
        = lru.size + uint64 (Value.Size p.2) := by omega
    have hset : Set lru p.1 p.2 (clock i) = some
        { list := ⟨lru.fresh, ⟨p.1, p.2, Value.Size p.2, clock i⟩⟩ :: lru.list
          table := tableSet lru.table p.1 lru.fresh
          size := (lru.size + uint64 (Value.Size p.2)) % 18446744073709551616
          capacity := lru.capacity
          fresh := lru.fresh + 1 } := by
      rw [Set_miss h hk p.2 (clock i)]
      apply checkCapacityLoop_done
      show (lru.size + uint64 (Value.Size p.2)) % 18446744073709551616 ≤ lru.capacity
      omega
    have hwf1 := WF_push h ⟨p.1, p.2, Value.Size p.2, clock i⟩ hk
    obtain ⟨lru1, hrun, hwf, hent, hsize, hc⟩ := ih (i + 1) _ hwf1
      (by
        show (((lru.size + uint64 (Value.Size p.2)) % 18446744073709551616 : Nat) : Int)
          = weightSum (_ :: lru.list)
        rw [weightSum_cons, hsz]
        show ((lru.size + uint64 (Value.Size p.2) : Nat) : Int)
          = Value.Size p.2 + weightSum lru.list
        omega)
      (fun q hq => hnn q (List.mem_cons_of_mem _ hq))
      (by
        show (((lru.size + uint64 (Value.Size p.2)) % 18446744073709551616 : Nat) : Int)
          + itemsWeight items ≤ (lru.capacity : Int)
        omega)
      hcap hnd.2
      (by
        intro q hq hmem
        have hmem1 : q.1 ∈ p.1 :: Keys lru := hmem
        rcases List.mem_cons.1 hmem1 with heq | hmem2
        · exact hnd.1 q hq heq
        · exact hdisj q (List.mem_cons_of_mem _ hq) hmem2)
    refine ⟨lru1, ?_, hwf, ?_, ?_, hc⟩
    · simp only [setItems, hset, Option.some_bind]
      exact hrun
    · rw [hent]
      simp [entries]
    · rw [hsize, itemsWeight_cons]
      show (((lru.size + uint64 (Value.Size p.2)) % 18446744073709551616 : Nat) : Int)
        + itemsWeight items = lru.size + (Value.Size p.2 + itemsWeight items)
      omega

theorem Items_eq_entries (lru : LRUCacheGeneric K V) :
    Items lru = (entries lru).map (fun t => (t.1, t.2.1)) := by
  simp [Items, entries]

theorem LRUCache_Items_eq {V : Type} (lru : LRUCacheGeneric String V) :
    LRUCache.Items lru = Items lru := by
  simp [LRUCache.Items]

/-- Reloading the snapshot of a state whose non-negative weights fit the
capacity sets every item again, in the order read, and evicts nothing. -/
theorem reload_entries {V E : Type} [Value V] (codec : Codec V E)
    {lru : LRUCacheGeneric String V} (hr : Reachable lru)
    (hnn : ∀ e ∈ lru.list, 0 ≤ e.Value.size) (hfit : weightSum lru.list ≤ lru.capacity)
    (bytes : List Nat) (hsave : SaveItems codec lru = .ok bytes)
    (hinv : ∀ b, codec.encode (LRUCache.Items lru) = .ok b →
      codec.decode b = .ok (LRUCache.Items lru))
    (clock : Nat → Nat) :
    ∃ lru2 : LRUCacheGeneric String V,
      LoadItems codec (Clear lru) bytes clock = some (lru2, none) ∧
      entries lru2 = (entries lru).reverse ∧ lru2.size = lru.size ∧
      lru2.capacity = lru.capacity := by
  have h := hr.wf
  have hcap := hr.capacity_lt
  have hsize := hr.size_eq
  have hdec : codec.decode bytes = .ok (LRUCache.Items lru) := by
    apply hinv
    have : (LRUCache.Items lru).map (fun item => (item.1, item.2)) = LRUCache.Items lru := by
      simp
    unfold SaveItems at hsave
    simp only [this] at hsave
    exact hsave
  have hw : itemsWeight (LRUCache.Items lru) = weightSum lru.list := by
    simp only [LRUCache_Items_eq, itemsWeight, Items, weightSum, List.map_map]
    congr 1
    apply List.map_congr_left
    intro e he
    exact (hsize e he).symm
  have h0 := weightSum_nonneg hnn
  have hacct := h.acct
  obtain ⟨lru2, hrun, _, hent, hsz, hc⟩ := setItems_spec clock (LRUCache.Items lru) 0
    (Clear lru) (WF_clear lru) (by simp [Clear, weightSum])
    (by
      intro p hp
      rw [LRUCache_Items_eq] at hp
      obtain ⟨e, he, rfl⟩ := List.mem_map.1 hp
      show 0 ≤ Value.Size e.Value.value
      rw [← hsize e he]
      exact hnn e he)
    (by
      rw [hw]
      show ((0 : Nat) : Int) + weightSum lru.list ≤ (lru.capacity : Int)
      omega)
    hcap
    (by
      rw [LRUCache_Items_eq]
      have := h.key_nodup
      simpa [Items, Keys] using this)
    (by
      intro p _ hmem
      simp [Clear, Keys] at hmem)
  refine ⟨lru2, ?_, ?_, ?_, hc⟩
  · unfold LoadItems
    rw [hdec]
    simp only [hrun, Option.map_some']
  · rw [hent]
    have hE : entries (Clear lru) = [] := rfl
    rw [hE, List.append_nil, LRUCache_Items_eq]
    congr 1
    simp only [Items, entries, List.map_map]
    apply List.map_congr_left
    intro e he
    simp [hsize e he]
  · have hz : ((Clear lru).size : Int) = 0 := rfl
    rw [hw, hz] at hsz
    omega

theorem stateWrapDel_reachable : Reachable stateWrapDel :=
  ⟨9223372036854775818, opsWrapDelete, by decide, by decide, by decide⟩

/-- C11 (amended): for every reachable state with non-negative weights whose
sum is at most the capacity, and a codec whose decoder gives back the saved
items, `SaveItems`, `Clear` and `LoadItems` of the saved bytes return and yield
a cache whose items are the items before `Clear` (as a set, and with the same
multiplicity), with the same entry count and the same total weight. -/
theorem C11_snapshot_roundtrip {V E : Type} [Value V] (codec : Codec V E)
    {lru : LRUCacheGeneric String V} (hr : Reachable lru)
    (hnn : ∀ e ∈ lru.list, 0 ≤ e.Value.size) (hfit : weightSum lru.list ≤ lru.capacity)
    (bytes : List Nat) (hsave : SaveItems codec lru = .ok bytes)
    (hinv : ∀ b, codec.encode (LRUCache.Items lru) = .ok b →
      codec.decode b = .ok (LRUCache.Items lru))
    (clock : Nat → Nat) :
    ∃ lru2 : LRUCacheGeneric String V,
      LoadItems codec (Clear lru) bytes clock = some (lru2, none) ∧
      (∀ p, p ∈ LRUCache.Items lru2 ↔ p ∈ LRUCache.Items lru) ∧
      (LRUCache.Items lru2).Perm (LRUCache.Items lru) ∧
      (Stats lru2).1 = (Stats lru).1 ∧ (Stats lru2).2.1 = (Stats lru).2.1 := by
  obtain ⟨lru2, hload, hent, hsz, _⟩ := reload_entries codec hr hnn hfit bytes hsave hinv clock
  have hitems : LRUCache.Items lru2 = (LRUCache.Items lru).reverse := by
    rw [LRUCache_Items_eq, LRUCache_Items_eq, Items_eq_entries, Items_eq_entries, hent,
      List.map_reverse]
  refine ⟨lru2, hload, ?_, ?_, ?_, hsz⟩
  · intro p
    rw [hitems, List.mem_reverse]
  · rw [hitems]
    exact List.reverse_perm _
  · have hlen : (entries lru2).length = (entries lru).length := by
      rw [hent, List.length_reverse]
    simpa [entries, Stats] using hlen

/-- C11 witness: the cache holding C, B, A of size 3 at capacity 10, saved with
`blobCodec`, cleared and loaded again. -/
theorem C11_snapshot_roundtrip_witness :
    Reachable stateABC ∧ (∀ e ∈ stateABC.list, 0 ≤ e.Value.size) ∧
    weightSum stateABC.list ≤ stateABC.capacity ∧
    SaveItems blobCodec stateABC = .ok [3, 1, 67, 3, 1, 66, 3, 1, 65, 3] ∧
    (∀ b, blobCodec.encode (LRUCache.Items stateABC) = .ok b →
      blobCodec.decode b = .ok (LRUCache.Items stateABC)) ∧
    ∃ lru2 : LRUCacheGeneric String Blob,
      LoadItems blobCodec (Clear stateABC) [3, 1, 67, 3, 1, 66, 3, 1, 65, 3]
        (fun i => 10 + i) = some (lru2, none) ∧
      (∀ p, p ∈ LRUCache.Items lru2 ↔ p ∈ LRUCache.Items stateABC) ∧
      (LRUCache.Items lru2).Perm (LRUCache.Items stateABC) ∧
      (Stats lru2).1 = (Stats stateABC).1 ∧ (Stats lru2).2.1 = (Stats stateABC).2.1 :=
  have hinv : ∀ b, blobCodec.encode (LRUCache.Items stateABC) = .ok b →
      blobCodec.decode b = .ok (LRUCache.Items stateABC) := by
    intro b hb
    have hb1 : b = [3, 1, 67, 3, 1, 66, 3, 1, 65, 3] := by
      have h1 : blobCodec.encode (LRUCache.Items stateABC)
          = .ok [3, 1, 67, 3, 1, 66, 3, 1, 65, 3] := by decide
      rw [h1] at hb
      cases hb
      rfl
    subst hb1
    decide
  ⟨stateABC_reachable, by decide, by decide, by decide, hinv,
    C11_snapshot_roundtrip blobCodec stateABC_reachable (by decide) (by decide)
      [3, 1, 67, 3, 1, 66, 3, 1, 65, 3] (by decide) hinv (fun i => 10 + i)⟩

/-- C11 counterexample: the reachable state of capacity `2^63 + 10` holding "c"
and "a" of weight `2^63 - 1` each (total `2^64 - 2`, above the capacity after a
wrapped `Delete`): saving, clearing and loading sets "c", then "a", and the
second `Set` evicts "c"; one entry of two is left. -/
theorem C11_counterexample :
    Reachable stateWrapDel ∧ (∀ e ∈ stateWrapDel.list, 0 ≤ e.Value.size) ∧
    SaveItems blobCodec stateWrapDel
      = .ok [2, 1, 99, 9223372036854775807, 1, 97, 9223372036854775807] ∧
    blobCodec.decode [2, 1, 99, 9223372036854775807, 1, 97, 9223372036854775807]
      = .ok (LRUCache.Items stateWrapDel) ∧
    (Stats stateWrapDel).1 = 2 ∧
    ∃ lru2 : LRUCacheGeneric String Blob,
      LoadItems blobCodec (Clear stateWrapDel)
        [2, 1, 99, 9223372036854775807, 1, 97, 9223372036854775807] (fun i => 10 + i)
        = some (lru2, none) ∧
      Keys lru2 = ["a"] ∧ (Stats lru2).1 = 1 ∧
      ("c", (⟨9223372036854775807⟩ : Blob)) ∈ LRUCache.Items stateWrapDel ∧
      ("c", (⟨9223372036854775807⟩ : Blob)) ∉ LRUCache.Items lru2 :=
  ⟨stateWrapDel_reachable, by decide, by decide, by decide, by decide, _, rfl,
    by decide, by decide, by decide, by decide⟩

/-- C12 (amended): for every reachable state with non-negative weights whose
sum is at most the capacity, and a codec whose decoder gives back the saved
items, after `SaveItems`, `Clear` and `LoadItems` of the saved bytes `Keys` and
`Items` list the entries in the reverse of their order before the save: the
least recently used entry of the snapshot is set last and becomes the most
recently used one. -/
theorem C12_reload_order {V E : Type} [Value V] (codec : Codec V E)
    {lru : LRUCacheGeneric String V} (hr : Reachable lru)
    (hnn : ∀ e ∈ lru.list, 0 ≤ e.Value.size) (hfit : weightSum lru.list ≤ lru.capacity)
    (bytes : List Nat) (hsave : SaveItems codec lru = .ok bytes)
    (hinv : ∀ b, codec.encode (LRUCache.Items lru) = .ok b →
      codec.decode b = .ok (LRUCache.Items lru))
    (clock : Nat → Nat) :
    ∃ lru2 : LRUCacheGeneric String V,
      LoadItems codec (Clear lru) bytes clock = some (lru2, none) ∧
      Keys lru2 = (Keys lru).reverse ∧ Items lru2 = (Items lru).reverse ∧
      LRUCache.Items lru2 = (LRUCache.Items lru).reverse := by
  obtain ⟨lru2, hload, hent, _, _⟩ := reload_entries codec hr hnn hfit bytes hsave hinv clock
  have hitems : Items lru2 = (Items lru).reverse := by
    rw [Items_eq_entries, Items_eq_entries, hent, List.map_reverse]
  refine ⟨lru2, hload, ?_, hitems, ?_⟩
  · rw [← entries_keys, ← entries_keys, hent, List.map_reverse]
  · rw [LRUCache_Items_eq, LRUCache_Items_eq, hitems]

/-- C12 witness: the cache holding C, B, A; after the reload the keys are A, B, C. -/
theorem C12_reload_order_witness :
    Reachable stateABC ∧ (∀ e ∈ stateABC.list, 0 ≤ e.Value.size) ∧
    weightSum stateABC.list ≤ stateABC.capacity ∧
    SaveItems blobCodec stateABC = .ok [3, 1, 67, 3, 1, 66, 3, 1, 65, 3] ∧
    ∃ lru2 : LRUCacheGeneric String Blob,
      LoadItems blobCodec (Clear stateABC) [3, 1, 67, 3, 1, 66, 3, 1, 65, 3]
        (fun i => 20 + i) = some (lru2, none) ∧
      Keys lru2 = ["A", "B", "C"] ∧
      Items lru2 = [("A", ⟨3⟩), ("B", ⟨3⟩), ("C", ⟨3⟩)] ∧
      LRUCache.Items lru2 = [("A", ⟨3⟩), ("B", ⟨3⟩), ("C", ⟨3⟩)] :=
  ⟨stateABC_reachable, by decide, by decide, by decide,
    C12_reload_order blobCodec stateABC_reachable (by decide) (by decide)
      [3, 1, 67, 3, 1, 66, 3, 1, 65, 3] (by decide)
      (by
        intro b hb
        have h1 : blobCodec.encode (LRUCache.Items stateABC)
            = .ok [3, 1, 67, 3, 1, 66, 3, 1, 65, 3] := by decide
        rw [h1] at hb
        cases hb
        decide)
      (fun i => 20 + i)⟩

/-- C12 counterexample: the cache holding C, B, A (most recently used first);
after `SaveItems`, `Clear` and `LoadItems` of the saved bytes `Keys` is A, B, C,
not C, B, A. -/
theorem C12_counterexample :
    Reachable stateABC ∧ Keys stateABC = ["C", "B", "A"] ∧
    SaveItems blobCodec stateABC = .ok [3, 1, 67, 3, 1, 66, 3, 1, 65, 3] ∧
    blobCodec.decode [3, 1, 67, 3, 1, 66, 3, 1, 65, 3] = .ok (LRUCache.Items stateABC) ∧
    ∃ lru2 : LRUCacheGeneric String Blob,
      LoadItems blobCodec (Clear stateABC) [3, 1, 67, 3, 1, 66, 3, 1, 65, 3]
        (fun i => 20 + i) = some (lru2, none) ∧
      Keys lru2 = ["A", "B", "C"] ∧ Keys lru2 ≠ Keys stateABC ∧
      Items lru2 ≠ Items stateABC :=
  ⟨stateABC_reachable, by decide, by decide, by decide, _, rfl, by decide, by decide,
    by decide⟩

theorem WF.size_of_nil [DecidableEq K] {lru : LRUCacheGeneric K V} (h : WF lru)
    (hnil : lru.list = []) : lru.size = 0 := by
  have := h.acct
  rw [hnil] at this
  simp [weightSum] at this
  exact this

theorem checkCapacityLoop_eq_guarded [DecidableEq K] (n : Nat) :
    ∀ (lru : LRUCacheGeneric K V), lru.list.length = n → WF lru →
      checkCapacityLoop n lru = some (guardedLoop n lru) := by
  induction n with
  | zero =>
    intro lru hn h
    have hsz := h.size_of_nil (List.length_eq_zero.1 hn)
    simp [checkCapacityLoop, guardedLoop, hsz]
  | succ n ih =>
    intro lru hn h
    by_cases hgt : lru.size > lru.capacity
    · have hne : lru.list ≠ [] := by
        intro hnil; rw [hnil] at hn; simp at hn
      obtain ⟨l, e, hl⟩ : ∃ l e, lru.list = l ++ [e] :=
        ⟨lru.list.dropLast, lru.list.getLast hne, (List.dropLast_append_getLast hne).symm⟩
      have hlast : lru.list.getLast? = some e := by rw [hl]; simp
      have hlen : (evictBack lru e).list.length = n := by
        show lru.list.dropLast.length = n
        rw [hl] at hn ⊢
        simpa using hn
      have hrec := ih (evictBack lru e) hlen (WF_evictBack h hl)
      simp only [checkCapacityLoop, guardedLoop, hgt, if_true, hlast]
      exact hrec
    · simp [checkCapacityLoop, guardedLoop, hgt]

theorem checkCapacity_eq_guarded [DecidableEq K] {lru : LRUCacheGeneric K V} (h : WF lru) :
    checkCapacity lru = some (checkCapacityGuarded lru) :=
  checkCapacityLoop_eq_guarded lru.list.length lru rfl h

/-- C21: in every state reached through the public operations, with arbitrary
reported sizes and 64-bit wrap-around arithmetic, the total weight is 0 when
the list is empty; every public call returns (no nil result of `list.Back()` is
dereferenced) and leaves such a state again; and in `SetCapacity`, in `Set` and
`SetIfAbsent` of a new key and in `Set` of a held key the loop of
`checkCapacity` computes what the guarded loop computes, in at most as many
iterations as the list has nodes. -/
theorem C21_checkCapacity_never_on_empty [DecidableEq K] [Value V]
    {lru : LRUCacheGeneric K V} (hr : Reachable lru) :
    (lru.list = [] → lru.size = 0) ∧
    (∀ op : Op K V, ∃ lru1, step lru op = some lru1 ∧ (lru1.list = [] → lru1.size = 0)) ∧
    (∀ capacity : Nat,
      SetCapacity lru capacity = some (checkCapacityGuarded { lru with capacity := capacity })) ∧
    (∀ (k : K) (v : V) (now : Nat), k ∉ Keys lru →
      Set lru k v now = some (checkCapacityGuarded
        { list := { addr := lru.fresh
                    Value := { key := k, value := v, size := Value.Size v,
                               time_accessed := now } } :: lru.list
          table := tableSet lru.table k lru.fresh
          size := (lru.size + uint64 (Value.Size v)) % 18446744073709551616
          capacity := lru.capacity
          fresh := lru.fresh + 1 }) ∧
      SetIfAbsent lru k v now = Set lru k v now) ∧
    (∀ (e : Element K V) (v : V) (now : Nat), e ∈ lru.list →
      Set lru e.Value.key v now = some (checkCapacityGuarded
        { lru with
          list := { addr := e.addr
                    Value := { key := e.Value.key, value := v, size := Value.Size v,
                               time_accessed := now } } :: listRemove lru.list e.addr
          size := (lru.size + uint64 (wrapInt (Value.Size v - e.Value.size)))
            % 18446744073709551616 })) := by
  have h := hr.wf
  refine ⟨h.size_of_nil, ?_, ?_, ?_, ?_⟩
  · intro op
    obtain ⟨lru1, h1, hwf1⟩ := step_WF h op
    exact ⟨lru1, h1, hwf1.size_of_nil⟩
  · intro capacity
    have hwf : WF { lru with capacity := capacity } :=
      ⟨h.addr_nodup, h.key_nodup, h.table_iff, h.addr_lt, h.acct⟩
    exact checkCapacity_eq_guarded hwf
  · intro k v now hk
    refine ⟨?_, SetIfAbsent_miss h hk v now⟩
    rw [Set_miss h hk v now]
    exact checkCapacity_eq_guarded (WF_push h
      { key := k, value := v, size := Value.Size v, time_accessed := now } hk)
  · intro e v now he
    rw [Set_hit h he v now]
    exact checkCapacity_eq_guarded (WF_updated h he v now)

/-- C21 witness: the statement for the cache holding C, B, A; lowering its
capacity to 0 empties it and returns; and on a state with an empty list and a
positive total weight, which no public call produces, the two loops differ. -/
theorem C21_checkCapacity_never_on_empty_witness :
    Reachable stateABC ∧
    (∃ lru1, SetCapacity stateABC 0 = some lru1 ∧ lru1.list = [] ∧ lru1.size = 0) ∧
    checkCapacity stateCorrupt = none ∧ checkCapacityGuarded stateCorrupt = stateCorrupt ∧
    (∀ op : Op String Blob, ∃ lru1, step stateABC op = some lru1 ∧
      (lru1.list = [] → lru1.size = 0)) ∧
    (∀ capacity : Nat, SetCapacity stateABC capacity
      = some (checkCapacityGuarded { stateABC with capacity := capacity })) :=
  ⟨stateABC_reachable, ⟨_, rfl, by decide, by decide⟩, by decide, by decide,
    (C21_checkCapacity_never_on_empty stateABC_reachable).2.1,
    (C21_checkCapacity_never_on_empty stateABC_reachable).2.2.1⟩

theorem checkCapacity_oversized [DecidableEq K] {lru : LRUCacheGeneric K V} (h : WF lru)
    {x : Element K V} {l : List (Element K V)} (hl : lru.list = x :: l)
    (hnn : ∀ e ∈ l, 0 ≤ e.Value.size) (hbig : (lru.capacity : Int) < x.Value.size)
    (hfit : weightSum lru.list < 18446744073709551616) :
    ∃ lru1, checkCapacity lru = some lru1 ∧ WF lru1 ∧ lru1.list = [] ∧ lru1.size = 0 ∧
      lru1.capacity = lru.capacity := by
  obtain ⟨lru1, j, hrun, hwf1, _, hlist, hcap, _, hle, _⟩ := checkCapacity_spec h
  have hx0 : 0 ≤ x.Value.size := by
    have : (0 : Int) ≤ (lru.capacity : Int) := Int.ofNat_nonneg _
    omega
  have hall : ∀ e ∈ lru.list, 0 ≤ e.Value.size := by
    rw [hl]
    exact nonneg_cons hx0 hnn
  have hj0 : j = 0 := by
    by_contra hj
    obtain ⟨i, rfl⟩ : ∃ i, j = i + 1 := ⟨j - 1, by omega⟩
    have hacct := hwf1.acct
    have hup := weightSum_take_le hall (i + 1)
    have hlow : x.Value.size ≤ weightSum (lru.list.take (i + 1)) := by
      rw [hl, List.take_succ_cons, weightSum_cons]
      have := weightSum_nonneg (l := l.take i) (fun e he => hnn e (List.mem_of_mem_take he))
      omega
    rw [hlist] at hacct
    rw [hcap] at hle
    have hle1 : (lru1.size : Int) ≤ (lru.capacity : Int) := by exact_mod_cast hle
    omega
  subst hj0
  have hnil : lru1.list = [] := by rw [hlist]; rfl
  exact ⟨lru1, hrun, hwf1, hnil, hwf1.size_of_nil hnil, hcap⟩

/-- C22 (amended): in every reachable state with non-negative weights, for every
key `k` and value `v` whose size exceeds the capacity, when the recorded weights
and the size of `v` sum to less than `2^64` (the `uint64` total does not wrap),
`Set(k, v)` returns and leaves the cache empty with total weight 0, and so does
`SetIfAbsent(k, v)` when `k` is absent. -/
theorem C22_oversized_set_empties [DecidableEq K] [Value V] {lru : LRUCacheGeneric K V}
    (hr : Reachable lru) (hnn : ∀ e ∈ lru.list, 0 ≤ e.Value.size) (k : K) (v : V) (now : Nat)
    (hbig : (lru.capacity : Int) < Value.Size v)
    (hfit : weightSum lru.list + Value.Size v < 18446744073709551616) :
    ∃ lru1 : LRUCacheGeneric K V, Set lru k v now = some lru1 ∧
      lru1.list = [] ∧ lru1.size = 0 ∧ Keys lru1 = [] ∧
      (Stats lru1).1 = 0 ∧ (Stats lru1).2.1 = 0 ∧ lru1.capacity = lru.capacity ∧
      (∀ k1, tableGet lru1.table k1 = none) ∧
      (k ∉ Keys lru → SetIfAbsent lru k v now = some lru1) := by
  have h := hr.wf
  have hfin : ∀ {lru1 : LRUCacheGeneric K V}, WF lru1 → lru1.list = [] → lru1.size = 0 →
      Keys lru1 = [] ∧ (Stats lru1).1 = 0 ∧ (Stats lru1).2.1 = 0 ∧
      ∀ k1, tableGet lru1.table k1 = none := by
    intro lru1 hwf1 hnil hsz
    refine ⟨by simp [Keys, hnil], by simp [Stats, hnil], by simp [Stats, hsz], ?_⟩
    intro k1
    cases hg : tableGet lru1.table k1 with
    | none => rfl
    | some a =>
      obtain ⟨e, he, _⟩ := (hwf1.table_iff k1 a).1 hg
      rw [hnil] at he
      cases he
  by_cases hk : k ∈ Keys lru
  · obtain ⟨e, he, rfl⟩ := mem_Keys.1 hk
    have he0 := hnn e he
    have hsum := weightSum_remove h.addr_nodup he
    obtain ⟨lru1, hrun, hwf1, hnil, hsz, hcap⟩ :=
      checkCapacity_oversized (WF_updated h he v now) rfl
        (fun x hx => hnn x (mem_listRemove.1 hx).1) hbig
        (by
          show weightSum (_ :: listRemove lru.list e.addr) < 18446744073709551616
          rw [weightSum_cons, hsum]
          show Value.Size v + (weightSum lru.list - e.Value.size) < 18446744073709551616
          omega)
    obtain ⟨h1, h2, h3, h4⟩ := hfin hwf1 hnil hsz
    exact ⟨lru1, (Set_hit h he v now).trans hrun, hnil, hsz, h1, h2, h3, hcap, h4,
      fun hno => absurd hk hno⟩
  · obtain ⟨lru1, hrun, hwf1, hnil, hsz, hcap⟩ :=
      checkCapacity_oversized (WF_push h
        { key := k, value := v, size := Value.Size v, time_accessed := now } hk) rfl
        hnn hbig
        (by
          show weightSum (_ :: lru.list) < 18446744073709551616
          rw [weightSum_cons]
          show Value.Size v + weightSum lru.list < 18446744073709551616
          omega)
    obtain ⟨h1, h2, h3, h4⟩ := hfin hwf1 hnil hsz
    have hset : Set lru k v now = some lru1 := (Set_miss h hk v now).trans hrun
    exact ⟨lru1, hset, hnil, hsz, h1, h2, h3, hcap, h4,
      fun _ => (SetIfAbsent_miss h hk v now).trans hset⟩

theorem stateWrapCap_reachable : Reachable stateWrapCap :=
  ⟨18446744073709551615, opsWrapCap, by decide, by decide, by decide⟩

/-- C22 witness: the cache of capacity 10 holding C, B, A (total weight 9);
`Set("B", size 11)` and `Set("D", size 11)` leave it empty. -/
theorem C22_oversized_set_empties_witness :
    Reachable stateABC ∧ (∀ e ∈ stateABC.list, 0 ≤ e.Value.size) ∧
    (stateABC.capacity : Int) < Value.Size (⟨11⟩ : Blob) ∧
    weightSum stateABC.list + Value.Size (⟨11⟩ : Blob) < 18446744073709551616 ∧
    (∃ lru1 : LRUCacheGeneric String Blob, Set stateABC "B" ⟨11⟩ 4 = some lru1 ∧
      lru1.list = [] ∧ lru1.size = 0 ∧ Keys lru1 = [] ∧
      (Stats lru1).1 = 0 ∧ (Stats lru1).2.1 = 0 ∧ lru1.capacity = stateABC.capacity ∧
      (∀ k1, tableGet lru1.table k1 = none) ∧
      ("B" ∉ Keys stateABC → SetIfAbsent stateABC "B" ⟨11⟩ 4 = some lru1)) ∧
    (∃ lru1 : LRUCacheGeneric String Blob, Set stateABC "D" ⟨11⟩ 4 = some lru1 ∧
      lru1.list = [] ∧ SetIfAbsent stateABC "D" ⟨11⟩ 4 = some lru1) :=
  ⟨stateABC_reachable, by decide, by decide, by decide,
    C22_oversized_set_empties stateABC_reachable (by decide) "B" ⟨11⟩ 4 (by decide)
      (by decide),
    ⟨_, rfl, by decide, by decide⟩⟩

/-- C22 counterexample: the reachable cache of capacity 10 whose three entries
of non-negative weight have the wrapped total 3; `Set("d", v)` with a value of
size `2^63 - 1`, above the capacity, evicts only "a": the total wraps back to 3
and the cache holds "d", "c" and "b", the oversized entry among them. -/
theorem C22_counterexample :
    Reachable stateWrapCap ∧ (∀ e ∈ stateWrapCap.list, 0 ≤ e.Value.size) ∧
    (stateWrapCap.capacity : Int) < Value.Size (⟨9223372036854775807⟩ : Blob) ∧
    "d" ∉ Keys stateWrapCap ∧
    ∃ lru1 : LRUCacheGeneric String Blob,
      Set stateWrapCap "d" ⟨9223372036854775807⟩ 9 = some lru1 ∧
      SetIfAbsent stateWrapCap "d" ⟨9223372036854775807⟩ 9 = some lru1 ∧
      Keys lru1 = ["d", "c", "b"] ∧ (Stats lru1).1 = 3 ∧ (Stats lru1).2.1 = 3 ∧
      lru1.list ≠ [] :=
  ⟨stateWrapCap_reachable, by decide, by decide, by decide, _, rfl, by decide, by decide,
    by decide, by decide, by decide⟩

/-- C23: for every cache state, reachable or not, and every input stream whose
decoding fails with `err`, `LoadItems` returns that error and the state it was
called on (no `Set` has run); and for every stream, an error that `LoadItems`
returns is the error of the decoder, returned with the state unchanged. -/
theorem C23_load_error_unchanged {V E : Type} [Value V] (codec : Codec V E)
    (lru : LRUCacheGeneric String V) (r : List Nat) (clock : Nat → Nat) (err : E)
    (hdec : codec.decode r = .error err) :
    LoadItems codec lru r clock = some (lru, some err) ∧
    (∀ (r1 : List Nat) (lru1 : LRUCacheGeneric String V) (err1 : E),
      LoadItems codec lru r1 clock = some (lru1, some err1) →
      codec.decode r1 = .error err1 ∧ lru1 = lru) := by
  constructor
  · unfold LoadItems
    rw [hdec]
  · intro r1 lru1 err1 h1
    unfold LoadItems at h1
    cases hd : codec.decode r1 with
    | error e =>
      rw [hd] at h1
      simp only [Option.some.injEq, Prod.mk.injEq] at h1
      obtain ⟨h2, h3⟩ := h1
      rw [h2, h3]
      exact ⟨rfl, rfl⟩
    | ok items =>
      rw [hd] at h1
      simp only at h1
      cases hs : setItems clock lru items 0 with
      | none =>
        rw [hs] at h1
        cases h1
      | some lru2 =>
        rw [hs] at h1
        simp only [Option.map_some', Option.some.injEq, Prod.mk.injEq] at h1
        exact absurd h1.2 (by simp)

/-- C23 witness: the snapshot of the cache holding C, B, A cut short by one
byte does not decode; `LoadItems` of it into that cache returns the error and
the cache as it was, as does `LoadItems` of the empty stream. -/
theorem C23_load_error_unchanged_witness :
    blobCodec.decode [3, 1, 67, 3, 1, 66, 3, 1, 65] = .error "truncated" ∧
    LoadItems blobCodec stateABC [3, 1, 67, 3, 1, 66, 3, 1, 65] (fun i => 20 + i)
      = some (stateABC, some "truncated") ∧
    LoadItems blobCodec stateABC [] (fun i => 20 + i) = some (stateABC, some "empty stream") :=
  ⟨by decide,
    (C23_load_error_unchanged blobCodec stateABC [3, 1, 67, 3, 1, 66, 3, 1, 65]
      (fun i => 20 + i) "truncated" (by decide)).1,
    (C23_load_error_unchanged blobCodec stateABC [] (fun i => 20 + i) "empty stream"
      (by decide)).1⟩

end Cache

namespace Ratelimit

section MapLemmas

variable {α : Type}

theorem mapGet_mem {m : List (String × α)} {k : String} {a : α}
    (h : mapGet m k = some a) : (k, a) ∈ m := by
  induction m with
  | nil => cases h
  | cons p m ih =>
    obtain ⟨k1, a1⟩ := p
    unfold mapGet at h
    by_cases hk : k1 = k
    · simp only [hk, if_true, Option.some.injEq] at h
      subst hk h
      exact List.mem_cons_self _ _
    · simp only [hk, if_false] at h
      exact List.mem_cons_of_mem _ (ih h)

theorem mapGet_none_iff {m : List (String × α)} {k : String} :
    mapGet m k = none ↔ k ∉ m.map Prod.fst := by
  induction m with
  | nil => simp [mapGet]
  | cons p m ih =>
    obtain ⟨k1, a1⟩ := p
    unfold mapGet
    by_cases hk : k1 = k
    · simp [hk]
    · simp only [hk, if_false, ih, List.map_cons, List.mem_cons, not_or]
      exact ⟨fun h => ⟨fun h1 => hk h1.symm, h⟩, fun h => h.2⟩

theorem mapGet_map {m : List (String × α)} {k : String} (f : String × α → String × α)
    (hf : ∀ p, (f p).1 = p.1) :
    mapGet (m.map f) k = (mapGet m k).map (fun a => (f (k, a)).2) := by
  induction m with
  | nil => rfl
  | cons p m ih =>
    obtain ⟨k1, a1⟩ := p
    have h1 : f (k1, a1) = (k1, (f (k1, a1)).2) :=
      Prod.ext (hf (k1, a1)) rfl
    rw [List.map_cons, h1]
    unfold mapGet
    by_cases hk : k1 = k
    · subst hk
      simp
    · simp only [hk, if_false]
      exact ih

theorem mapGet_mapSet_self (m : List (String × α)) (k : String) (a : α) :
    mapGet (mapSet m k a) k = some a := by
  unfold mapSet
  cases h : mapGet m k with
  | none => simp [mapGet]
  | some b =>
    simp only
    rw [mapGet_map _ (fun p => by by_cases hp : p.1 = k <;> simp [hp]), h]
    simp

theorem mapGet_mapSet_ne (m : List (String × α)) {k k1 : String} (a : α) (hk : k1 ≠ k) :
    mapGet (mapSet m k a) k1 = mapGet m k1 := by
  unfold mapSet
  cases h : mapGet m k with
  | none => simp [mapGet, hk.symm]
  | some b =>
    simp only
    rw [mapGet_map _ (fun p => by by_cases hp : p.1 = k <;> simp [hp])]
    cases h1 : mapGet m k1 with
    | none => rfl
    | some c => simp [hk]

theorem mem_mapSet {m : List (String × α)} {k : String} {a : α} {p : String × α}
    (h : p ∈ mapSet m k a) : p = (k, a) ∨ (p ∈ m ∧ p.1 ≠ k) := by
  unfold mapSet at h
  cases hg : mapGet m k with
  | none =>
    rw [hg] at h
    rcases List.mem_cons.1 h with h | h
    · exact Or.inl h
    · right
      refine ⟨h, fun hp => ?_⟩
      exact mapGet_none_iff.1 hg (List.mem_map.2 ⟨p, h, hp⟩)
  | some b =>
    rw [hg] at h
    obtain ⟨q, hq, rfl⟩ := List.mem_map.1 h
    by_cases hqk : q.1 = k
    · left
      simp [hqk]
    · right
      simp only [hqk, if_false]
      exact ⟨hq, hqk⟩

theorem mem_mapDel {m : List (String × α)} {k : String} {p : String × α} :
    p ∈ mapDel m k ↔ p ∈ m ∧ p.1 ≠ k := by
  simp [mapDel]

theorem mapGet_mapDel (m : List (String × α)) (k k1 : String) :
    mapGet (mapDel m k) k1 = if k = k1 then none else mapGet m k1 := by
  induction m with
  | nil => simp [mapDel, mapGet]
  | cons p m ih =>
    obtain ⟨k2, a⟩ := p
    unfold mapDel at ih ⊢
    by_cases h1 : k2 = k
    · subst h1
      simp only [List.filter_cons, ne_eq, not_true_eq_false, decide_False, Bool.false_eq_true,
        if_false, ih, mapGet]
      by_cases h2 : k2 = k1 <;> simp [h2]
    · simp only [List.filter_cons, ne_eq, h1, not_false_eq_true, decide_True, if_true, mapGet, ih]
      by_cases h2 : k = k1
      · subst h2; simp [h1]
      · simp [h2]

end MapLemmas

theorem wrapInt_eq {x : Int} (h1 : -9223372036854775808 ≤ x) (h2 : x < 9223372036854775808) :
    Cache.wrapInt x = x := by
  unfold Cache.wrapInt
  omega

section Gate

variable {L C R : Type}

theorem AllowConnection_denied (lib : RateLib L C R) (rl : ConnectionRateLimiter L)
    (key : String) (now : Nat) (h : (Allow lib rl.RateLimiter key now).2 = false) :
    AllowConnection lib rl key now
      = ({ rl with RateLimiter := (Allow lib rl.RateLimiter key now).1 }, false) := by
  unfold AllowConnection
  cases hA : Allow lib rl.RateLimiter key now with
  | mk r1 ok =>
    rw [hA] at h
    simp only at h
    subst h
    simp

theorem AllowConnection_full (lib : RateLib L C R) (rl : ConnectionRateLimiter L)
    (key : String) (now : Nat) (h : (Allow lib rl.RateLimiter key now).2 = true)
    (hc : rl.maxConnections ≤ readCount rl key) :
    AllowConnection lib rl key now
      = ({ rl with RateLimiter := (Allow lib rl.RateLimiter key now).1 }, false) := by
  unfold AllowConnection
  cases hA : Allow lib rl.RateLimiter key now with
  | mk r1 ok =>
    rw [hA] at h
    simp only at h
    subst h
    have hc1 : readCount ({ rl with RateLimiter := r1 } : ConnectionRateLimiter L) key
        ≥ rl.maxConnections := hc
    simp [hc1]

theorem AllowConnection_ok (lib : RateLib L C R) (rl : ConnectionRateLimiter L)
    (key : String) (now : Nat) (h : (Allow lib rl.RateLimiter key now).2 = true)
    (hc : readCount rl key < rl.maxConnections) :
    AllowConnection lib rl key now
      = (incrCount { rl with RateLimiter := (Allow lib rl.RateLimiter key now).1 } key,
          true) := by
  unfold AllowConnection
  cases hA : Allow lib rl.RateLimiter key now with
  | mk r1 ok =>
    rw [hA] at h
    simp only at h
    subst h
    have hc1 : ¬ (readCount ({ rl with RateLimiter := r1 } : ConnectionRateLimiter L) key
        ≥ rl.maxConnections) := not_le.2 hc
    simp [hc1]

theorem readCount_nonneg {rl : ConnectionRateLimiter L} (h : CountsOK rl) (key : String) :
    0 ≤ readCount rl key := by
  unfold readCount
  cases hg : mapGet rl.connections key with
  | none => simp
  | some c =>
    have := (h _ (mapGet_mem hg)).1
    simp only [Option.getD_some]
    omega

theorem readCount_le {rl : ConnectionRateLimiter L} (h : CountsOK rl)
    (hm : 0 ≤ rl.maxConnections) (key : String) : readCount rl key ≤ rl.maxConnections := by
  unfold readCount
  cases hg : mapGet rl.connections key with
  | none => simpa using hm
  | some c =>
    have := (h _ (mapGet_mem hg)).2
    simpa using this

theorem AllowConnection_maxConnections (lib : RateLib L C R) (rl : ConnectionRateLimiter L)
    (key : String) (now : Nat) :
    (AllowConnection lib rl key now).1.maxConnections = rl.maxConnections := by
  cases hA : (Allow lib rl.RateLimiter key now).2 with
  | false => rw [AllowConnection_denied lib rl key now hA]
  | true =>
    by_cases hc : rl.maxConnections ≤ readCount rl key
    · rw [AllowConnection_full lib rl key now hA hc]
    · rw [AllowConnection_ok lib rl key now hA (not_le.1 hc)]
      rfl

theorem AllowConnection_countsOK (lib : RateLib L C R) {rl : ConnectionRateLimiter L}
    (h : CountsOK rl) (hm : rl.maxConnections < 9223372036854775808)
    (key : String) (now : Nat) : CountsOK (AllowConnection lib rl key now).1 := by
  cases hA : (Allow lib rl.RateLimiter key now).2 with
  | false =>
    rw [AllowConnection_denied lib rl key now hA]
    exact h
  | true =>
    by_cases hc : rl.maxConnections ≤ readCount rl key
    · rw [AllowConnection_full lib rl key now hA hc]
      exact h
    · rw [AllowConnection_ok lib rl key now hA (not_le.1 hc)]
      intro p hp
      have h0 := readCount_nonneg h key
      have hw : Cache.wrapInt (readCount rl key + 1) = readCount rl key + 1 :=
        wrapInt_eq (by omega) (by omega)
      have hp1 : p ∈ mapSet rl.connections key (Cache.wrapInt (readCount rl key + 1)) := hp
      rcases mem_mapSet hp1 with rfl | ⟨hp2, _⟩
      · show 0 < Cache.wrapInt (readCount rl key + 1) ∧
          Cache.wrapInt (readCount rl key + 1) ≤ rl.maxConnections
        rw [hw]
        omega
      · exact h p hp2

theorem ReleaseConnection_maxConnections (rl : ConnectionRateLimiter L) (key : String) :
    (ReleaseConnection rl key).maxConnections = rl.maxConnections := by
  unfold ReleaseConnection
  cases hg : mapGet rl.connections key with
  | none => rfl
  | some c =>
    simp only
    split_ifs <;> rfl

theorem ReleaseConnection_absent (rl : ConnectionRateLimiter L) (key : String)
    (h : mapGet rl.connections key = none) : ReleaseConnection rl key = rl := by
  unfold ReleaseConnection
  rw [h]

theorem ReleaseConnection_countsOK {rl : ConnectionRateLimiter L}
    (h : CountsOK rl) (hm : rl.maxConnections < 9223372036854775808) (key : String) :
    CountsOK (ReleaseConnection rl key) := by
  unfold ReleaseConnection
  cases hg : mapGet rl.connections key with
  | none => exact h
  | some c =>
    have hc := h _ (mapGet_mem hg)
    simp only at hc
    have hw : Cache.wrapInt (c - 1) = c - 1 := wrapInt_eq (by omega) (by omega)
    have hread : readCount (⟨rl.RateLimiter, rl.maxConnections,
        mapSet rl.connections key (Cache.wrapInt (c - 1))⟩ : ConnectionRateLimiter L) key
        = c - 1 := by
      unfold readCount
      show (mapGet (mapSet rl.connections key (Cache.wrapInt (c - 1))) key).getD 0 = c - 1
      rw [mapGet_mapSet_self, hw]
      rfl
    simp only [hc.1, if_true, hread]
    by_cases h1 : c - 1 = 0
    · rw [if_pos h1]
      intro p hp
      have hp1 : p ∈ mapDel (mapSet rl.connections key (Cache.wrapInt (c - 1))) key := hp
      obtain ⟨hp2, hp3⟩ := mem_mapDel.1 hp1
      rcases mem_mapSet hp2 with rfl | ⟨hp4, _⟩
      · exact absurd rfl hp3
      · exact h p hp4
    · rw [if_neg h1]
      intro p hp
      have hp1 : p ∈ mapSet rl.connections key (Cache.wrapInt (c - 1)) := hp
      rcases mem_mapSet hp1 with rfl | ⟨hp4, _⟩
      · show 0 < Cache.wrapInt (c - 1) ∧ Cache.wrapInt (c - 1) ≤ rl.maxConnections
        rw [hw]
        omega
      · exact h p hp4

theorem gateStep_inv (lib : RateLib L C R) {rl : ConnectionRateLimiter L}
    (h : CountsOK rl) (hm : rl.maxConnections < 9223372036854775808) (op : GateOp) :
    CountsOK (gateStep lib rl op).1 ∧
      (gateStep lib rl op).1.maxConnections = rl.maxConnections := by
  cases op with
  | allow key now =>
    exact ⟨AllowConnection_countsOK lib h hm key now,
      AllowConnection_maxConnections lib rl key now⟩
  | release key =>
    exact ⟨ReleaseConnection_countsOK h hm key, ReleaseConnection_maxConnections rl key⟩

theorem gateRun_inv (lib : RateLib L C R) (ops : List GateOp) :
    ∀ {rl : ConnectionRateLimiter L}, CountsOK rl →
      rl.maxConnections < 9223372036854775808 →
      CountsOK (gateRun lib rl ops).1 ∧
        (gateRun lib rl ops).1.maxConnections = rl.maxConnections := by
  induction ops with
  | nil => intro rl h _; exact ⟨h, rfl⟩
  | cons op ops ih =>
    intro rl h hm
    obtain ⟨h1, h2⟩ := gateStep_inv lib h hm op
    obtain ⟨h3, h4⟩ := ih h1 (by rw [h2]; exact hm)
    exact ⟨h3, h4.trans h2⟩

theorem countsOK_new (rps : Rat) (burst maxConn : Int) :
    CountsOK (NewConnectionRateLimiter rps burst maxConn : ConnectionRateLimiter L) := by
  intro p hp
  cases hp

end Gate

/-- C15: in every state reached from a new connection gate by sequential
`AllowConnection` and `ReleaseConnection` calls (the ceiling being a 64-bit
`int`), every stored counter is strictly positive, a key is in the map exactly
when its count is positive, `ReleaseConnection` of a key with no recorded count
leaves the gate unchanged, and no release produces a zero or negative stored
counter. -/
theorem C15_counters_positive {L C R : Type} (lib : RateLib L C R) (rps : Rat)
    (burst maxConn : Int) (hm : maxConn < 9223372036854775808) (ops : List GateOp)
    (s : ConnectionRateLimiter L)
    (hs : (gateRun lib (NewConnectionRateLimiter rps burst maxConn) ops).1 = s) :
    (∀ p ∈ s.connections, 0 < p.2) ∧
    (∀ k, (mapGet s.connections k).isSome ↔ 0 < readCount s k) ∧
    (∀ k, mapGet s.connections k = none → ReleaseConnection s k = s) ∧
    (∀ k, ∀ p ∈ (ReleaseConnection s k).connections, 0 < p.2) := by
  obtain ⟨hinv, hmax⟩ := gateRun_inv lib ops
    (countsOK_new (L := L) rps burst maxConn) hm
  rw [hs] at hinv hmax
  have hm1 : s.maxConnections < 9223372036854775808 := by rw [hmax]; exact hm
  refine ⟨fun p hp => (hinv p hp).1, ?_, fun k hk => ReleaseConnection_absent s k hk,
    fun k p hp => (ReleaseConnection_countsOK hinv hm1 k p hp).1⟩
  intro k
  unfold readCount
  cases hg : mapGet s.connections k with
  | none => simp
  | some c =>
    have := (hinv _ (mapGet_mem hg)).1
    simpa using this

/-- C15 witness: one admission of "k" and four releases on a gate with ceiling 2 leave no counter. -/
theorem C15_counters_positive_witness :
    (2 : Int) < 9223372036854775808 ∧
    (gateRun bucketLib (NewConnectionRateLimiter 100 10 2) gateOverRelease).1.connections
      = [] ∧
    ((∀ p ∈ (gateRun bucketLib (NewConnectionRateLimiter 100 10 2) gateOverRelease).1.connections,
        0 < p.2) ∧
      (∀ k, (mapGet (gateRun bucketLib (NewConnectionRateLimiter 100 10 2)
          gateOverRelease).1.connections k).isSome ↔
        0 < readCount (gateRun bucketLib (NewConnectionRateLimiter 100 10 2) gateOverRelease).1 k) ∧
      (∀ k, mapGet (gateRun bucketLib (NewConnectionRateLimiter 100 10 2)
          gateOverRelease).1.connections k = none →
        ReleaseConnection (gateRun bucketLib (NewConnectionRateLimiter 100 10 2) gateOverRelease).1 k
          = (gateRun bucketLib (NewConnectionRateLimiter 100 10 2) gateOverRelease).1) ∧
      (∀ k, ∀ p ∈ (ReleaseConnection
          (gateRun bucketLib (NewConnectionRateLimiter 100 10 2) gateOverRelease).1 k).connections,
        0 < p.2)) :=
  ⟨by decide, by decide,
    C15_counters_positive bucketLib 100 10 2 (by decide) gateOverRelease _ rfl⟩

/-- C14: on a connection gate with ceiling `m ≥ 0` (a 64-bit `int`) used
sequentially from a new gate, in every reached state the count of a key is at
most `m`, and an `AllowConnection(k)` that the token bucket admits returns true
exactly when the count of `k` is below `m`; it then adds one to the count, and
leaves the counters unchanged otherwise. -/
theorem C14_gate_ceiling {L C R : Type} (lib : RateLib L C R) (rps : Rat)
    (burst m : Int) (h0 : 0 ≤ m) (hm : m < 9223372036854775808) (ops : List GateOp)
    (s : ConnectionRateLimiter L)
    (hs : (gateRun lib (NewConnectionRateLimiter rps burst m) ops).1 = s)
    (key : String) (now : Nat) (hadm : (Allow lib s.RateLimiter key now).2 = true) :
    readCount s key ≤ m ∧
    ((AllowConnection lib s key now).2 = true ↔ readCount s key < m) ∧
    ((AllowConnection lib s key now).2 = true →
      readCount (AllowConnection lib s key now).1 key = readCount s key + 1) ∧
    ((AllowConnection lib s key now).2 = false →
      (AllowConnection lib s key now).1.connections = s.connections) ∧
    readCount (AllowConnection lib s key now).1 key ≤ m := by
  obtain ⟨hinv, hmax⟩ := gateRun_inv lib ops
    (countsOK_new (L := L) rps burst m) hm
  rw [hs] at hinv hmax
  have hmax1 : s.maxConnections = m := hmax
  have hle : readCount s key ≤ m := by
    rw [← hmax1]
    exact readCount_le hinv (by rw [hmax1]; exact h0) key
  have hnn := readCount_nonneg hinv key
  refine ⟨hle, ?_⟩
  by_cases hc : s.maxConnections ≤ readCount s key
  · rw [AllowConnection_full lib s key now hadm hc]
    rw [hmax1] at hc
    refine ⟨?_, ?_, ?_, ?_⟩
    · constructor
      · intro h; cases h
      · intro h; omega
    · intro h; cases h
    · intro _; rfl
    · exact hle
  · have hlt : readCount s key < s.maxConnections := not_le.1 hc
    rw [AllowConnection_ok lib s key now hadm hlt]
    rw [hmax1] at hlt
    have hw : Cache.wrapInt (readCount s key + 1) = readCount s key + 1 :=
      wrapInt_eq (by omega) (by omega)
    have hread : readCount (incrCount
        (⟨(Allow lib s.RateLimiter key now).1, s.maxConnections, s.connections⟩ :
          ConnectionRateLimiter L) key) key = readCount s key + 1 := by
      show (mapGet (mapSet s.connections key (Cache.wrapInt (readCount s key + 1)))
        key).getD 0 = readCount s key + 1
      rw [mapGet_mapSet_self, hw]
      rfl
    refine ⟨?_, ?_, ?_, ?_⟩
    · constructor
      · intro _; exact hlt
      · intro _; rfl
    · intro _; exact hread
    · intro h; cases h
    · rw [hread]; omega

/-- C14 witness: the scenario with ceiling 2: three `AllowConnection("k")`
calls return true, true, false; after one `ReleaseConnection("k")` the next
returns true; and the statement for the gate that holds two connections. -/
theorem C14_gate_ceiling_witness :
    (gateRun bucketLib (NewConnectionRateLimiter 100 10 2) gateOps).2
      = [some true, some true, some false, none, some true] ∧
    (0 : Int) ≤ 2 ∧ (2 : Int) < 9223372036854775808 ∧
    (Allow bucketLib gateFull.RateLimiter "k" 3).2 = true ∧
    (readCount gateFull "k" ≤ 2 ∧
      ((AllowConnection bucketLib gateFull "k" 3).2 = true ↔ readCount gateFull "k" < 2) ∧
      ((AllowConnection bucketLib gateFull "k" 3).2 = true →
        readCount (AllowConnection bucketLib gateFull "k" 3).1 "k"
          = readCount gateFull "k" + 1) ∧
      ((AllowConnection bucketLib gateFull "k" 3).2 = false →
        (AllowConnection bucketLib gateFull "k" 3).1.connections = gateFull.connections) ∧
      readCount (AllowConnection bucketLib gateFull "k" 3).1 "k" ≤ 2) :=
  ⟨by decide, by decide, by decide, by decide,
    C14_gate_ceiling bucketLib 100 10 2 (by decide) (by decide)
      [.allow "k" 1, .allow "k" 2] gateFull rfl "k" 3 (by decide)⟩

/-- C16: for every gate state and key, if the token bucket denies,
`AllowConnection` returns false and the counter map is unchanged; if the bucket
admits and the count of the key is at or above the ceiling, it returns false,
the counter map is unchanged and the limiter is left as `Allow` left it (the
token stays consumed); in all cases the limiter is as `Allow` left it and the
counters of all other keys are unchanged. -/
theorem C16_denied_frame {L C R : Type} (lib : RateLib L C R)
    (rl : ConnectionRateLimiter L) (key : String) (now : Nat) :
    ((Allow lib rl.RateLimiter key now).2 = false →
      (AllowConnection lib rl key now).2 = false ∧
      (AllowConnection lib rl key now).1.connections = rl.connections) ∧
    ((Allow lib rl.RateLimiter key now).2 = true →
      rl.maxConnections ≤ readCount rl key →
      (AllowConnection lib rl key now).2 = false ∧
      (AllowConnection lib rl key now).1.connections = rl.connections) ∧
    (AllowConnection lib rl key now).1.RateLimiter = (Allow lib rl.RateLimiter key now).1 ∧
    (∀ k, k ≠ key →
      mapGet (AllowConnection lib rl key now).1.connections k = mapGet rl.connections k) := by
  cases hA : (Allow lib rl.RateLimiter key now).2 with
  | false =>
    rw [AllowConnection_denied lib rl key now hA]
    exact ⟨fun _ => ⟨rfl, rfl⟩, fun h => (by cases h), rfl, fun _ _ => rfl⟩
  | true =>
    by_cases hc : rl.maxConnections ≤ readCount rl key
    · rw [AllowConnection_full lib rl key now hA hc]
      exact ⟨fun h => (by cases h), fun _ _ => ⟨rfl, rfl⟩, rfl, fun _ _ => rfl⟩
    · rw [AllowConnection_ok lib rl key now hA (not_le.1 hc)]
      refine ⟨fun h => (by cases h), fun _ h => absurd h hc, rfl, fun k hk => ?_⟩
      show mapGet (mapSet rl.connections key _) k = mapGet rl.connections k
      exact mapGet_mapSet_ne _ _ hk

/-- C16 witness: the gate at its ceiling of 2, whose bucket admits (the call
returns false and takes a token), and the gate whose bucket is drained. -/
theorem C16_denied_frame_witness :
    ((Allow bucketLib gateFull.RateLimiter "k" 3).2 = true ∧
      gateFull.maxConnections ≤ readCount gateFull "k" ∧
      (AllowConnection bucketLib gateFull "k" 3).2 = false ∧
      (AllowConnection bucketLib gateFull "k" 3).1.connections = gateFull.connections ∧
      (AllowConnection bucketLib gateFull "k" 3).1.RateLimiter ≠ gateFull.RateLimiter) ∧
    ((Allow bucketLib gateDrained.RateLimiter "k" 1).2 = false ∧
      (AllowConnection bucketLib gateDrained "k" 1).2 = false ∧
      (AllowConnection bucketLib gateDrained "k" 1).1.connections
        = gateDrained.connections) :=
  ⟨⟨by decide, by decide,
      ((C16_denied_frame bucketLib gateFull "k" 3).2.1 (by decide) (by decide)).1,
      ((C16_denied_frame bucketLib gateFull "k" 3).2.1 (by decide) (by decide)).2,
      by decide⟩,
    by decide, ((C16_denied_frame bucketLib gateDrained "k" 1).1 (by decide)).1,
    ((C16_denied_frame bucketLib gateDrained "k" 1).1 (by decide)).2⟩

/-- The three atomic steps of a goroutine, taken without interruption, are the
method `AllowConnection`. -/
theorem allowStep_sequential {L C R : Type} (lib : RateLib L C R)
    (rl : ConnectionRateLimiter L) (key : String) (now : Nat) :
    allowStep lib
        (allowStep lib (allowStep lib rl key now .start).1 key now
          (allowStep lib rl key now .start).2).1 key now
        (allowStep lib (allowStep lib rl key now .start).1 key now
          (allowStep lib rl key now .start).2).2
      = ((AllowConnection lib rl key now).1, .done (AllowConnection lib rl key now).2) := by
  cases hA : (Allow lib rl.RateLimiter key now).2 with
  | false =>
    rw [AllowConnection_denied lib rl key now hA]
    have h1 : allowStep lib rl key now .start
        = ({ rl with RateLimiter := (Allow lib rl.RateLimiter key now).1 }, .done false) := by
      show ({ rl with RateLimiter := (Allow lib rl.RateLimiter key now).1 },
        if (Allow lib rl.RateLimiter key now).2 then Pc.admitted else Pc.done false) = _
      rw [hA]
      rfl
    rw [h1]
    rfl
  | true =>
    have h1 : allowStep lib rl key now .start
        = ({ rl with RateLimiter := (Allow lib rl.RateLimiter key now).1 }, .admitted) := by
      show ({ rl with RateLimiter := (Allow lib rl.RateLimiter key now).1 },
        if (Allow lib rl.RateLimiter key now).2 then Pc.admitted else Pc.done false) = _
      rw [hA]
      rfl
    rw [h1]
    by_cases hc : rl.maxConnections ≤ readCount rl key
    · rw [AllowConnection_full lib rl key now hA hc]
      have hc1 : readCount ({ rl with RateLimiter := (Allow lib rl.RateLimiter key now).1 } :
          ConnectionRateLimiter L) key ≥ rl.maxConnections := hc
      simp only [allowStep, hc1, if_true]
    · rw [AllowConnection_ok lib rl key now hA (not_le.1 hc)]
      have hc1 : ¬ (readCount ({ rl with RateLimiter := (Allow lib rl.RateLimiter key now).1 } :
          ConnectionRateLimiter L) key ≥ rl.maxConnections) := hc
      simp only [allowStep, hc1, if_false]

/-- C18 (fails in the code): on a gate with ceiling 1, two goroutines call
`AllowConnection("k")` and both read the count 0 between `RLock` and `RUnlock`
before either increments it between `Lock` and `Unlock`: both calls return true
and the count recorded for "k" is 2, above the ceiling.  When the first call
returns before the second starts, the second returns false and the count is 1. -/
theorem C18_ceiling_exceeded_when_interleaved :
    (runSchedule bucketLib raceStart raceSchedule).2
      = [⟨"k", 1, .done true⟩, ⟨"k", 1, .done true⟩] ∧
    readCount (runSchedule bucketLib raceStart raceSchedule).1 "k" = 2 ∧
    (runSchedule bucketLib raceStart raceSchedule).1.maxConnections = 1 ∧
    ¬ (readCount (runSchedule bucketLib raceStart raceSchedule).1 "k"
        ≤ (runSchedule bucketLib raceStart raceSchedule).1.maxConnections) ∧
    (runSchedule bucketLib raceStart serialSchedule).2
      = [⟨"k", 1, .done true⟩, ⟨"k", 1, .done false⟩] ∧
    readCount (runSchedule bucketLib raceStart serialSchedule).1 "k" = 1 := by
  decide

section Limiter

variable {L C R : Type}

theorem getLimiter_stored (lib : RateLib L C R) (rl : RateLimiter L) (key : String) :
    mapGet (getLimiter lib rl key).1.limiters key = some (getLimiter lib rl key).2 := by
  unfold getLimiter
  cases h : mapGet rl.limiters key with
  | some limiter => exact h
  | none => exact mapGet_mapSet_self _ _ _

theorem mapGet_writeLimiter_self (rl : RateLimiter L) (key : String) (l : LimiterRef L)
    (st : L) (h : mapGet rl.limiters key = some l) :
    mapGet (writeLimiter rl l.addr st).limiters key = some { l with state := st } := by
  unfold writeLimiter
  simp only
  rw [mapGet_map _ (fun p => by by_cases hp : p.2.addr = l.addr <;> simp [hp]), h]
  simp

theorem Allow_result (lib : RateLib L C R) (rl : RateLimiter L) (key : String) (now : Nat) :
    (Allow lib rl key now).2 = (lib.Allow (getLimiter lib rl key).2.state now).2 ∧
    mapGet (Allow lib rl key now).1.limiters key
      = some { (getLimiter lib rl key).2 with
          state := (lib.Allow (getLimiter lib rl key).2.state now).1 } := by
  refine ⟨rfl, ?_⟩
  exact mapGet_writeLimiter_self _ key _ _ (getLimiter_stored lib rl key)

end Limiter

theorem getLimiter_bucketOf (rl : RateLimiter Bucket) (key : String) :
    (getLimiter bucketLib rl key).2.state = bucketOf rl key := by
  unfold getLimiter bucketOf
  cases h : mapGet rl.limiters key with
  | some limiter => rfl
  | none => rfl

/-- C17: with the token bucket of the specification as the limiter, a rate
limiter created with rate 1 per second and burst 1 answers true to a first
`Allow(key)` at the reading `t0`, false to a second at `t1` less than a second
later, and true to a third at `t2` at least a second after the first.  For every
rate limiter, key and reading `now`, `Allow` returns true exactly when the
bucket of the key, refilled at the rate since its last reading and capped at
the burst, holds at least one token, and it stores the bucket with one token
less in that case and the refilled bucket otherwise. -/
theorem C17_allow_token_bucket (cleanup : Nat) (key : String) (t0 t1 t2 : Nat)
    (h01 : t0 ≤ t1) (h1 : t1 < t0 + 1000000000) (h2 : t0 + 1000000000 ≤ t2) :
    ((Allow bucketLib (NewRateLimiter 1 1 cleanup) key t0).2 = true ∧
      (Allow bucketLib (Allow bucketLib (NewRateLimiter 1 1 cleanup) key t0).1 key t1).2
        = false ∧
      (Allow bucketLib
        (Allow bucketLib (Allow bucketLib (NewRateLimiter 1 1 cleanup) key t0).1 key t1).1
        key t2).2 = true) ∧
    (∀ (rl : RateLimiter Bucket) (k : String) (now : Nat),
      ((Allow bucketLib rl k now).2 = true ↔
        (bucketOf rl k).unit ≤ (bucketOf rl k).refill now) ∧
      ((bucketOf rl k).unit ≤ (bucketOf rl k).refill now →
        bucketOf (Allow bucketLib rl k now).1 k
          = { bucketOf rl k with
              tokens := (bucketOf rl k).refill now - (bucketOf rl k).unit, last := now }) ∧
      (¬ (bucketOf rl k).unit ≤ (bucketOf rl k).refill now →
        bucketOf (Allow bucketLib rl k now).1 k
          = { bucketOf rl k with tokens := (bucketOf rl k).refill now, last := now })) := by
  have hgen : ∀ (rl : RateLimiter Bucket) (k : String) (now : Nat),
      (Allow bucketLib rl k now).2 = ((bucketOf rl k).allow now).2 ∧
      bucketOf (Allow bucketLib rl k now).1 k = ((bucketOf rl k).allow now).1 := by
    intro rl k now
    obtain ⟨hr, hs⟩ := Allow_result bucketLib rl k now
    rw [getLimiter_bucketOf] at hr hs
    refine ⟨hr, ?_⟩
    unfold bucketOf
    rw [hs]
    rfl
  have hnew : bucketOf (NewRateLimiter 1 1 cleanup) key = ⟨1, 1, 1000000000, 0⟩ := by
    show Bucket.new 1 1 = _
    unfold Bucket.new
    simp
  have hu : ∀ (tokens : Int) (last : Nat), (⟨1, 1, tokens, last⟩ : Bucket).unit = 1000000000 := by
    intro tokens last
    unfold Bucket.unit
    simp
  have hr : ∀ (tokens : Int) (last now : Nat), (⟨1, 1, tokens, last⟩ : Bucket).refill now
      = min 1000000000 (tokens + ((now - last : Nat) : Int)) := by
    intro tokens last now
    unfold Bucket.refill
    rw [hu]
    simp
  have ha : ∀ (tokens : Int) (last now : Nat), (⟨1, 1, tokens, last⟩ : Bucket).allow now
      = if (1000000000 : Int) ≤ min 1000000000 (tokens + ((now - last : Nat) : Int)) then
          (⟨1, 1, min 1000000000 (tokens + ((now - last : Nat) : Int)) - 1000000000, now⟩, true)
        else (⟨1, 1, min 1000000000 (tokens + ((now - last : Nat) : Int)), now⟩, false) := by
    intro tokens last now
    unfold Bucket.allow
    rw [hr, hu]
  refine ⟨?_, ?_⟩
  · obtain ⟨r0, s0⟩ := hgen (NewRateLimiter 1 1 cleanup) key t0
    rw [hnew, ha] at r0 s0
    have c0 : (1000000000 : Int) ≤ min 1000000000 (1000000000 + ((t0 - 0 : Nat) : Int)) := by
      omega
    rw [if_pos c0] at r0 s0
    have e0 : min (1000000000 : Int) (1000000000 + ((t0 - 0 : Nat) : Int)) - 1000000000 = 0 := by
      omega
    rw [e0] at s0
    obtain ⟨r1, s1⟩ := hgen (Allow bucketLib (NewRateLimiter 1 1 cleanup) key t0).1 key t1
    rw [s0, ha] at r1 s1
    have c1 : ¬ (1000000000 : Int) ≤ min 1000000000 (0 + ((t1 - t0 : Nat) : Int)) := by
      omega
    rw [if_neg c1] at r1 s1
    have e1 : min (1000000000 : Int) (0 + ((t1 - t0 : Nat) : Int)) = ((t1 - t0 : Nat) : Int) := by
      omega
    rw [e1] at s1
    obtain ⟨r2, _⟩ := hgen
      (Allow bucketLib (Allow bucketLib (NewRateLimiter 1 1 cleanup) key t0).1 key t1).1 key t2
    rw [s1, ha] at r2
    have c2 : (1000000000 : Int)
        ≤ min 1000000000 (((t1 - t0 : Nat) : Int) + ((t2 - t1 : Nat) : Int)) := by
      omega
    rw [if_pos c2] at r2
    exact ⟨r0, r1, r2⟩
  · intro rl k now
    obtain ⟨hr1, hs1⟩ := hgen rl k now
    rw [hr1, hs1]
    unfold Bucket.allow
    by_cases hc : (bucketOf rl k).unit ≤ (bucketOf rl k).refill now
    · rw [if_pos hc]
      exact ⟨⟨fun _ => hc, fun _ => rfl⟩, fun _ => rfl, fun h => absurd hc h⟩
    · rw [if_neg hc]
      exact ⟨⟨fun h => (by cases h), fun h => absurd h hc⟩, fun h => absurd h hc,
        fun _ => rfl⟩

/-- C17 witness: with rate 1 and burst 1, `Allow("k")` at the readings 5, 5 and
1000000005 nanoseconds returns true, false, true. -/
theorem C17_allow_token_bucket_witness :
    (5 : Nat) ≤ 5 ∧ (5 : Nat) < 5 + 1000000000 ∧ (5 : Nat) + 1000000000 ≤ 1000000005 ∧
    (Allow bucketLib (NewRateLimiter 1 1 0) "k" 5).2 = true ∧
    (Allow bucketLib (Allow bucketLib (NewRateLimiter 1 1 0) "k" 5).1 "k" 5).2 = false ∧
    (Allow bucketLib
      (Allow bucketLib (Allow bucketLib (NewRateLimiter 1 1 0) "k" 5).1 "k" 5).1
      "k" 1000000005).2 = true :=
  ⟨by decide, by decide, by decide,
    (C17_allow_token_bucket 0 "k" 5 5 1000000005 (by decide) (by decide) (by decide)).1⟩

section Buckets

variable {L C R : Type}

theorem writeLimiter_keys (rl : RateLimiter L) (a : Nat) (st : L) :
    limiterKeys (writeLimiter rl a st) = limiterKeys rl := by
  unfold limiterKeys writeLimiter
  simp only [List.map_map]
  apply List.map_congr_left
  intro p _
  by_cases hp : p.2.addr = a <;> simp [hp]

theorem writeLimiter_addrs (rl : RateLimiter L) (a : Nat) (st : L) :
    (writeLimiter rl a st).limiters.map (fun p => p.2.addr)
      = rl.limiters.map (fun p => p.2.addr) := by
  unfold writeLimiter
  simp only [List.map_map]
  apply List.map_congr_left
  intro p _
  by_cases hp : p.2.addr = a <;> simp [hp]

theorem writeLimiter_inv {rl : RateLimiter L} (h : RLInv rl) (a : Nat) (st : L) :
    RLInv (writeLimiter rl a st) := by
  obtain ⟨h1, h2, h3⟩ := h
  refine ⟨by rw [writeLimiter_keys]; exact h1, by rw [writeLimiter_addrs]; exact h2, ?_⟩
  intro p hp
  have hp1 : p ∈ rl.limiters.map
      (fun p => if p.2.addr = a then (p.1, { p.2 with state := st }) else p) := hp
  obtain ⟨q, hq, rfl⟩ := List.mem_map.1 hp1
  have hq3 : q.2.addr < rl.fresh := h3 q hq
  show (if q.2.addr = a then (q.1, ({ q.2 with state := st } : LimiterRef L)) else q).2.addr
    < rl.fresh
  split_ifs
  · exact hq3
  · exact hq3

theorem mapGet_writeLimiter (rl : RateLimiter L) (a : Nat) (st : L) (k : String) :
    mapGet (writeLimiter rl a st).limiters k
      = (mapGet rl.limiters k).map
          (fun l => if l.addr = a then { l with state := st } else l) := by
  unfold writeLimiter
  simp only
  rw [mapGet_map _ (fun p => by by_cases hp : p.2.addr = a <;> simp [hp])]
  cases mapGet rl.limiters k with
  | none => rfl
  | some l =>
    simp only [Option.map_some']
    by_cases hl : l.addr = a <;> simp [hl]

theorem getLimiter_absent (lib : RateLib L C R) (rl : RateLimiter L) (key : String)
    (h : mapGet rl.limiters key = none) :
    getLimiter lib rl key
      = (⟨(key, ⟨rl.fresh, lib.NewLimiter rl.limit rl.burst⟩) :: rl.limiters, rl.limit,
            rl.burst, rl.cleanup, rl.fresh + 1⟩,
          ⟨rl.fresh, lib.NewLimiter rl.limit rl.burst⟩) := by
  unfold getLimiter
  rw [h]
  simp only [mapSet, h]

theorem getLimiter_present (lib : RateLib L C R) (rl : RateLimiter L) (key : String)
    (l : LimiterRef L) (h : mapGet rl.limiters key = some l) :
    getLimiter lib rl key = (rl, l) := by
  unfold getLimiter
  rw [h]

theorem getLimiter_other (lib : RateLib L C R) (rl : RateLimiter L) {key k : String}
    (hk : k ≠ key) :
    mapGet (getLimiter lib rl key).1.limiters k = mapGet rl.limiters k := by
  cases h : mapGet rl.limiters key with
  | some l => rw [getLimiter_present lib rl key l h]
  | none =>
    rw [getLimiter_absent lib rl key h]
    show mapGet ((key, _) :: rl.limiters) k = _
    rw [mapGet, if_neg (fun e => hk e.symm)]

theorem getLimiter_kept (lib : RateLib L C R) (rl : RateLimiter L) {key k : String}
    {l : LimiterRef L} (hl : mapGet rl.limiters k = some l) :
    mapGet (getLimiter lib rl key).1.limiters k = some l := by
  by_cases hk : k = key
  · subst hk
    rw [getLimiter_present lib rl k l hl]
    exact hl
  · rw [getLimiter_other lib rl hk]
    exact hl

theorem getLimiter_params (lib : RateLib L C R) (rl : RateLimiter L) (key : String) :
    (getLimiter lib rl key).1.limit = rl.limit ∧ (getLimiter lib rl key).1.burst = rl.burst := by
  cases h : mapGet rl.limiters key with
  | some l =>
    rw [getLimiter_present lib rl key l h]
    exact ⟨rfl, rfl⟩
  | none =>
    rw [getLimiter_absent lib rl key h]
    exact ⟨rfl, rfl⟩

theorem getLimiter_keys (lib : RateLib L C R) (rl : RateLimiter L) (key k : String) :
    k ∈ limiterKeys (getLimiter lib rl key).1 ↔ k ∈ limiterKeys rl ∨ k = key := by
  cases h : mapGet rl.limiters key with
  | some l =>
    rw [getLimiter_present lib rl key l h]
    constructor
    · exact Or.inl
    · rintro (h1 | rfl)
      · exact h1
      · exact List.mem_map.2 ⟨(k, l), mapGet_mem h, rfl⟩
  | none =>
    rw [getLimiter_absent lib rl key h]
    show k ∈ key :: limiterKeys rl ↔ _
    rw [List.mem_cons]
    exact or_comm

theorem getLimiter_inv (lib : RateLib L C R) {rl : RateLimiter L} (h : RLInv rl)
    (key : String) : RLInv (getLimiter lib rl key).1 := by
  cases hg : mapGet rl.limiters key with
  | some l =>
    rw [getLimiter_present lib rl key l hg]
    exact h
  | none =>
    rw [getLimiter_absent lib rl key hg]
    obtain ⟨h1, h2, h3⟩ := h
    refine ⟨?_, ?_, ?_⟩
    · show (key :: limiterKeys rl).Nodup
      exact List.nodup_cons.2 ⟨mapGet_none_iff.1 hg, h1⟩
    · show (rl.fresh :: rl.limiters.map (fun p => p.2.addr)).Nodup
      refine List.nodup_cons.2 ⟨fun hm => ?_, h2⟩
      obtain ⟨q, hq, hqa⟩ := List.mem_map.1 hm
      have := h3 q hq
      omega
    · intro p hp
      show p.2.addr < rl.fresh + 1
      rcases List.mem_cons.1 hp with rfl | hp1
      · exact Nat.lt_succ_self _
      · exact Nat.lt_succ_of_lt (h3 p hp1)

theorem addr_ne_of_key_ne {rl : RateLimiter L} (h : RLInv rl) {k k1 : String}
    {l l1 : LimiterRef L} (hk : mapGet rl.limiters k = some l)
    (hk1 : mapGet rl.limiters k1 = some l1) (hne : k ≠ k1) : l.addr ≠ l1.addr := by
  intro he
  have := List.inj_on_of_nodup_map h.2.1 (mapGet_mem hk) (mapGet_mem hk1) he
  exact hne (congrArg Prod.fst this)

theorem rlStep_eq (lib : RateLib L C R) (rl : RateLimiter L) (op : RlOp C) :
    (op.key = none ∧ rlStep lib rl op = rl) ∨
    (∃ key st, op.key = some key ∧
      rlStep lib rl op
        = writeLimiter (getLimiter lib rl key).1 (getLimiter lib rl key).2.addr st) := by
  cases op with
  | allow key now => exact Or.inr ⟨key, _, rfl, rfl⟩
  | wait ctx key now => exact Or.inr ⟨key, _, rfl, rfl⟩
  | reserve key now => exact Or.inr ⟨key, _, rfl, rfl⟩
  | cleanup => exact Or.inl ⟨rfl, rfl⟩

theorem rlStep_inv (lib : RateLib L C R) {rl : RateLimiter L} (h : RLInv rl) (op : RlOp C) :
    RLInv (rlStep lib rl op) ∧ (rlStep lib rl op).limit = rl.limit ∧
      (rlStep lib rl op).burst = rl.burst := by
  rcases rlStep_eq lib rl op with ⟨_, he⟩ | ⟨key, st, _, he⟩
  · rw [he]
    exact ⟨h, rfl, rfl⟩
  · rw [he]
    exact ⟨writeLimiter_inv (getLimiter_inv lib h key) _ _, (getLimiter_params lib rl key).1,
      (getLimiter_params lib rl key).2⟩

theorem rlStep_keys (lib : RateLib L C R) (rl : RateLimiter L) (op : RlOp C) (k : String) :
    k ∈ limiterKeys (rlStep lib rl op) ↔ k ∈ limiterKeys rl ∨ op.key = some k := by
  rcases rlStep_eq lib rl op with ⟨hk, he⟩ | ⟨key, st, hk, he⟩
  · rw [he, hk]
    simp
  · rw [he, hk, writeLimiter_keys, getLimiter_keys]
    simp [eq_comm]

theorem rlRun_inv (lib : RateLib L C R) (ops : List (RlOp C)) :
    ∀ {rl : RateLimiter L}, RLInv rl →
      RLInv (rlRun lib rl ops) ∧ (rlRun lib rl ops).limit = rl.limit ∧
        (rlRun lib rl ops).burst = rl.burst := by
  induction ops with
  | nil => intro rl h; exact ⟨h, rfl, rfl⟩
  | cons op ops ih =>
    intro rl h
    obtain ⟨h1, h2, h3⟩ := rlStep_inv lib h op
    obtain ⟨h4, h5, h6⟩ := ih h1
    exact ⟨h4, h5.trans h2, h6.trans h3⟩

theorem rlRun_keys (lib : RateLib L C R) (ops : List (RlOp C)) (k : String) :
    ∀ rl : RateLimiter L,
      k ∈ limiterKeys (rlRun lib rl ops) ↔ k ∈ limiterKeys rl ∨ k ∈ seenKeys ops := by
  induction ops with
  | nil => intro rl; simp [rlRun, seenKeys]
  | cons op ops ih =>
    intro rl
    have h1 : rlRun lib rl (op :: ops) = rlRun lib (rlStep lib rl op) ops := rfl
    rw [h1, ih, rlStep_keys]
    unfold seenKeys
    rw [List.filterMap_cons]
    cases hk : op.key with
    | none => simp
    | some key => simp [or_assoc, eq_comm]

theorem rlStep_frame (lib : RateLib L C R) {rl : RateLimiter L} (h : RLInv rl) (op : RlOp C)
    {k : String} {l : LimiterRef L} (hl : mapGet rl.limiters k = some l) :
    ∃ l1, mapGet (rlStep lib rl op).limiters k = some l1 ∧ l1.addr = l.addr ∧
      (op.key ≠ some k → l1 = l) := by
  rcases rlStep_eq lib rl op with ⟨_, he⟩ | ⟨key, st, hk, he⟩
  · rw [he]
    exact ⟨l, hl, rfl, fun _ => rfl⟩
  · rw [he, mapGet_writeLimiter, getLimiter_kept lib rl hl]
    refine ⟨_, rfl, ?_, ?_⟩
    · simp only
      split_ifs <;> rfl
    · intro hne
      have hkk : k ≠ key := fun e => hne (by rw [hk, e])
      have ha := addr_ne_of_key_ne (getLimiter_inv lib h key) (getLimiter_kept lib rl hl)
        (getLimiter_stored lib rl key) hkk
      simp only
      rw [if_neg ha]

theorem inv_new (rps : Rat) (burst : Int) (cleanup : Nat) :
    RLInv (NewRateLimiter rps burst cleanup : RateLimiter L) := by
  refine ⟨List.nodup_nil, List.nodup_nil, ?_⟩
  intro p hp
  cases hp

end Buckets

/-- C20: in the state `s` a new rate limiter reaches by any sequence of
sequential `Allow`, `Wait`, `Reserve` and `performCleanup` calls, the map holds
no key twice and its keys are exactly the distinct keys the calls named (one
bucket for each); `getLimiter(k)` allocates and stores a limiter made with the
configured rate and burst when `k` has none, returns the stored limiter and
leaves the state unchanged otherwise, and in both cases leaves the entries of
all other keys as they were; `performCleanup` leaves the state unchanged; and
no call replaces a stored limiter (its address stays) or changes the limiter of
a key it does not name. -/
theorem C20_one_bucket_per_key {L C R : Type} (lib : RateLib L C R) (rps : Rat)
    (burst : Int) (cleanup : Nat) (ops : List (RlOp C)) (s : RateLimiter L)
    (hs : rlRun lib (NewRateLimiter rps burst cleanup) ops = s) :
    (limiterKeys s).Nodup ∧
    (∀ k, k ∈ limiterKeys s ↔ k ∈ seenKeys ops) ∧
    (limiterKeys s).Perm (seenKeys ops).dedup ∧
    (∀ k, mapGet s.limiters k = none →
      getLimiter lib s k
        = (⟨(k, ⟨s.fresh, lib.NewLimiter rps burst⟩) :: s.limiters, rps, burst, s.cleanup,
              s.fresh + 1⟩,
            ⟨s.fresh, lib.NewLimiter rps burst⟩)) ∧
    (∀ k l, mapGet s.limiters k = some l → getLimiter lib s k = (s, l)) ∧
    (∀ k k1, k1 ≠ k → mapGet (getLimiter lib s k).1.limiters k1 = mapGet s.limiters k1) ∧
    performCleanup s = s ∧
    (∀ (op : RlOp C) k l, mapGet s.limiters k = some l →
      ∃ l1, mapGet (rlStep lib s op).limiters k = some l1 ∧ l1.addr = l.addr ∧
        (op.key ≠ some k → l1 = l)) := by
  obtain ⟨hinv, hlimit, hburst⟩ := rlRun_inv lib ops
    (inv_new (L := L) rps burst cleanup)
  rw [hs] at hinv hlimit hburst
  have hlimit1 : s.limit = rps := hlimit
  have hburst1 : s.burst = burst := hburst
  have hkeys : ∀ k, k ∈ limiterKeys s ↔ k ∈ seenKeys ops := by
    intro k
    rw [← hs, rlRun_keys]
    constructor
    · rintro (h | h)
      · cases h
      · exact h
    · exact Or.inr
  refine ⟨hinv.1, hkeys, ?_, ?_, ?_, ?_, rfl, ?_⟩
  · refine (List.perm_ext_iff_of_nodup hinv.1 (List.nodup_dedup _)).2 (fun k => ?_)
    rw [hkeys, List.mem_dedup]
  · intro k hk
    rw [getLimiter_absent lib s k hk, hlimit1, hburst1]
  · intro k l hk
    exact getLimiter_present lib s k l hk
  · intro k k1 hk
    exact getLimiter_other lib s hk
  · intro op k l hl
    exact rlStep_frame lib hinv op hl

/-- C20 witness: after calls naming "a", "b", "a", "c", "b" (and one cleanup)
the map holds the three keys once each, and the statement for that state. -/
theorem C20_one_bucket_per_key_witness :
    limiterKeys (rlRun bucketLib (NewRateLimiter 1 1 0) rlOps) = ["c", "b", "a"] ∧
    (rlRun bucketLib (NewRateLimiter 1 1 0) rlOps).limiters.map (fun p => p.2.addr)
      = [2, 1, 0] ∧
    (limiterKeys (rlRun bucketLib (NewRateLimiter 1 1 0) rlOps)).Nodup ∧
    (limiterKeys (rlRun bucketLib (NewRateLimiter 1 1 0) rlOps)).Perm (seenKeys rlOps).dedup ∧
    performCleanup (rlRun bucketLib (NewRateLimiter 1 1 0) rlOps)
      = rlRun bucketLib (NewRateLimiter 1 1 0) rlOps :=
  ⟨by decide, by decide,
    (C20_one_bucket_per_key bucketLib 1 1 0 rlOps _ rfl).1,
    (C20_one_bucket_per_key bucketLib 1 1 0 rlOps _ rfl).2.2.1,
    (C20_one_bucket_per_key bucketLib 1 1 0 rlOps _ rfl).2.2.2.2.2.2.1⟩

end Ratelimit
